import Mathlib

/-!
# simple-groupcache: eviction engines (LRU, LFU, ARC) and groups

A shallow embedding of the Go packages `cache-strategy/lru`, `cache-strategy/lfu`
and `cache-strategy/arc`, of `singlefilght` and of the group layer of the root package
(`group.go`, `mutex_cache.go`), followed by theorems about them.

Modelling conventions

* A Go `string` key is a Lean `String`; `len(key)` is its number of bytes,
  `String.utf8ByteSize`.
* `cachestrategy.Lengthable` is the class `Lengthable`: a value type with a size in
  bytes.  The nil interface value is not a member of the value type; where the code
  produces one (`Evict` on an empty cache returns `"", nil`) the result is an
  `Option`, and a method call on it is a panic.
* `int64`/`int` counters are unbounded `Int`: byte counts and frequencies of a cache
  that fits in memory stay far below `2^63`.
* A `*list.Element` is a handle: its index in the store `heap` of all elements
  allocated so far.  A `*list.List` is the sequence of handles of its elements, front
  first.  A Go `map` is an association list read with `mapGet`.
* A call either returns (`Outcome.ok`), panics (`Outcome.panic`), or is still inside a
  `for` loop after `fuel` evaluations of the loop condition (`Outcome.timeout`).
* An eviction callback is observed through the sequence of its calls (`evicted`).
* The group layer runs one call at a time: mutexes are left out.  A Go `error` is an
  `Option String`, a `[]byte` the sequence of its bytes, and a `*Group` a handle into the
  store of the groups allocated so far.  Calls to the origin and to peers are observed
  through the sequence of these calls (`log`).
-/

/-- Result of running a call of the program. -/
inductive Outcome (α : Type) where
  | ok (a : α)
  | panic
  | timeout
  deriving DecidableEq, Repr

/-- The value a call returned, if it returned. -/
def Outcome.result {α : Type} : Outcome α → Option α
  | .ok a => some a
  | .panic => none
  | .timeout => none

/-- Interface `cachestrategy.Lengthable`: `Len() int` is the memory size of the value in
bytes, a non-negative number. -/
class Lengthable (V : Type) where
  Len : V → Nat

/-- The test suites' `type String string` with `Len() = len(d)`. -/
instance instLengthableString : Lengthable String := ⟨String.utf8ByteSize⟩

/-- Go's `len(key)` for a string key, as an `int64`. -/
def keyLen (key : String) : Int := (key.utf8ByteSize : Int)

/-- Cost of an entry: `int64(len(key)) + int64(value.Len())`. -/
def kvCost {V : Type} [Lengthable V] (key : String) (value : V) : Int :=
  keyLen key + (Lengthable.Len value : Int)

/-- Go map read `m[k]` (with the `ok` flag as `Option`). -/
def mapGet {κ α : Type} [DecidableEq κ] : List (κ × α) → κ → Option α
  | [], _ => none
  | (k', a) :: t, k => if k' = k then some a else mapGet t k

/-- Go `delete(m, k)`. -/
def mapDelete {κ α : Type} [DecidableEq κ] (m : List (κ × α)) (k : κ) : List (κ × α) :=
  m.filter (fun e => decide (e.1 ≠ k))

/-- Go map write `m[k] = a`. -/
def mapSet {κ α : Type} [DecidableEq κ] (m : List (κ × α)) (k : κ) (a : α) : List (κ × α) :=
  (k, a) :: mapDelete m k

/-- Method `(*list.List).MoveToFront` of container/list, on a list that exists. -/
def listMoveToFront (l : List Nat) (e : Nat) : List Nat :=
  if e ∈ l then e :: l.erase e else l

/-- Method `(*list.List).Remove` of container/list, on a list that exists: unlink `e` if it is
an element of `l`. -/
def listRemove (l : List Nat) (e : Nat) : List Nat := l.erase e

/-- Method `(*list.List).Back` of container/list: the last element, or nil. -/
def listBack (l : List Nat) : Option Nat := l.getLast?

/-! ## Package lru -/

namespace lru

/-- The `Node` stored in a list element. -/
structure Node (V : Type) where
  key : String
  value : V
  deriving DecidableEq, Repr

/-- The LRU `Cache`.  `heap[e]` is the `*Node` held by element `e`. -/
structure Cache (V : Type) where
  MaxByte : Int
  CurrByte : Int
  hashmap : List (String × Nat)
  doublyLinkedList : List Nat
  heap : List (Node V)
  callback : Bool
  evicted : List (String × V)
  deriving DecidableEq, Repr

variable {V : Type} [Lengthable V]

/-- Constructor `New(maxBytes, callback)`; `callback = true` stands for a non-nil callback. -/
def New (maxBytes : Int) (callback : Bool) : Cache V :=
  { MaxByte := maxBytes, CurrByte := 0, hashmap := [], doublyLinkedList := [], heap := [],
    callback := callback, evicted := [] }

/-- Method `Len`. -/
def Len (c : Cache V) : Int := (c.doublyLinkedList.length : Int)

/-- Method `Contains`. -/
def Contains (c : Cache V) (key : String) : Bool :=
  match mapGet c.hashmap key with
  | some _ => true
  | none => false

/-- Method `Get`: the value (`none` for `nil, false`) and the state after the call. -/
def Get (c : Cache V) (key : String) : Outcome (Option V × Cache V) :=
  match mapGet c.hashmap key with
  | some elem =>
    match c.heap[elem]? with
    | some entry =>
      .ok (some entry.value,
        { c with doublyLinkedList := listMoveToFront c.doublyLinkedList elem })
    | none => .panic
  | none => .ok (none, c)

/-- Method `Evict`: the returned pair (`("", none)` for `"", nil`) and the state after. -/
def Evict (c : Cache V) : Outcome ((String × Option V) × Cache V) :=
  match listBack c.doublyLinkedList with
  | some tailElem =>
    match c.heap[tailElem]? with
    | some entry =>
      .ok ((entry.key, some entry.value),
        { c with
          hashmap := mapDelete c.hashmap entry.key
          doublyLinkedList := listRemove c.doublyLinkedList tailElem
          CurrByte := c.CurrByte - kvCost entry.key entry.value
          evicted := if c.callback then c.evicted ++ [(entry.key, entry.value)]
            else c.evicted })
    | none => .panic
  | none => .ok (("", none), c)

/-- The capacity loop of `Add`: `for c.MaxByte != 0 && c.CurrByte+kvSize > c.MaxByte { c.Evict() }`,
with `fuel` bounding the number of evaluations of the loop condition. -/
def evictLoop : Nat → Cache V → Int → Outcome (Cache V)
  | 0, _, _ => .timeout
  | fuel + 1, c, kvSize =>
    if c.MaxByte ≠ 0 ∧ c.CurrByte + kvSize > c.MaxByte then
      match Evict c with
      | .ok (_, c') => evictLoop fuel c' kvSize
      | .panic => .panic
      | .timeout => .timeout
    else .ok c

/-- The part of `Add` after the capacity loop. -/
def addEntry (c : Cache V) (key : String) (value : V) : Outcome (Cache V) :=
  match mapGet c.hashmap key with
  | some elem =>
    match c.heap[elem]? with
    | some oldEntry =>
      .ok { c with
        doublyLinkedList := listMoveToFront c.doublyLinkedList elem
        CurrByte := c.CurrByte + ((Lengthable.Len value : Int) - (Lengthable.Len oldEntry.value : Int))
        heap := c.heap.set elem { oldEntry with value := value } }
    | none => .panic
  | none =>
    .ok { c with
      heap := c.heap ++ [{ key := key, value := value }]
      doublyLinkedList := c.heap.length :: c.doublyLinkedList
      hashmap := mapSet c.hashmap key c.heap.length
      CurrByte := c.CurrByte + kvCost key value }

/-- Method `Add`. -/
def Add (fuel : Nat) (c : Cache V) (key : String) (value : V) : Outcome (Cache V) :=
  match evictLoop fuel c (kvCost key value) with
  | .ok c' => addEntry c' key value
  | .panic => .panic
  | .timeout => .timeout

/-- Method `Remove`. -/
def Remove (c : Cache V) (key : String) : Outcome (Cache V) :=
  match mapGet c.hashmap key with
  | some elem =>
    match c.heap[elem]? with
    | some entry =>
      .ok { c with
        hashmap := mapDelete c.hashmap key
        doublyLinkedList := listRemove c.doublyLinkedList elem
        CurrByte := c.CurrByte - (keyLen key + (Lengthable.Len entry.value : Int)) }
    | none => .panic
  | none => .ok c

/-- The entries of the recency list, front (most recently used) first. -/
def entries (c : Cache V) : List (Node V) :=
  c.doublyLinkedList.filterMap (fun e => c.heap[e]?)

/-- The keys of the recency list, front first. -/
def keys (c : Cache V) : List String := (entries c).map Node.key

/-- Sum of `len(k) + v.Len()` over a sequence of entries. -/
def totalCost (l : List (Node V)) : Int := (l.map (fun n => kvCost n.key n.value)).sum

/-- One call on an LRU cache. -/
inductive Op (V : Type) where
  | add (key : String) (value : V)
  | get (key : String)
  | remove (key : String)
  | evict
  deriving DecidableEq, Repr

/-- Run one call, keeping the state only. -/
def step (fuel : Nat) (c : Cache V) : Op V → Outcome (Cache V)
  | .add key value => Add fuel c key value
  | .get key =>
    match Get c key with
    | .ok (_, c') => .ok c'
    | .panic => .panic
    | .timeout => .timeout
  | .remove key => Remove c key
  | .evict =>
    match Evict c with
    | .ok (_, c') => .ok c'
    | .panic => .panic
    | .timeout => .timeout

/-- Run a sequence of calls, each loop with the given fuel. -/
def run (fuel : Nat) : Cache V → List (Op V) → Outcome (Cache V)
  | c, [] => .ok c
  | c, op :: ops =>
    match step fuel c op with
    | .ok c' => run fuel c' ops
    | .panic => .panic
    | .timeout => .timeout

/-- States reached from `New(C, cb)` by a finite sequence of completed calls. -/
inductive Reachable (C : Int) (cb : Bool) : Cache V → Prop where
  | init : Reachable C cb (New C cb)
  | step (fuel : Nat) (op : Op V) (c c' : Cache V) :
      Reachable C cb c → step fuel c op = .ok c' → Reachable C cb c'

/-- Every added entry of the sequence costs at most `C`. -/
def fits (C : Int) : List (Op V) → Prop
  | [] => True
  | .add key value :: ops => kvCost key value ≤ C ∧ fits C ops
  | _ :: ops => fits C ops

end lru

/-! ## Package lfu -/

namespace lfu

/-- The `Node` of the LFU cache. -/
structure Node (V : Type) where
  key : String
  value : V
  freq : Int
  deriving DecidableEq, Repr

/-- The field `Value any` of a list element: a `*Node` (pushed by `Add`), or a
`*list.Element` (pushed by `updateFreq`, whose `PushFront(elem)` wraps the element). -/
inductive Payload (V : Type) where
  | node (n : Node V)
  | elem (e : Nat)
  deriving DecidableEq, Repr

/-- The LFU `Cache`.  `heap[e]` is the `Value` of element `e`; the node of a `*Node`
payload is stored in place, since no two elements share a node. -/
structure Cache (V : Type) where
  MaxByte : Int
  CurrByte : Int
  kvMap : List (String × Nat)
  freqMap : List (Int × List Nat)
  minFreq : Int
  heap : List (Payload V)
  callback : Bool
  evicted : List (String × V)
  deriving DecidableEq, Repr

variable {V : Type} [Lengthable V]

/-- Constructor `New(maxBytes, callback)`; `callback = true` stands for a non-nil callback. -/
def New (maxBytes : Int) (callback : Bool) : Cache V :=
  { MaxByte := maxBytes, CurrByte := 0, kvMap := [], freqMap := [], minFreq := 0, heap := [],
    callback := callback, evicted := [] }

/-- Method `Len`: `len(c.kvMap)`. -/
def Len (c : Cache V) : Int := (c.kvMap.length : Int)

/-- Method `Contains`. -/
def Contains (c : Cache V) (key : String) : Bool :=
  match mapGet c.kvMap key with
  | some _ => true
  | none => false

/-- The element is linked into some list (`e.list != nil`). -/
def attached (c : Cache V) (e : Nat) : Bool :=
  c.freqMap.any (fun b => decide (e ∈ b.2))

/-- The statement `c.freqMap[f].Remove(elem)`.  On a missing bucket the receiver is a nil
`*list.List`: `Remove` compares `e.list == l` and, for an unlinked element, goes on to
dereference its nil neighbours. -/
def bucketRemove (c : Cache V) (f : Int) (elem : Nat) : Outcome (Cache V) :=
  match mapGet c.freqMap f with
  | some l => .ok { c with freqMap := mapSet c.freqMap f (listRemove l elem) }
  | none => if attached c elem then .ok c else .panic

/-- Method `updateFreq`. -/
def updateFreq (c : Cache V) (elem : Nat) : Outcome (Cache V) :=
  match c.heap[elem]? with
  | some (.node node) =>
    match bucketRemove c node.freq elem with
    | .ok c1 =>
      let freq := node.freq + 1
      let l := match mapGet c1.freqMap freq with
        | some l => l
        | none => []
      let l' := c1.heap.length :: l
      .ok { c1 with
        heap := c1.heap.set elem (.node { node with freq := freq }) ++ [.elem elem]
        freqMap := if l'.length = 0 then mapDelete c1.freqMap freq else mapSet c1.freqMap freq l'
        minFreq := if c1.minFreq = freq - 1 then c1.minFreq + 1 else c1.minFreq }
    | .panic => .panic
    | .timeout => .timeout
  | _ => .panic

/-- Method `Get`: the value (`none` for `nil, false`) and the state after the call. -/
def Get (c : Cache V) (key : String) : Outcome (Option V × Cache V) :=
  match mapGet c.kvMap key with
  | some elem =>
    match updateFreq c elem with
    | .ok c' =>
      match c'.heap[elem]? with
      | some (.node node) => .ok (some node.value, c')
      | _ => .panic
    | .panic => .panic
    | .timeout => .timeout
  | none => .ok (none, c)

/-- Method `Evict`: the returned pair (`("", none)` for `"", nil`) and the state after. -/
def Evict (c : Cache V) : Outcome ((String × Option V) × Cache V) :=
  if c.kvMap.length = 0 then .ok (("", none), c)
  else
    match mapGet c.freqMap c.minFreq with
    | some lowFreqList =>
      match listBack lowFreqList with
      | some back =>
        match c.heap[back]? with
        | some (.node node) =>
          let l := listRemove lowFreqList back
          .ok ((node.key, some node.value),
            { c with
              freqMap := if l.length = 0 then mapDelete c.freqMap c.minFreq
                else mapSet c.freqMap c.minFreq l
              kvMap := mapDelete c.kvMap node.key
              CurrByte := c.CurrByte - kvCost node.key node.value
              evicted := if c.callback then c.evicted ++ [(node.key, node.value)]
                else c.evicted })
        | _ => .panic
      | none => .panic
    | none => .panic

/-- The capacity loop of `Add`: `for c.MaxByte != 0 && c.CurrByte+kvSize > c.MaxByte { c.Evict() }`,
with `fuel` bounding the number of evaluations of the loop condition. -/
def evictLoop : Nat → Cache V → Int → Outcome (Cache V)
  | 0, _, _ => .timeout
  | fuel + 1, c, kvSize =>
    if c.MaxByte ≠ 0 ∧ c.CurrByte + kvSize > c.MaxByte then
      match Evict c with
      | .ok (_, c') => evictLoop fuel c' kvSize
      | .panic => .panic
      | .timeout => .timeout
    else .ok c

/-- The part of `Add` after the capacity loop. -/
def addEntry (c : Cache V) (key : String) (value : V) : Outcome (Cache V) :=
  match mapGet c.kvMap key with
  | some elem =>
    match c.heap[elem]? with
    | some (.node node) =>
      updateFreq
        { c with
          CurrByte := c.CurrByte + ((Lengthable.Len value : Int) - (Lengthable.Len node.value : Int))
          heap := c.heap.set elem (.node { node with value := value }) }
        elem
    | _ => .panic
  | none =>
    let l := match mapGet c.freqMap 1 with
      | some l => l
      | none => []
    .ok { c with
      heap := c.heap ++ [.node { key := key, value := value, freq := 1 }]
      freqMap := mapSet c.freqMap 1 (c.heap.length :: l)
      kvMap := mapSet c.kvMap key c.heap.length
      minFreq := 1
      CurrByte := c.CurrByte + kvCost key value }

/-- Method `Add`. -/
def Add (fuel : Nat) (c : Cache V) (key : String) (value : V) : Outcome (Cache V) :=
  match evictLoop fuel c (kvCost key value) with
  | .ok c' => addEntry c' key value
  | .panic => .panic
  | .timeout => .timeout

/-- The scan of `Remove`: `for { if _, ok := c.freqMap[newFreq]; ok { ... break }; newFreq++ }`,
with `fuel` bounding the number of iterations. -/
def scanFreq : Nat → List (Int × List Nat) → Int → Option Int
  | 0, _, _ => none
  | fuel + 1, freqMap, newFreq =>
    match mapGet freqMap newFreq with
    | some _ => some newFreq
    | none => scanFreq fuel freqMap (newFreq + 1)

/-- Method `Remove`. -/
def Remove (fuel : Nat) (c : Cache V) (key : String) : Outcome (Cache V) :=
  match mapGet c.kvMap key with
  | some elem =>
    match c.heap[elem]? with
    | some (.node node) =>
      match bucketRemove c node.freq elem with
      | .ok c1 =>
        let c2 := { c1 with
          kvMap := mapDelete c1.kvMap node.key
          CurrByte := c1.CurrByte - kvCost node.key node.value }
        match mapGet c2.freqMap node.freq with
        | some l =>
          if l.length = 0 then
            let freqMap' := mapDelete c2.freqMap node.freq
            if freqMap'.length = 0 then .ok { c2 with freqMap := freqMap', minFreq := 0 }
            else
              match scanFreq fuel freqMap' (node.freq + 1) with
              | some newFreq => .ok { c2 with freqMap := freqMap', minFreq := newFreq }
              | none => .timeout
          else .ok c2
        | none => .panic
      | .panic => .panic
      | .timeout => .timeout
    | _ => .panic
  | none => .ok c

/-- The `*Node` held by element `e`, if its payload is one. -/
def nodeAt (c : Cache V) (e : Nat) : Option (Node V) :=
  match c.heap[e]? with
  | some (.node node) => some node
  | _ => none

/-- The node reached from `kvMap[key]`, if the key is present. -/
def nodeOf (c : Cache V) (key : String) : Option (Node V) :=
  match mapGet c.kvMap key with
  | some elem => nodeAt c elem
  | none => none

/-- The nodes of the entries of `kvMap`. -/
def liveNodes (c : Cache V) : List (Node V) :=
  c.kvMap.filterMap (fun e => nodeAt c e.2)

/-- Sum of `len(k) + v.Len()` over a sequence of nodes. -/
def totalCost (l : List (Node V)) : Int := (l.map (fun n => kvCost n.key n.value)).sum

/-- One call on an LFU cache. -/
inductive Op (V : Type) where
  | add (key : String) (value : V)
  | get (key : String)
  | remove (key : String)
  | evict
  deriving DecidableEq, Repr

/-- Run one call, keeping the state only. -/
def step (fuel : Nat) (c : Cache V) : Op V → Outcome (Cache V)
  | .add key value => Add fuel c key value
  | .get key =>
    match Get c key with
    | .ok (_, c') => .ok c'
    | .panic => .panic
    | .timeout => .timeout
  | .remove key => Remove fuel c key
  | .evict =>
    match Evict c with
    | .ok (_, c') => .ok c'
    | .panic => .panic
    | .timeout => .timeout

/-- Run a sequence of calls, each loop with the given fuel. -/
def run (fuel : Nat) : Cache V → List (Op V) → Outcome (Cache V)
  | c, [] => .ok c
  | c, op :: ops =>
    match step fuel c op with
    | .ok c' => run fuel c' ops
    | .panic => .panic
    | .timeout => .timeout

/-- States reached from `New(C, cb)` by a finite sequence of completed calls. -/
inductive Reachable (C : Int) (cb : Bool) : Cache V → Prop where
  | init : Reachable C cb (New C cb)
  | step (fuel : Nat) (op : Op V) (c c' : Cache V) :
      Reachable C cb c → step fuel c op = .ok c' → Reachable C cb c'

end lfu

/-! ## Package arc -/

/-- The type `lru.Cache`, named apart from the field `lru` of the ARC cache. -/
abbrev LruCache (V : Type) := lru.Cache V

/-- The type `lfu.Cache`, named apart from the field `lfu` of the ARC cache. -/
abbrev LfuCache (V : Type) := lfu.Cache V

namespace arc

/-- The ARC `Cache`: two live lists (`lru`, `lfu`) and two ghost lists. -/
structure Cache (V : Type) where
  maxByte : Int
  part : Int
  lru : LruCache V
  ghostLru : LruCache V
  lfu : LfuCache V
  ghostLfu : LfuCache V
  callback : Bool
  evicted : List (String × V)
  deriving DecidableEq, Repr

variable {V : Type} [Lengthable V]

/-- Constructor `New(maxByte, callback)`; the four sub-caches get a nil callback. -/
def New (maxByte : Int) (callback : Bool) : Cache V :=
  { maxByte := maxByte, part := 0,
    lru := lru.New maxByte false, ghostLru := lru.New maxByte false,
    lfu := lfu.New maxByte false, ghostLfu := lfu.New maxByte false,
    callback := callback, evicted := [] }

/-- Method `Len`. -/
def Len (c : Cache V) : Int := lru.Len c.lru + lfu.Len c.lfu

/-- Method `Get`. -/
def Get (fuel : Nat) (c : Cache V) (key : String) : Outcome (Option V × Cache V) :=
  match lru.Get c.lru key with
  | .ok (some v, l1) =>
    match lru.Remove l1 key with
    | .ok l2 =>
      match lfu.Add fuel c.lfu key v with
      | .ok f => .ok (some v, { c with lru := l2, lfu := f })
      | .panic => .panic
      | .timeout => .timeout
    | .panic => .panic
    | .timeout => .timeout
  | .ok (none, l1) =>
    match lfu.Get c.lfu key with
    | .ok (r, f) => .ok (r, { c with lru := l1, lfu := f })
    | .panic => .panic
    | .timeout => .timeout
  | .panic => .panic
  | .timeout => .timeout

/-- Method `replace`.  `Evict` on an empty sub-cache returns `"", nil`, and the following
`Add(k, v)` calls `value.Len()` on the nil interface value. -/
def replace (fuel : Nat) (c : Cache V) (key : String) : Outcome (Cache V) :=
  if lru.Len c.lru > 0 ∧
      (c.lru.CurrByte > c.part ∨ (lfu.Contains c.ghostLfu key = true ∧ c.lru.CurrByte = c.part)) then
    match lru.Evict c.lru with
    | .ok ((k, some v), l) =>
      match lru.Add fuel c.ghostLru k v with
      | .ok g => .ok { c with lru := l, ghostLru := g }
      | .panic => .panic
      | .timeout => .timeout
    | .ok ((_, none), _) => .panic
    | .panic => .panic
    | .timeout => .timeout
  else
    match lfu.Evict c.lfu with
    | .ok ((k, some v), f) =>
      match lfu.Add fuel c.ghostLfu k v with
      | .ok g => .ok { c with lfu := f, ghostLfu := g }
      | .panic => .panic
      | .timeout => .timeout
    | .ok ((_, none), _) => .panic
    | .panic => .panic
    | .timeout => .timeout

/-- The statement `if c.lru.CurrByte+c.lfu.CurrByte >= c.maxByte { c.replace(key) }`. -/
def replaceIfFull (fuel : Nat) (c : Cache V) (key : String) : Outcome (Cache V) :=
  if c.lru.CurrByte + c.lfu.CurrByte ≥ c.maxByte then replace fuel c key else .ok c

/-- The scaled step `(a / b) * kvSize` of the bias update; integer division by zero panics. -/
def scaled (a b kvSize : Int) : Outcome Int :=
  if b = 0 then .panic else .ok (Int.tdiv a b * kvSize)

/-- The branch of `Add` for a key found in `ghostLru`. -/
def addGhostLru (fuel : Nat) (c : Cache V) (key : String) (value : V) : Outcome (Cache V) :=
  let kvSize := kvCost key value
  match (if c.ghostLru.CurrByte < c.ghostLfu.CurrByte
      then scaled (lfu.Len c.ghostLfu) (lru.Len c.ghostLru) kvSize else .ok kvSize) with
  | .ok delta =>
    let c1 := { c with part := if c.part + delta < c.maxByte then c.part + delta else c.maxByte }
    match replaceIfFull fuel c1 key with
    | .ok c2 =>
      match lru.Remove c2.ghostLru key with
      | .ok g =>
        match lfu.Add fuel c2.lfu key value with
        | .ok f => .ok { c2 with ghostLru := g, lfu := f }
        | .panic => .panic
        | .timeout => .timeout
      | .panic => .panic
      | .timeout => .timeout
    | .panic => .panic
    | .timeout => .timeout
  | .panic => .panic
  | .timeout => .timeout

/-- The branch of `Add` for a key found in `ghostLfu`. -/
def addGhostLfu (fuel : Nat) (c : Cache V) (key : String) (value : V) : Outcome (Cache V) :=
  let kvSize := kvCost key value
  match (if c.ghostLru.CurrByte > c.ghostLfu.CurrByte
      then scaled (lru.Len c.ghostLru) (lfu.Len c.ghostLfu) kvSize else .ok kvSize) with
  | .ok delta =>
    let c1 := { c with part := if delta ≥ c.part then 0 else c.part - delta }
    match replaceIfFull fuel c1 key with
    | .ok c2 =>
      match lfu.Remove fuel c2.ghostLfu key with
      | .ok g =>
        match lfu.Add fuel c2.lfu key value with
        | .ok f => .ok { c2 with ghostLfu := g, lfu := f }
        | .panic => .panic
        | .timeout => .timeout
      | .panic => .panic
      | .timeout => .timeout
    | .panic => .panic
    | .timeout => .timeout
  | .panic => .panic
  | .timeout => .timeout

/-- The statement `if c.ghostLru.CurrByte > c.maxByte-c.part { c.ghostLru.Evict(); callback }`. -/
def trimGhostLru (c : Cache V) (key : String) (value : V) : Outcome (Cache V) :=
  if c.ghostLru.CurrByte > c.maxByte - c.part then
    match lru.Evict c.ghostLru with
    | .ok (_, g) =>
      .ok { c with
        ghostLru := g
        evicted := if c.callback then c.evicted ++ [(key, value)] else c.evicted }
    | .panic => .panic
    | .timeout => .timeout
  else .ok c

/-- The statement `if c.ghostLfu.CurrByte > c.part { c.ghostLfu.Evict(); callback }`. -/
def trimGhostLfu (c : Cache V) (key : String) (value : V) : Outcome (Cache V) :=
  if c.ghostLfu.CurrByte > c.part then
    match lfu.Evict c.ghostLfu with
    | .ok (_, g) =>
      .ok { c with
        ghostLfu := g
        evicted := if c.callback then c.evicted ++ [(key, value)] else c.evicted }
    | .panic => .panic
    | .timeout => .timeout
  else .ok c

/-- The branch of `Add` for a key found in none of the four sub-caches. -/
def addFresh (fuel : Nat) (c : Cache V) (key : String) (value : V) : Outcome (Cache V) :=
  match replaceIfFull fuel c key with
  | .ok c1 =>
    match trimGhostLru c1 key value with
    | .ok c2 =>
      match trimGhostLfu c2 key value with
      | .ok c3 =>
        match lru.Add fuel c3.lru key value with
        | .ok l => .ok { c3 with lru := l }
        | .panic => .panic
        | .timeout => .timeout
      | .panic => .panic
      | .timeout => .timeout
    | .panic => .panic
    | .timeout => .timeout
  | .panic => .panic
  | .timeout => .timeout

/-- Method `Add`. -/
def Add (fuel : Nat) (c : Cache V) (key : String) (value : V) : Outcome (Cache V) :=
  if lru.Contains c.lru key = true then
    match lru.Remove c.lru key with
    | .ok l =>
      match lfu.Add fuel c.lfu key value with
      | .ok f => .ok { c with lru := l, lfu := f }
      | .panic => .panic
      | .timeout => .timeout
    | .panic => .panic
    | .timeout => .timeout
  else if lfu.Contains c.lfu key = true then
    match lfu.Add fuel c.lfu key value with
    | .ok f => .ok { c with lfu := f }
    | .panic => .panic
    | .timeout => .timeout
  else if lru.Contains c.ghostLru key = true then addGhostLru fuel c key value
  else if lfu.Contains c.ghostLfu key = true then addGhostLfu fuel c key value
  else addFresh fuel c key value

/-- One call on an ARC cache. -/
inductive Op (V : Type) where
  | add (key : String) (value : V)
  | get (key : String)
  deriving DecidableEq, Repr

/-- Run one call, keeping the state only. -/
def step (fuel : Nat) (c : Cache V) : Op V → Outcome (Cache V)
  | .add key value => Add fuel c key value
  | .get key =>
    match Get fuel c key with
    | .ok (_, c') => .ok c'
    | .panic => .panic
    | .timeout => .timeout

/-- Run a sequence of calls, each loop with the given fuel. -/
def run (fuel : Nat) : Cache V → List (Op V) → Outcome (Cache V)
  | c, [] => .ok c
  | c, op :: ops =>
    match step fuel c op with
    | .ok c' => run fuel c' ops
    | .panic => .panic
    | .timeout => .timeout

/-- States reached from `New(C, cb)` by a finite sequence of completed calls. -/
inductive Reachable (C : Int) (cb : Bool) : Cache V → Prop where
  | init : Reachable C cb (New C cb)
  | step (fuel : Nat) (op : Op V) (c c' : Cache V) :
      Reachable C cb c → step fuel c op = .ok c' → Reachable C cb c'

/-- The number of sub-caches (of `lru`, `lfu`, `ghostLru`, `ghostLfu`) that contain the key. -/
def holders (c : Cache V) (key : String) : Nat :=
  (if lru.Contains c.lru key then 1 else 0) + (if lfu.Contains c.lfu key then 1 else 0) +
  (if lru.Contains c.ghostLru key then 1 else 0) + (if lfu.Contains c.ghostLfu key then 1 else 0)

end arc

/-! ## Representation invariants -/

namespace lru

variable {V : Type} [Lengthable V]

/-- Representation invariant of the LRU cache: the list holds distinct allocated elements, the
hashmap indexes exactly the list elements by their node's key, and `CurrByte` is the cost of
the listed entries, within the capacity when one is set. -/
structure WF (c : Cache V) : Prop where
  nodup : c.doublyLinkedList.Nodup
  bound : ∀ e ∈ c.doublyLinkedList, e < c.heap.length
  keysNodup : (c.hashmap.map Prod.fst).Nodup
  index : ∀ k e, mapGet c.hashmap k = some e ↔
    (e ∈ c.doublyLinkedList ∧ ∃ n, c.heap[e]? = some n ∧ n.key = k)
  cost : c.CurrByte = totalCost (entries c)
  cap : 0 < c.MaxByte → c.CurrByte ≤ c.MaxByte

/-- The state left by `Evict` when the list is `ys` followed by a back element holding `n`. -/
def evicted1 (c : Cache V) (ys : List Nat) (n : Node V) : Cache V :=
  { c with
    hashmap := mapDelete c.hashmap n.key
    doublyLinkedList := ys
    CurrByte := c.CurrByte - kvCost n.key n.value
    evicted := if c.callback then c.evicted ++ [(n.key, n.value)] else c.evicted }

/-- The state left by a hit of `Get` on element `e`. -/
def touched (c : Cache V) (e : Nat) : Cache V :=
  { c with doublyLinkedList := e :: c.doublyLinkedList.erase e }

/-- The state left by `Remove` of a key held by element `e` with node `n`. -/
def removed (c : Cache V) (e : Nat) (n : Node V) : Cache V :=
  { c with
    hashmap := mapDelete c.hashmap n.key
    doublyLinkedList := c.doublyLinkedList.erase e
    CurrByte := c.CurrByte - kvCost n.key n.value }

/-- The state left by the insertion branch of `Add`. -/
def inserted (c : Cache V) (key : String) (value : V) : Cache V :=
  { c with
    heap := c.heap ++ [{ key := key, value := value }]
    doublyLinkedList := c.heap.length :: c.doublyLinkedList
    hashmap := mapSet c.hashmap key c.heap.length
    CurrByte := c.CurrByte + kvCost key value }

/-- The state left by the update branch of `Add` on element `e` holding `old`. -/
def updated (c : Cache V) (e : Nat) (old : Node V) (value : V) : Cache V :=
  { c with
    doublyLinkedList := e :: c.doublyLinkedList.erase e
    CurrByte := c.CurrByte + ((Lengthable.Len value : Int) - (Lengthable.Len old.value : Int))
    heap := c.heap.set e { old with value := value } }

end lru

namespace lru

variable {V : Type} [Lengthable V]

/-- The condition of the capacity loop of `Add`, for an entry of cost `s`. -/
def overfull (c : Cache V) (s : Int) : Prop := c.MaxByte ≠ 0 ∧ c.CurrByte + s > c.MaxByte

/-- Relation between a state and the state after `j` evictions from the back of its list. -/
structure Trimmed (c : Cache V) (j : Nat) (c' : Cache V) : Prop where
  wf : WF c'
  maxByte : c'.MaxByte = c.MaxByte
  callback : c'.callback = c.callback
  heap : c'.heap = c.heap
  lst : c'.doublyLinkedList = c.doublyLinkedList.rdrop j
  ents : entries c' = (entries c).rdrop j
  log : c'.evicted = c.evicted ++
    (if c.callback then ((entries c).reverse.take j).map (fun n => (n.key, n.value)) else [])

end lru

namespace lru

variable {V : Type} [Lengthable V]

/-- The calls `Add(k₁, v₁), ..., Add(kₙ, vₙ)`. -/
def addAll (kvs : List (String × V)) : List (Op V) := kvs.map (fun kv => Op.add kv.1 kv.2)

/-- The entries `(k₁, v₁), ..., (kₙ, vₙ)` as nodes. -/
def nodesOf (kvs : List (String × V)) : List (Node V) :=
  kvs.map (fun kv => { key := kv.1, value := kv.2 })

/-- The properties (1), (2), (3) of the LRU state: cost accounting, capacity, and agreement
of the hashmap with the recency list. -/
structure Inv (C : Int) (c : Cache V) : Prop where
  cost : c.CurrByte = totalCost (entries c)
  cap : c.CurrByte ≤ C
  sameKeys : ∀ k, Contains c k = true ↔ k ∈ keys c
  once : (keys c).Nodup
  mapOnce : (c.hashmap.map Prod.fst).Nodup
  listed : (entries c).length = c.doublyLinkedList.length
  points : ∀ k e, mapGet c.hashmap k = some e →
    (e ∈ c.doublyLinkedList ∧ ∃ n, c.heap[e]? = some n ∧ n.key = k)

end lru

namespace lru

variable {V : Type} [Lengthable V]

/-- Whether every added entry of the sequence costs at most `C` can be computed. -/
instance decFits (C : Int) : (ops : List (Op V)) → Decidable (fits C ops)
  | [] => isTrue trivial
  | .add key value :: ops =>
    match decFits C ops with
    | isTrue h => if hc : kvCost key value ≤ C then isTrue ⟨hc, h⟩ else isFalse (fun h' => hc h'.1)
    | isFalse h => isFalse (fun h' => h h'.2)
  | .get _ :: ops => decFits C ops
  | .remove _ :: ops => decFits C ops
  | .evict :: ops => decFits C ops

/-- The LRU cache of capacity 12 after `Add(k1,v1)`, `Add(k2,v2)`, `Add(k3,v3)`. -/
def demo3 : Cache String :=
  { MaxByte := 12, CurrByte := 12,
    hashmap := [("k3", 2), ("k2", 1), ("k1", 0)],
    doublyLinkedList := [2, 1, 0],
    heap := [{ key := "k1", value := "v1" }, { key := "k2", value := "v2" },
      { key := "k3", value := "v3" }],
    callback := true, evicted := [] }

end lru

namespace lfu

variable {V : Type} [Lengthable V]

/-- Representation invariant of the LFU cache.  `live`: every entry of `kvMap` points at an
element holding the node of its key.  `linked`: an element holding a node and linked into
bucket `f` is the `kvMap` entry of its key and has frequency `f`.  `housed`: the bucket of
the frequency of a live node exists and holds the node's element or a wrapper of it. -/
structure WF (c : Cache V) : Prop where
  kvKeys : (c.kvMap.map Prod.fst).Nodup
  live : ∀ k e, mapGet c.kvMap k = some e → ∃ n, c.heap[e]? = some (.node n) ∧ n.key = k
  bucketBound : ∀ f l, mapGet c.freqMap f = some l → l.Nodup ∧ ∀ e ∈ l, e < c.heap.length
  linked : ∀ f l e n, mapGet c.freqMap f = some l → e ∈ l → c.heap[e]? = some (.node n) →
    n.freq = f ∧ mapGet c.kvMap n.key = some e
  housed : ∀ k e n, mapGet c.kvMap k = some e → c.heap[e]? = some (.node n) →
    ∃ l, mapGet c.freqMap n.freq = some l ∧ (e ∈ l ∨ ∃ w ∈ l, c.heap[w]? = some (.elem e))
  cost : c.CurrByte = totalCost (liveNodes c)

/-- Cost of the node held by element `e` (0 if it holds none). -/
def costAt (c : Cache V) (e : Nat) : Int :=
  match nodeAt c e with
  | some n => kvCost n.key n.value
  | none => 0

/-- The bucket of frequency `f`, empty if there is none. -/
def bucket (freqMap : List (Int × List Nat)) (f : Int) : List Nat :=
  match mapGet freqMap f with
  | some l => l
  | none => []

/-- The state left by `updateFreq` on element `e` holding `n`, whose bucket is `l`. -/
def bumped (c : Cache V) (e : Nat) (n : Node V) (l : List Nat) : Cache V :=
  { c with
    heap := c.heap.set e (.node { n with freq := n.freq + 1 }) ++ [.elem e]
    freqMap := mapSet (mapSet c.freqMap n.freq (l.erase e)) (n.freq + 1)
      (c.heap.length :: bucket c.freqMap (n.freq + 1))
    minFreq := if c.minFreq = n.freq then c.minFreq + 1 else c.minFreq }

/-- The state in the update branch of `Add` before `updateFreq`: the value of the node of
element `e` replaced. -/
def revalued (c : Cache V) (e : Nat) (n : Node V) (value : V) : Cache V :=
  { c with
    CurrByte := c.CurrByte + ((Lengthable.Len value : Int) - (Lengthable.Len n.value : Int))
    heap := c.heap.set e (.node { n with value := value }) }

/-- The state left by the insertion branch of `Add`. -/
def inserted (c : Cache V) (key : String) (value : V) : Cache V :=
  { c with
    heap := c.heap ++ [.node { key := key, value := value, freq := 1 }]
    freqMap := mapSet c.freqMap 1 (c.heap.length :: bucket c.freqMap 1)
    kvMap := mapSet c.kvMap key c.heap.length
    minFreq := 1
    CurrByte := c.CurrByte + kvCost key value }

/-- A state in which the entry of node `n` has been dropped from `kvMap` and the cost, with
the given buckets, minimum frequency and callback log. -/
def dropped (c : Cache V) (n : Node V) (freqMap : List (Int × List Nat)) (minFreq : Int)
    (evicted : List (String × V)) : Cache V :=
  { c with
    kvMap := mapDelete c.kvMap n.key
    CurrByte := c.CurrByte - kvCost n.key n.value
    freqMap := freqMap
    minFreq := minFreq
    evicted := evicted }

end lfu

namespace lfu

variable {V : Type} [Lengthable V]

/-- The condition of the capacity loop of `Add`, for an entry of cost `s`. -/
def overfull (c : Cache V) (s : Int) : Prop := c.MaxByte ≠ 0 ∧ c.CurrByte + s > c.MaxByte

/-- The buckets left by `Evict` after unlinking the back element `e` of bucket `l`. -/
def evictBuckets (c : Cache V) (l : List Nat) (e : Nat) : List (Int × List Nat) :=
  if (l.erase e).length = 0 then mapDelete c.freqMap c.minFreq
  else mapSet c.freqMap c.minFreq (l.erase e)

/-- The callback log after the eviction of node `n`. -/
def evictLog (c : Cache V) (n : Node V) : List (String × V) :=
  if c.callback then c.evicted ++ [(n.key, n.value)] else c.evicted

end lfu

namespace lfu

variable {V : Type} [Lengthable V]

/-- Whether the capacity loop would run can be computed. -/
instance decOverfull (c : Cache V) (s : Int) : Decidable (overfull c s) := by
  unfold overfull
  exact inferInstance

/-- The calls `Add(k₁, v₁), ..., Add(kₙ, vₙ)`. -/
def addAll (kvs : List (String × V)) : List (Op V) := kvs.map (fun kv => Op.add kv.1 kv.2)

/-- The entries `(k₁, v₁), ..., (kₙ, vₙ)` as nodes of frequency 1. -/
def freshNodes (kvs : List (String × V)) : List (Node V) :=
  kvs.map (fun kv => { key := kv.1, value := kv.2, freq := 1 })

/-- A cache that holds the entries `live` (oldest first), all of frequency 1 and all linked
into bucket 1 in insertion order, the oldest at the back. -/
structure Fifo (c : Cache V) (live : List (String × V)) : Prop where
  wf : WF c
  nodes : liveNodes c = (freshNodes live).reverse
  queue : live ≠ [] → c.minFreq = 1 ∧ ∃ L, mapGet c.freqMap 1 = some L ∧
    L.filterMap (nodeAt c) = (freshNodes live).reverse ∧ L.length = live.length
  idle : live = [] → bucket c.freqMap 1 = []

end lfu

namespace lfu

/-- The LFU cache of capacity 0 (unbounded) after `Add("key", "1")`. -/
def demo1 : Cache String :=
  { MaxByte := 0, CurrByte := 4, kvMap := [("key", 0)], freqMap := [(1, [0])], minFreq := 1,
    heap := [.node { key := "key", value := "1", freq := 1 }], callback := false, evicted := [] }

/-- The LFU cache of capacity 0 after `Add("k1", "v1")` and `Get("k1")`: the element of `k1`
is unlinked, and bucket 2 holds a wrapper of it. -/
def demoHit : Cache String :=
  { MaxByte := 0, CurrByte := 4, kvMap := [("k1", 0)], freqMap := [(2, [1]), (1, [])],
    minFreq := 2,
    heap := [.node { key := "k1", value := "v1", freq := 2 }, .elem 0],
    callback := false, evicted := [] }

/-- The LFU cache of capacity 12 after `Add(k1,v1)`, `Add(k2,v2)`, `Add(k3,v3)`. -/
def demoFull : Cache String :=
  { MaxByte := 12, CurrByte := 12, kvMap := [("k3", 2), ("k2", 1), ("k1", 0)],
    freqMap := [(1, [2, 1, 0])], minFreq := 1,
    heap := [.node { key := "k1", value := "v1", freq := 1 },
      .node { key := "k2", value := "v2", freq := 1 },
      .node { key := "k3", value := "v3", freq := 1 }],
    callback := false, evicted := [] }

end lfu

namespace arc

variable {V : Type} [Lengthable V]

/-- Invariant of the ARC cache: the four sub-caches are well formed and every key is held by
at most one of them. -/
structure Inv (c : Cache V) : Prop where
  wfLru : lru.WF c.lru
  wfGhostLru : lru.WF c.ghostLru
  wfLfu : lfu.WF c.lfu
  wfGhostLfu : lfu.WF c.ghostLfu
  disjoint : ∀ k, holders c k ≤ 1

end arc

namespace arc

/-- The ARC cache of capacity 10 after `Add("a","1234")`, `Add("b","1234")`, `Add("cc","x")`:
`a` has been moved from the live LRU list to its ghost list. -/
def demoGhost : Cache String :=
  { maxByte := 10, part := 0,
    lru :=
      { MaxByte := 10, CurrByte := 8, hashmap := [("cc", 2), ("b", 1)],
        doublyLinkedList := [2, 1],
        heap := [{ key := "a", value := "1234" }, { key := "b", value := "1234" },
          { key := "cc", value := "x" }],
        callback := false, evicted := [] },
    ghostLru :=
      { MaxByte := 10, CurrByte := 5, hashmap := [("a", 0)], doublyLinkedList := [0],
        heap := [{ key := "a", value := "1234" }], callback := false, evicted := [] },
    lfu := lfu.New 10 false,
    ghostLfu := lfu.New 10 false,
    callback := false, evicted := [] }

/-- The ARC cache of capacity 10 after `Add("a","1234")`, `Get("a")`, `Add("b","12345678")`:
`a` (cost 5) is in the live LFU list and `b` (cost 9) in the live LRU list. -/
def demoOver : Cache String :=
  { maxByte := 10, part := 0,
    lru :=
      { MaxByte := 10, CurrByte := 9, hashmap := [("b", 1)], doublyLinkedList := [1],
        heap := [{ key := "a", value := "1234" }, { key := "b", value := "12345678" }],
        callback := false, evicted := [] },
    ghostLru := lru.New 10 false,
    lfu :=
      { MaxByte := 10, CurrByte := 5, kvMap := [("a", 0)], freqMap := [(1, [0])], minFreq := 1,
        heap := [.node { key := "a", value := "1234", freq := 1 }],
        callback := false, evicted := [] },
    ghostLfu := lfu.New 10 false,
    callback := false, evicted := [] }

end arc

/-! ## Further scenarios of the engines -/

namespace lru

variable {V : Type} [Lengthable V]

/-- Whether the capacity loop would run can be computed. -/
instance decOverfull (c : Cache V) (s : Int) : Decidable (overfull c s) := by
  unfold overfull
  exact inferInstance

end lru

namespace lfu

/-- The unbounded LFU cache after `Add(k1,v1)`, `Add(k2,v2)`, `Get(k1)`: `k2` still has
frequency 1 and sits in bucket 1, `minFreq` is 2. -/
def demoSkew : Cache String :=
  { MaxByte := 0, CurrByte := 8, kvMap := [("k2", 1), ("k1", 0)],
    freqMap := [(2, [2]), (1, [1])], minFreq := 2,
    heap := [.node { key := "k1", value := "v1", freq := 2 },
      .node { key := "k2", value := "v2", freq := 1 }, .elem 0],
    callback := false, evicted := [] }

end lfu

namespace arc

/-- The ARC cache of capacity 10 after `Add("a","1234")`, `Get("a")`, `Get("a")`,
`Add("b","12345")`: `a` is in the live LFU list with frequency 2, `b` in the live LRU list. -/
def demoPromote : Cache String :=
  { maxByte := 10, part := 0,
    lru :=
      { MaxByte := 10, CurrByte := 6, hashmap := [("b", 1)], doublyLinkedList := [1],
        heap := [{ key := "a", value := "1234" }, { key := "b", value := "12345" }],
        callback := false, evicted := [] },
    ghostLru := lru.New 10 false,
    lfu :=
      { MaxByte := 10, CurrByte := 5, kvMap := [("a", 0)], freqMap := [(2, [1]), (1, [])],
        minFreq := 2,
        heap := [.node { key := "a", value := "1234", freq := 2 }, .elem 0],
        callback := false, evicted := [] },
    ghostLfu := lfu.New 10 false,
    callback := false, evicted := [] }

/-- The ARC cache of capacity 10 after `Add("a","1234")`, `Add("b","1234")`, `Add("cc","x")`,
`Add("a","1234")`: the last call hit `a` in the ghost of the LRU list and raised `part`. -/
def demoBias : Cache String :=
  { maxByte := 10, part := 5,
    lru :=
      { MaxByte := 10, CurrByte := 8, hashmap := [("cc", 2), ("b", 1)],
        doublyLinkedList := [2, 1],
        heap := [{ key := "a", value := "1234" }, { key := "b", value := "1234" },
          { key := "cc", value := "x" }],
        callback := false, evicted := [] },
    ghostLru :=
      { MaxByte := 10, CurrByte := 0, hashmap := [], doublyLinkedList := [],
        heap := [{ key := "a", value := "1234" }], callback := false, evicted := [] },
    lfu :=
      { MaxByte := 10, CurrByte := 5, kvMap := [("a", 0)], freqMap := [(1, [0])], minFreq := 1,
        heap := [.node { key := "a", value := "1234", freq := 1 }],
        callback := false, evicted := [] },
    ghostLfu := lfu.New 10 false,
    callback := false, evicted := [] }

/-- The bias `part` lies between 0 and `maxByte`, and `maxByte` is the capacity `C`. -/
structure BiasOk {V : Type} (C : Int) (c : Cache V) : Prop where
  maxByte : c.maxByte = C
  lower : 0 ≤ c.part
  upper : c.part ≤ c.maxByte

end arc

namespace lru

/-- The LRU cache of capacity 12 after `Add(k1,v1)`, `Add(k2,v2)`. -/
def demo2 : Cache String :=
  { MaxByte := 12, CurrByte := 8,
    hashmap := [("k2", 1), ("k1", 0)],
    doublyLinkedList := [1, 0],
    heap := [{ key := "k1", value := "v1" }, { key := "k2", value := "v2" }],
    callback := true, evicted := [] }

end lru

namespace arc

/-- The ARC cache of capacity 10 after `Add("a","1234")`, `Add("b","1234")`: the live LRU
list is full. -/
def demoPair : Cache String :=
  { maxByte := 10, part := 0,
    lru :=
      { MaxByte := 10, CurrByte := 10, hashmap := [("b", 1), ("a", 0)],
        doublyLinkedList := [1, 0],
        heap := [{ key := "a", value := "1234" }, { key := "b", value := "1234" }],
        callback := false, evicted := [] },
    ghostLru := lru.New 10 false,
    lfu := lfu.New 10 false,
    ghostLfu := lfu.New 10 false,
    callback := false, evicted := [] }

/-- The state `replace` leaves from `demoPair`: `a` has moved to the ghost of the LRU list. -/
def demoMoved : Cache String :=
  { maxByte := 10, part := 0,
    lru :=
      { MaxByte := 10, CurrByte := 5, hashmap := [("b", 1)],
        doublyLinkedList := [1],
        heap := [{ key := "a", value := "1234" }, { key := "b", value := "1234" }],
        callback := false, evicted := [] },
    ghostLru :=
      { MaxByte := 10, CurrByte := 5, hashmap := [("a", 0)], doublyLinkedList := [0],
        heap := [{ key := "a", value := "1234" }], callback := false, evicted := [] },
    lfu := lfu.New 10 false,
    ghostLfu := lfu.New 10 false,
    callback := false, evicted := [] }

end arc

/-! ## Package singlefilght -/

/-- The error value of Go: `none` is `nil`, `some msg` an error with that message. -/
abbrev GoError := Option String

namespace singlefilght

/-- The type `packet`.  `done` says that the wait group of the packet has been released
(`wg.Done()` has run); `val` is `none` while the interface value is nil. -/
structure packet (α : Type) where
  done : Bool
  val : Option α
  err : GoError
  deriving DecidableEq, Repr

/-- The type `Flight`: the map `flight`, `none` while it is nil. -/
structure Flight (α : Type) where
  flight : Option (List (String × packet α))
  deriving DecidableEq, Repr

variable {α σ : Type}

/-- The records of the map, none for a nil map. -/
def Flight.records (f : Flight α) : List (String × packet α) :=
  match f.flight with
  | some m => m
  | none => []

/-- Method `Fly`, for one caller at a time.  `fn` acts on a state `σ` of its own.  A caller
that finds a record waits on the record's wait group: it returns the record's pair if the
group has been released, and otherwise stays blocked (`timeout`), since no other caller
runs. -/
def Fly (f : Flight α) (key : String) (fn : σ → Outcome ((Option α × GoError) × σ)) (s : σ) :
    Outcome ((Option α × GoError) × Flight α × σ) :=
  let m := f.records
  match mapGet m key with
  | some p => if p.done then .ok ((p.val, p.err), { flight := some m }, s) else .timeout
  | none =>
    let m1 := mapSet m key { done := false, val := none, err := none }
    match fn s with
    | .ok ((val, err), s') => .ok ((val, err), { flight := some (mapDelete m1 key) }, s')
    | .panic => .panic
    | .timeout => .timeout

end singlefilght

/-! ## Package simplegroupcache -/

/-- The type `arc.Cache`, named apart from the constructor `arc` of the engines. -/
abbrev ArcCache (V : Type) := arc.Cache V

namespace simplegroupcache

/-- A Go `[]byte`: the sequence of its bytes (the nil slice is the empty sequence). -/
abbrev Bytes := List Nat

/-- Modelled from the spec: the value type `ByteView`, "an opaque immutable byte sequence
exposing its byte length".  The field `b` is the one the sources assign in
`ByteView{b: cloneBytes(bytes)}`. -/
structure ByteView where
  b : Bytes
  deriving DecidableEq, Repr

/-- Modelled from the spec: the size a `ByteView` exposes is its byte length. -/
def ByteView.Len (v : ByteView) : Nat := v.b.length

instance instLengthableByteView : Lengthable ByteView := ⟨ByteView.Len⟩

/-- Modelled from the spec: `cloneBytes` returns a copy of the bytes ("values are copied on
ingress and egress"); a sequence of the model is a value, its copy is itself. -/
def cloneBytes (b : Bytes) : Bytes := b

/-- The interface `cachestrategy.CacheStrategy` with its three implementations. -/
inductive CacheStrategy where
  | lru (c : LruCache ByteView)
  | lfu (c : LfuCache ByteView)
  | arc (c : ArcCache ByteView)
  deriving DecidableEq, Repr

/-- Method `Get` of the interface, dispatched on the engine. -/
def CacheStrategy.Get (fuel : Nat) :
    CacheStrategy → String → Outcome (Option ByteView × CacheStrategy)
  | .lru c, key =>
    match lru.Get c key with
    | .ok (r, c') => .ok (r, .lru c')
    | .panic => .panic
    | .timeout => .timeout
  | .lfu c, key =>
    match lfu.Get c key with
    | .ok (r, c') => .ok (r, .lfu c')
    | .panic => .panic
    | .timeout => .timeout
  | .arc c, key =>
    match arc.Get fuel c key with
    | .ok (r, c') => .ok (r, .arc c')
    | .panic => .panic
    | .timeout => .timeout

/-- Method `Add` of the interface, dispatched on the engine. -/
def CacheStrategy.Add (fuel : Nat) : CacheStrategy → String → ByteView → Outcome CacheStrategy
  | .lru c, key, value =>
    match lru.Add fuel c key value with
    | .ok c' => .ok (.lru c')
    | .panic => .panic
    | .timeout => .timeout
  | .lfu c, key, value =>
    match lfu.Add fuel c key value with
    | .ok c' => .ok (.lfu c')
    | .panic => .panic
    | .timeout => .timeout
  | .arc c, key, value =>
    match arc.Add fuel c key value with
    | .ok c' => .ok (.arc c')
    | .panic => .panic
    | .timeout => .timeout

/-- The keys for which the engine's `Get` finds a value: for ARC the two live lists. -/
def CacheStrategy.Contains : CacheStrategy → String → Bool
  | .lru c, key => lru.Contains c key
  | .lfu c, key => lfu.Contains c key
  | .arc c, key => lru.Contains c.lru key || lfu.Contains c.lfu key

/-- The type `mutexCache`; the mutex is left out, calls run one at a time.  `cache` is
`none` for a nil interface value. -/
structure mutexCache where
  cache : Option CacheStrategy
  capacity : Int
  deriving DecidableEq, Repr

/-- Function `newCache`. -/
def newCache (capacity : Int) (cacheStrategy : String) : mutexCache :=
  { cache := some
      (if cacheStrategy = "lru" then .lru (lru.New capacity false)
       else if cacheStrategy = "lfu" then .lfu (lfu.New capacity false)
       else if cacheStrategy = "arc" then .arc (arc.New capacity false)
       else .lru (lru.New capacity false)),
    capacity := capacity }

/-- Method `add`; a method call on a nil interface value panics. -/
def mutexCache.add (fuel : Nat) (c : mutexCache) (key : String) (value : ByteView) :
    Outcome mutexCache :=
  match c.cache with
  | some e =>
    match e.Add fuel key value with
    | .ok e' => .ok { c with cache := some e' }
    | .panic => .panic
    | .timeout => .timeout
  | none => .panic

/-- Method `get`. -/
def mutexCache.get (fuel : Nat) (c : mutexCache) (key : String) :
    Outcome ((ByteView × Bool) × mutexCache) :=
  match c.cache with
  | none => .ok (({ b := [] }, false), c)
  | some e =>
    match e.Get fuel key with
    | .ok (some v, e') => .ok ((v, true), { c with cache := some e' })
    | .ok (none, e') => .ok (({ b := [] }, false), { c with cache := some e' })
    | .panic => .panic
    | .timeout => .timeout

/-- The keys the cache finds a value for. -/
def mutexCache.Contains (c : mutexCache) (key : String) : Bool :=
  match c.cache with
  | some e => e.Contains key
  | none => false

/-- The interface `Retriever`: `retrieve(string) ([]byte, error)`, the origin of the data. -/
abbrev Retriever := String → Bytes × GoError

/-- A peer client, with the signature of `client.Fetch(group, key) ([]byte, error)`. -/
abbrev Fetcher := String → String → Bytes × GoError

/-- A peer picker, with the signature of `server.PickPeer(key) (Fetcher, bool)`; `none` is
the result with `false`. -/
abbrev Picker := String → Option Fetcher

/-- A call that leaves the group: to the origin, or to a peer. -/
inductive Event where
  | retrieve (key : String)
  | fetch (group : String) (key : String)
  deriving DecidableEq, Repr

/-- The type `Group`; `server` is `none` while no picker is registered. -/
structure Group where
  name : String
  cache : mutexCache
  retriever : Retriever
  server : Option Picker
  flight : singlefilght.Flight ByteView

/-- Method `getLocally`.  The third component of the state is the sequence of calls made
to the origin and to peers so far. -/
def Group.getLocally (fuel : Nat) (g : Group) (key : String) (log : List Event) :
    Outcome ((ByteView × GoError) × Group × List Event) :=
  match g.retriever key with
  | (_, some err) => .ok (({ b := [] }, some err), g, log ++ [.retrieve key])
  | (bytes, none) =>
    let value : ByteView := { b := cloneBytes bytes }
    match g.cache.add fuel key value with
    | .ok c' => .ok ((value, none), { g with cache := c' }, log ++ [.retrieve key])
    | .panic => .panic
    | .timeout => .timeout

/-- The function literal that `load` passes to `Fly`. -/
def Group.loader (fuel : Nat) (key : String) (s : Group × List Event) :
    Outcome ((Option ByteView × GoError) × Group × List Event) :=
  let fromOrigin (log : List Event) : Outcome ((Option ByteView × GoError) × Group × List Event) :=
    match Group.getLocally fuel s.1 key log with
    | .ok ((v, err), s') => .ok ((some v, err), s')
    | .panic => .panic
    | .timeout => .timeout
  match s.1.server with
  | some server =>
    match server key with
    | some fetcher =>
      match fetcher s.1.name key with
      | (bytes, none) =>
        .ok ((some { b := cloneBytes bytes }, none), s.1, s.2 ++ [.fetch s.1.name key])
      | (_, some _) => fromOrigin (s.2 ++ [.fetch s.1.name key])
    | none => fromOrigin s.2
  | none => fromOrigin s.2

/-- Method `load`. -/
def Group.load (fuel : Nat) (g : Group) (key : String) (log : List Event) :
    Outcome ((ByteView × GoError) × Group × List Event) :=
  match singlefilght.Fly g.flight key (Group.loader fuel key) (g, log) with
  | .ok ((view, err), f', (g', log')) =>
    match err with
    | none =>
      match view with
      | some v => .ok ((v, none), { g' with flight := f' }, log')
      | none => .panic
    | some e => .ok (({ b := [] }, some e), { g' with flight := f' }, log')
  | .panic => .panic
  | .timeout => .timeout

/-- Method `Get`. -/
def Group.Get (fuel : Nat) (g : Group) (key : String) (log : List Event) :
    Outcome ((ByteView × GoError) × Group × List Event) :=
  if key = "" then .ok (({ b := [] }, some "key required"), g, log)
  else
    match g.cache.get fuel key with
    | .ok ((value, true), c') => .ok ((value, none), { g with cache := c' }, log)
    | .ok ((_, false), c') => Group.load fuel { g with cache := c' } key log
    | .panic => .panic
    | .timeout => .timeout

/-- The package variable `groups`: a map from names to `*Group`.  A `*Group` is a handle,
the index of the group in the store `heap` of all groups allocated so far. -/
structure Registry where
  groups : List (String × Nat)
  heap : List Group

/-- The registry at program start: `make(map[string]*Group)`. -/
def Registry.init : Registry := { groups := [], heap := [] }

/-- Function `NewGroup`; `retriever = none` is the nil interface value. -/
def NewGroup (r : Registry) (name : String) (maxBytes : Int) (cacheStrategy : String)
    (retriever : Option Retriever) : Outcome (Nat × Registry) :=
  match retriever with
  | none => .panic
  | some retriever =>
    let g : Group :=
      { name := name, cache := newCache maxBytes cacheStrategy, retriever := retriever,
        server := none, flight := { flight := none } }
    .ok (r.heap.length, { groups := mapSet r.groups name r.heap.length, heap := r.heap ++ [g] })

/-- Function `GetGroup`; `none` is the nil pointer. -/
def GetGroup (r : Registry) (name : String) : Option Nat := mapGet r.groups name

/-- A sequence of `Get` calls on one group, one after the other: the returned pairs, the
group and the log after the last call. -/
def Group.getAll (fuel : Nat) :
    Group → List String → List Event → Outcome (List (ByteView × GoError) × Group × List Event)
  | g, [], log => .ok ([], g, log)
  | g, key :: keys, log =>
    match Group.Get fuel g key log with
    | .ok (r, g', log') =>
      match Group.getAll fuel g' keys log' with
      | .ok (rs, s) => .ok (r :: rs, s)
      | .panic => .panic
      | .timeout => .timeout
    | .panic => .panic
    | .timeout => .timeout

/-- The returned pairs and the log of an outcome, without the group. -/
def observed :
    Outcome (List (ByteView × GoError) × Group × List Event) →
      Outcome (List (ByteView × GoError) × List Event)
  | .ok (rs, _, log) => .ok (rs, log)
  | .panic => .panic
  | .timeout => .timeout

/-- The origin of `TestGet`: the table `Tom: 630, Jack: 589, Sam: 567`, an error for every
other key. -/
def scoresDb : Retriever := fun key =>
  if key = "Tom" then ([54, 51, 48], none)
  else if key = "Jack" then ([53, 56, 57], none)
  else if key = "Sam" then ([53, 54, 55], none)
  else ([], some (key ++ " not exist"))

/-- The group `NewGroup("scores", maxBytes, cacheStrategy, scoresDb)` builds. -/
def scores (maxBytes : Int) (cacheStrategy : String) : Group :=
  { name := "scores", cache := newCache maxBytes cacheStrategy, retriever := scoresDb,
    server := none, flight := { flight := none } }

/-- The group after a `load` of `key` that left the cache alone: only the flight map has
been touched (created if nil; the record of `key` set and deleted). -/
def Group.landed (g : Group) (key : String) : Group :=
  { g with
    flight := { flight := some (mapDelete
      (mapSet g.flight.records key { done := false, val := none, err := none }) key) } }

/-- Groups reached from `g₀` by completed `Get` calls. -/
inductive Group.Reachable (g₀ : Group) : Group → Prop where
  | init : Group.Reachable g₀ g₀
  | step (fuel : Nat) (key : String) (log log' : List Event) (r : ByteView × GoError)
      (g g' : Group) :
      Group.Reachable g₀ g → Group.Get fuel g key log = .ok (r, g', log') →
      Group.Reachable g₀ g'

end simplegroupcache

/-! ## Scenarios and reference formulas for the bias update, peers and flights -/

namespace arc

/-- The ARC cache of capacity 12 after `Add(a,1)`, `Add(b,1)`, `Add(c,1)`, `Add(f,12345)`,
`Add(g,1)`, `Add(h,1)`, `Add(i,1)`, `Get(f)`, `Add(a,12345)`: the ghost of the LRU list holds
`c` and `b` (4 bytes), the ghost of the LFU list holds `f` (6 bytes), `part` is 6. -/
def demoStall : Cache String :=
  { maxByte := 12, part := 6,
    lru :=
      { MaxByte := 12, CurrByte := 6, hashmap := [("i", 6), ("h", 5), ("g", 4)],
        doublyLinkedList := [6, 5, 4],
        heap := [{ key := "a", value := "1" }, { key := "b", value := "1" },
          { key := "c", value := "1" }, { key := "f", value := "12345" },
          { key := "g", value := "1" }, { key := "h", value := "1" },
          { key := "i", value := "1" }],
        callback := false, evicted := [] },
    ghostLru :=
      { MaxByte := 12, CurrByte := 4, hashmap := [("c", 2), ("b", 1)],
        doublyLinkedList := [2, 1],
        heap := [{ key := "a", value := "1" }, { key := "b", value := "1" },
          { key := "c", value := "1" }],
        callback := false, evicted := [] },
    lfu :=
      { MaxByte := 12, CurrByte := 6, kvMap := [("a", 1)], freqMap := [(1, [1])], minFreq := 1,
        heap := [.node { key := "f", value := "12345", freq := 1 },
          .node { key := "a", value := "12345", freq := 1 }],
        callback := false, evicted := [] },
    ghostLfu :=
      { MaxByte := 12, CurrByte := 6, kvMap := [("f", 0)], freqMap := [(1, [0])], minFreq := 1,
        heap := [.node { key := "f", value := "12345", freq := 1 }],
        callback := false, evicted := [] },
    callback := false, evicted := [] }

/-- The bias after a hit in B1 in the words of the specification: `min(C, p + d)` with
`d = kvSize * max(1, |B2| / |B1|)` when `|B1| < |B2|` and `d = kvSize` otherwise, for the
entry counts `b1 = |B1|` and `b2 = |B2|`. -/
def specBias (C p kvSize b1 b2 : Int) : Int :=
  min C (p + (if b1 < b2 then kvSize * max 1 (Int.tdiv b2 b1) else kvSize))

/-- The step `delta` that `Add` computes on a hit in `ghostLru`, when the division is
defined. -/
def codeDelta {V : Type} [Lengthable V] (c : Cache V) (key : String) (value : V) : Int :=
  if c.ghostLru.CurrByte < c.ghostLfu.CurrByte
  then Int.tdiv (lfu.Len c.ghostLfu) (lru.Len c.ghostLru) * kvCost key value
  else kvCost key value

end arc

namespace singlefilght

/-- A loader that returns the pair `r` and counts its runs in its state. -/
def counted {α : Type} (r : Option α × GoError) (n : Nat) :
    Outcome ((Option α × GoError) × Nat) :=
  .ok (r, n + 1)

/-- A flight map in which a flight for `Sam` is under way. -/
def demoFlight : Flight String :=
  { flight := some [("Sam", { done := false, val := none, err := none })] }

end singlefilght

namespace simplegroupcache

/-- Method `RegisterSvr`. -/
def Group.RegisterSvr (g : Group) (p : Picker) : Outcome Group :=
  match g.server with
  | some _ => .panic
  | none => .ok { g with server := some p }

/-- A picker that names a peer for every key, and the peer fails every fetch. -/
def peerDown : Picker := fun _ => some (fun _ _ => ([], some "peer down"))

/-- A picker that names a peer for every key, and the peer answers every fetch with the
bytes of `99`. -/
def peerUp : Picker := fun _ => some (fun _ _ => ([57, 57], none))

/-- The group `scores maxBytes cacheStrategy` after `RegisterSvr(p)`. -/
def scoresVia (maxBytes : Int) (cacheStrategy : String) (p : Picker) : Group :=
  { name := "scores", cache := newCache maxBytes cacheStrategy, retriever := scoresDb,
    server := some p, flight := { flight := none } }

end simplegroupcache

/-! # Theorems -/

/-! ## Go maps -/

section MapLemmas

variable {κ α : Type} [DecidableEq κ]

theorem mapGet_mapDelete (m : List (κ × α)) (k k' : κ) :
    mapGet (mapDelete m k) k' = if k' = k then none else mapGet m k' := by
  induction m with
  | nil => simp [mapDelete, mapGet]
  | cons h t ih =>
    obtain ⟨a, b⟩ := h
    unfold mapDelete at ih ⊢
    by_cases hak : a = k
    · subst hak
      by_cases hk : k' = a
      · subst hk
        simpa [List.filter_cons, mapGet] using ih
      · have hk2 : ¬ a = k' := fun h => hk h.symm
        simpa [List.filter_cons, mapGet, hk, hk2] using ih
    · by_cases hk : k' = k
      · subst hk
        simpa [List.filter_cons, mapGet, hak] using ih
      · by_cases hak2 : a = k'
        · simp [List.filter_cons, mapGet, hak, hk, hak2]
        · simpa [List.filter_cons, mapGet, hak, hk, hak2] using ih

theorem mapGet_mapSet (m : List (κ × α)) (k k' : κ) (a : α) :
    mapGet (mapSet m k a) k' = if k' = k then some a else mapGet m k' := by
  unfold mapSet
  by_cases hk : k' = k
  · subst hk
    simp [mapGet]
  · have hk2 : ¬ k = k' := fun h => hk h.symm
    simp [mapGet, hk, hk2, mapGet_mapDelete]

theorem mapGet_mem {m : List (κ × α)} {k : κ} {a : α} (h : mapGet m k = some a) :
    (k, a) ∈ m := by
  induction m with
  | nil => simp [mapGet] at h
  | cons x t ih =>
    obtain ⟨x1, x2⟩ := x
    by_cases hx : x1 = k
    · subst hx
      simp [mapGet] at h
      simp [h]
    · simp [mapGet, hx] at h
      exact List.mem_cons_of_mem _ (ih h)

theorem mapGet_eq_none_iff (m : List (κ × α)) (k : κ) :
    mapGet m k = none ↔ k ∉ m.map Prod.fst := by
  induction m with
  | nil => simp [mapGet]
  | cons x t ih =>
    obtain ⟨x1, x2⟩ := x
    by_cases hx : x1 = k
    · subst hx
      simp [mapGet]
    · have hx2 : ¬ k = x1 := fun h => hx h.symm
      simp [mapGet, hx, hx2, ih]

theorem mapGet_of_mem {m : List (κ × α)} {k : κ} {a : α} (hn : (m.map Prod.fst).Nodup)
    (h : (k, a) ∈ m) : mapGet m k = some a := by
  induction m with
  | nil => simp at h
  | cons x t ih =>
    obtain ⟨x1, x2⟩ := x
    simp only [List.map_cons, List.nodup_cons] at hn
    rcases List.mem_cons.mp h with h1 | h1
    · cases h1
      simp [mapGet]
    · have hx : ¬ x1 = k := by
        intro hx
        subst hx
        exact hn.1 (List.mem_map_of_mem Prod.fst h1)
      simp [mapGet, hx, ih hn.2 h1]

theorem mapDelete_sublist (m : List (κ × α)) (k : κ) : (mapDelete m k).Sublist m :=
  List.filter_sublist m

theorem mapDelete_keysNodup {m : List (κ × α)} (k : κ) (hn : (m.map Prod.fst).Nodup) :
    ((mapDelete m k).map Prod.fst).Nodup :=
  List.Nodup.sublist ((mapDelete_sublist m k).map Prod.fst) hn

theorem mapDelete_not_mem (m : List (κ × α)) (k : κ) : k ∉ (mapDelete m k).map Prod.fst := by
  rw [← mapGet_eq_none_iff, mapGet_mapDelete]
  simp

theorem mapSet_keysNodup {m : List (κ × α)} (k : κ) (a : α) (hn : (m.map Prod.fst).Nodup) :
    ((mapSet m k a).map Prod.fst).Nodup := by
  unfold mapSet
  simp only [List.map_cons, List.nodup_cons]
  exact ⟨mapDelete_not_mem m k, mapDelete_keysNodup k hn⟩

theorem mapDelete_of_none {m : List (κ × α)} {k : κ} (h : mapGet m k = none) :
    mapDelete m k = m := by
  rw [mapGet_eq_none_iff] at h
  unfold mapDelete
  rw [List.filter_eq_self]
  intro x hx
  have : x.1 ≠ k := fun hk => h (hk ▸ List.mem_map_of_mem Prod.fst hx)
  simpa using this

end MapLemmas

set_option linter.unusedSectionVars false

/-! ## Shared arithmetic and list facts -/

theorem keyLen_nonneg (k : String) : 0 ≤ keyLen k := by
  unfold keyLen
  exact Int.ofNat_nonneg _

theorem kvCost_nonneg {V : Type} [Lengthable V] (k : String) (v : V) : 0 ≤ kvCost k v := by
  unfold kvCost
  have h1 := keyLen_nonneg k
  have h2 : (0 : Int) ≤ (Lengthable.Len v : Int) := Int.ofNat_nonneg _
  omega

theorem erase_back {l ys : List Nat} {t : Nat} (hn : l.Nodup) (h : l = ys ++ [t]) :
    l.erase t = ys := by
  subst h
  have ht : t ∉ ys := by
    intro hmem
    have := List.nodup_append.mp hn
    exact this.2.2 hmem (List.mem_singleton_self t)
  rw [List.erase_append_right _ ht]
  simp

/-! ## LRU: the representation invariant and its preservation -/

namespace lru

variable {V : Type} [Lengthable V]

theorem Contains_iff (c : Cache V) (k : String) :
    Contains c k = true ↔ ∃ e, mapGet c.hashmap k = some e := by
  unfold Contains
  cases mapGet c.hashmap k <;> simp

theorem Contains_eq_false_iff (c : Cache V) (k : String) :
    Contains c k = false ↔ mapGet c.hashmap k = none := by
  unfold Contains
  cases mapGet c.hashmap k <;> simp

theorem totalCost_nonneg (l : List (Node V)) : 0 ≤ totalCost l := by
  unfold totalCost
  induction l with
  | nil => simp
  | cons n t ih =>
    simp only [List.map_cons, List.sum_cons]
    have := kvCost_nonneg n.key n.value
    omega

theorem totalCost_append (l₁ l₂ : List (Node V)) :
    totalCost (l₁ ++ l₂) = totalCost l₁ + totalCost l₂ := by
  simp [totalCost]

theorem totalCost_cons (n : Node V) (l : List (Node V)) :
    totalCost (n :: l) = kvCost n.key n.value + totalCost l := by
  simp [totalCost]

theorem totalCost_perm {l₁ l₂ : List (Node V)} (h : l₁.Perm l₂) : totalCost l₁ = totalCost l₂ := by
  unfold totalCost
  exact (h.map _).sum_eq

theorem WF_New (C : Int) (cb : Bool) : WF (New C cb : Cache V) := by
  refine ⟨by simp [New], by simp [New], by simp [New], ?_, by simp [New, entries, totalCost], ?_⟩
  · intro k e
    simp [New, mapGet]
  · intro h
    simpa [New] using h.le

theorem WF.heap_some {c : Cache V} (h : WF c) {e : Nat} (he : e ∈ c.doublyLinkedList) :
    ∃ n, c.heap[e]? = some n := by
  have hb := h.bound e he
  exact ⟨c.heap[e], List.getElem?_eq_getElem hb⟩

theorem WF.currByte_nonneg {c : Cache V} (h : WF c) : 0 ≤ c.CurrByte := by
  rw [h.cost]
  exact totalCost_nonneg _

theorem WF.mapGet_heap {c : Cache V} (h : WF c) {k : String} {e : Nat}
    (hg : mapGet c.hashmap k = some e) : ∃ n, c.heap[e]? = some n ∧ n.key = k :=
  ((h.index k e).mp hg).2

theorem Evict_nil {c : Cache V} (h : c.doublyLinkedList = []) : Evict c = .ok (("", none), c) := by
  simp [Evict, listBack, h]

theorem Evict_concat {c : Cache V} (hwf : WF c) {ys : List Nat} {t : Nat}
    (h : c.doublyLinkedList = ys ++ [t]) :
    ∃ n, c.heap[t]? = some n ∧ Evict c = .ok ((n.key, some n.value), evicted1 c ys n) := by
  have ht : t ∈ c.doublyLinkedList := by simp [h]
  obtain ⟨n, hn⟩ := hwf.heap_some ht
  refine ⟨n, hn, ?_⟩
  have hback : listBack c.doublyLinkedList = some t := by simp [listBack, h]
  have herase : listRemove c.doublyLinkedList t = ys := erase_back hwf.nodup h
  simp [Evict, hback, hn, herase, evicted1]

theorem entries_concat {c : Cache V} {ys : List Nat} {t : Nat} {n : Node V}
    (h : c.doublyLinkedList = ys ++ [t]) (hn : c.heap[t]? = some n) :
    entries c = entries (evicted1 c ys n) ++ [n] := by
  simp [entries, h, evicted1, List.filterMap_append, hn]

theorem WF_evicted1 {c : Cache V} (hwf : WF c) {ys : List Nat} {t : Nat} {n : Node V}
    (h : c.doublyLinkedList = ys ++ [t]) (hn : c.heap[t]? = some n) :
    WF (evicted1 c ys n) := by
  have hnd : (ys ++ [t]).Nodup := h ▸ hwf.nodup
  have hty : t ∉ ys := fun hm => (List.nodup_append.mp hnd).2.2 hm (List.mem_singleton_self t)
  have hgt : mapGet c.hashmap n.key = some t :=
    (hwf.index n.key t).mpr ⟨by simp [h], n, hn, rfl⟩
  refine ⟨?_, ?_, ?_, ?_, ?_, ?_⟩
  · exact (List.nodup_append.mp hnd).1
  · intro e he
    exact hwf.bound e (by simp [h, evicted1] at he ⊢; exact Or.inl he)
  · exact mapDelete_keysNodup _ hwf.keysNodup
  · intro k e
    simp only [evicted1, mapGet_mapDelete]
    by_cases hk : k = n.key
    · subst hk
      simp only [if_true, false_iff, reduceCtorEq]
      rintro ⟨he, m, hm, hmk⟩
      have : mapGet c.hashmap n.key = some e :=
        (hwf.index n.key e).mpr ⟨by simp [h, he], m, hm, hmk⟩
      rw [hgt] at this
      cases this
      exact hty he
    · simp only [hk, if_false]
      rw [hwf.index k e, h]
      constructor
      · rintro ⟨he, m, hm, hmk⟩
        refine ⟨?_, m, hm, hmk⟩
        rcases List.mem_append.mp he with he | he
        · exact he
        · simp only [List.mem_singleton] at he
          subst he
          rw [hn] at hm
          cases hm
          exact absurd hmk.symm hk
      · rintro ⟨he, m, hm, hmk⟩
        exact ⟨List.mem_append_left _ he, m, hm, hmk⟩
  · have h1 := entries_concat h hn
    have h2 := hwf.cost
    rw [h1, totalCost_append] at h2
    simp only [totalCost, List.map_cons, List.map_nil, List.sum_cons, List.sum_nil, add_zero] at h2 ⊢
    show c.CurrByte - kvCost n.key n.value = _
    omega
  · intro hpos
    have h1 := hwf.cap hpos
    have h2 := kvCost_nonneg n.key n.value
    show c.CurrByte - kvCost n.key n.value ≤ c.MaxByte
    omega

end lru

namespace lru

variable {V : Type} [Lengthable V]

theorem mem_split_erase {l : List Nat} {e : Nat} (hn : l.Nodup) (he : e ∈ l) :
    ∃ l₁ l₂, l = l₁ ++ e :: l₂ ∧ l.erase e = l₁ ++ l₂ ∧ e ∉ l₁ ∧ e ∉ l₂ := by
  obtain ⟨l₁, l₂, rfl⟩ := List.append_of_mem he
  have h1 : e ∉ l₁ := by
    intro hm
    exact (List.nodup_append.mp hn).2.2 hm (List.mem_cons_self e l₂)
  have h2 : e ∉ l₂ := by
    have := (List.nodup_append.mp hn).2.1
    exact (List.nodup_cons.mp this).1
  refine ⟨l₁, l₂, rfl, ?_, h1, h2⟩
  rw [List.erase_append_right _ h1]
  simp

theorem Get_miss {c : Cache V} {k : String} (h : mapGet c.hashmap k = none) :
    Get c k = .ok (none, c) := by
  simp [Get, h]

theorem Get_hit {c : Cache V} (hwf : WF c) {k : String} {e : Nat}
    (h : mapGet c.hashmap k = some e) :
    ∃ n, c.heap[e]? = some n ∧ n.key = k ∧ Get c k = .ok (some n.value, touched c e) := by
  obtain ⟨he, n, hn, hk⟩ := (hwf.index k e).mp h
  refine ⟨n, hn, hk, ?_⟩
  simp [Get, h, hn, listMoveToFront, he, touched]

theorem entries_touched {c : Cache V} (hwf : WF c) {e : Nat} {n : Node V}
    (he : e ∈ c.doublyLinkedList) (hn : c.heap[e]? = some n) :
    ∃ E₁ E₂, entries c = E₁ ++ n :: E₂ ∧ entries (touched c e) = n :: (E₁ ++ E₂) := by
  obtain ⟨l₁, l₂, h1, h2, _, _⟩ := mem_split_erase hwf.nodup he
  refine ⟨l₁.filterMap (fun e => c.heap[e]?), l₂.filterMap (fun e => c.heap[e]?), ?_, ?_⟩
  · simp [entries, h1, List.filterMap_append, hn]
  · simp [entries, touched, h2, List.filterMap_append, hn]

theorem WF_touched {c : Cache V} (hwf : WF c) {e : Nat} (he : e ∈ c.doublyLinkedList) :
    WF (touched c e) := by
  have hperm : c.doublyLinkedList.Perm (e :: c.doublyLinkedList.erase e) :=
    List.perm_cons_erase he
  refine ⟨?_, ?_, hwf.keysNodup, ?_, ?_, hwf.cap⟩
  · exact hperm.nodup_iff.mp hwf.nodup
  · intro x hx
    exact hwf.bound x (hperm.mem_iff.mpr hx)
  · intro k x
    show mapGet c.hashmap k = some x ↔
      (x ∈ e :: c.doublyLinkedList.erase e ∧ ∃ n, c.heap[x]? = some n ∧ n.key = k)
    rw [hwf.index k x, hperm.mem_iff]
  · show c.CurrByte = totalCost (entries (touched c e))
    rw [hwf.cost]
    apply totalCost_perm
    exact hperm.filterMap _

theorem Remove_miss {c : Cache V} {k : String} (h : mapGet c.hashmap k = none) :
    Remove c k = .ok c := by
  simp [Remove, h]

theorem Remove_hit {c : Cache V} (hwf : WF c) {k : String} {e : Nat}
    (h : mapGet c.hashmap k = some e) :
    ∃ n, c.heap[e]? = some n ∧ n.key = k ∧ Remove c k = .ok (removed c e n) := by
  obtain ⟨_, n, hn, hk⟩ := (hwf.index k e).mp h
  refine ⟨n, hn, hk, ?_⟩
  subst hk
  simp [Remove, h, hn, listRemove, removed, kvCost]

theorem WF_removed {c : Cache V} (hwf : WF c) {e : Nat} {n : Node V}
    (he : e ∈ c.doublyLinkedList) (hn : c.heap[e]? = some n) : WF (removed c e n) := by
  obtain ⟨l₁, l₂, h1, h2, hn1, hn2⟩ := mem_split_erase hwf.nodup he
  have hgt : mapGet c.hashmap n.key = some e := (hwf.index n.key e).mpr ⟨he, n, hn, rfl⟩
  have hmem : ∀ x, x ∈ c.doublyLinkedList.erase e ↔ x ≠ e ∧ x ∈ c.doublyLinkedList :=
    fun x => hwf.nodup.mem_erase_iff
  refine ⟨hwf.nodup.erase e, ?_, mapDelete_keysNodup _ hwf.keysNodup, ?_, ?_, ?_⟩
  · intro x hx
    exact hwf.bound x ((hmem x).mp hx).2
  · intro k x
    simp only [removed, mapGet_mapDelete]
    by_cases hk : k = n.key
    · subst hk
      simp only [if_true, false_iff, reduceCtorEq]
      rintro ⟨hx, m, hm, hmk⟩
      have hx' := (hmem x).mp hx
      have : mapGet c.hashmap n.key = some x := (hwf.index n.key x).mpr ⟨hx'.2, m, hm, hmk⟩
      rw [hgt] at this
      cases this
      exact hx'.1 rfl
    · simp only [hk, if_false]
      rw [hwf.index k x, hmem x]
      constructor
      · rintro ⟨hx, m, hm, hmk⟩
        refine ⟨⟨?_, hx⟩, m, hm, hmk⟩
        rintro rfl
        rw [hn] at hm
        cases hm
        exact hk hmk.symm
      · rintro ⟨hx, m, hm, hmk⟩
        exact ⟨hx.2, m, hm, hmk⟩
  · have hc := hwf.cost
    have e1 : entries c = l₁.filterMap (fun e => c.heap[e]?) ++
        n :: l₂.filterMap (fun e => c.heap[e]?) := by
      simp [entries, h1, List.filterMap_append, hn]
    have e2 : entries (removed c e n) = l₁.filterMap (fun e => c.heap[e]?) ++
        l₂.filterMap (fun e => c.heap[e]?) := by
      simp [entries, removed, h2, List.filterMap_append]
    rw [e1, totalCost_append, totalCost_cons] at hc
    rw [e2, totalCost_append]
    show c.CurrByte - kvCost n.key n.value = _
    omega
  · intro hpos
    have := hwf.cap hpos
    have := kvCost_nonneg n.key n.value
    show c.CurrByte - kvCost n.key n.value ≤ c.MaxByte
    omega

end lru

namespace lru

variable {V : Type} [Lengthable V]

theorem entries_congr_heap {c : Cache V} {heap' : List (Node V)} {l : List Nat}
    (hl : ∀ e ∈ l, heap'[e]? = c.heap[e]?) :
    l.filterMap (fun e => heap'[e]?) = l.filterMap (fun e => c.heap[e]?) :=
  List.filterMap_congr hl

theorem addEntry_none {c : Cache V} {k : String} (v : V) (h : mapGet c.hashmap k = none) :
    addEntry c k v = .ok (inserted c k v) := by
  simp [addEntry, h, inserted]

theorem addEntry_some {c : Cache V} (hwf : WF c) {k : String} {e : Nat} (v : V)
    (h : mapGet c.hashmap k = some e) :
    ∃ old, c.heap[e]? = some old ∧ old.key = k ∧ addEntry c k v = .ok (updated c e old v) := by
  obtain ⟨he, n, hn, hk⟩ := (hwf.index k e).mp h
  refine ⟨n, hn, hk, ?_⟩
  simp [addEntry, h, hn, listMoveToFront, he, updated]

theorem entries_inserted {c : Cache V} (hwf : WF c) (k : String) (v : V) :
    entries (inserted c k v) = { key := k, value := v } :: entries c := by
  have hl : ∀ e ∈ c.doublyLinkedList,
      (c.heap ++ [({ key := k, value := v } : Node V)])[e]? = c.heap[e]? :=
    fun e he => List.getElem?_append_left (hwf.bound e he)
  simp only [entries, inserted, List.filterMap_cons, List.getElem?_concat_length]
  rw [List.filterMap_congr hl]

theorem WF_inserted {c : Cache V} (hwf : WF c) {k : String} (v : V)
    (h : mapGet c.hashmap k = none) (hfit : ¬ overfull c (kvCost k v)) :
    WF (inserted c k v) := by
  have hfresh : c.heap.length ∉ c.doublyLinkedList := fun hm =>
    absurd (hwf.bound _ hm) (lt_irrefl _)
  have hget : ∀ e ∈ c.doublyLinkedList,
      (c.heap ++ [({ key := k, value := v } : Node V)])[e]? = c.heap[e]? :=
    fun e he => List.getElem?_append_left (hwf.bound e he)
  refine ⟨?_, ?_, mapSet_keysNodup _ _ hwf.keysNodup, ?_, ?_, ?_⟩
  · exact List.nodup_cons.mpr ⟨hfresh, hwf.nodup⟩
  · intro e he
    show e < (c.heap ++ [_]).length
    rw [List.length_append]
    rcases List.mem_cons.mp he with he | he
    · subst he
      simp
    · have := hwf.bound e he
      simp
      omega
  · intro k' e
    show mapGet (mapSet c.hashmap k c.heap.length) k' = some e ↔
      (e ∈ c.heap.length :: c.doublyLinkedList ∧
        ∃ n, (c.heap ++ [({ key := k, value := v } : Node V)])[e]? = some n ∧ n.key = k')
    rw [mapGet_mapSet]
    by_cases hk : k' = k
    · subst hk
      simp only [if_true, Option.some.injEq]
      constructor
      · rintro rfl
        exact ⟨List.mem_cons_self _ _, _, List.getElem?_concat_length _ _, rfl⟩
      · rintro ⟨he, n, hn, hnk⟩
        rcases List.mem_cons.mp he with he | he
        · exact he.symm
        · rw [hget e he] at hn
          have : mapGet c.hashmap k' = some e := (hwf.index k' e).mpr ⟨he, n, hn, hnk⟩
          rw [h] at this
          cases this
    · simp only [hk, if_false]
      rw [hwf.index k' e]
      constructor
      · rintro ⟨he, n, hn, hnk⟩
        exact ⟨List.mem_cons_of_mem _ he, n, (hget e he).trans hn, hnk⟩
      · rintro ⟨he, n, hn, hnk⟩
        rcases List.mem_cons.mp he with he | he
        · subst he
          rw [List.getElem?_concat_length] at hn
          cases hn
          exact absurd hnk.symm hk
        · exact ⟨he, n, (hget e he).symm.trans hn, hnk⟩
  · rw [entries_inserted hwf, totalCost_cons]
    show c.CurrByte + kvCost k v = _
    rw [hwf.cost]
    ring
  · intro hpos
    show c.CurrByte + kvCost k v ≤ c.MaxByte
    have hpos' : 0 < c.MaxByte := hpos
    by_contra hcon
    exact hfit ⟨by omega, by omega⟩

theorem entries_updated {c : Cache V} (hwf : WF c) {e : Nat} {old : Node V} (v : V)
    (he : e ∈ c.doublyLinkedList) (hold : c.heap[e]? = some old) :
    ∃ E₁ E₂, entries c = E₁ ++ old :: E₂ ∧
      entries (updated c e old v) = { old with value := v } :: (E₁ ++ E₂) := by
  obtain ⟨l₁, l₂, h1, h2, hn1, hn2⟩ := mem_split_erase hwf.nodup he
  have hlt : e < c.heap.length := hwf.bound e he
  have hset : ∀ l : List Nat, e ∉ l →
      l.filterMap (fun x => (c.heap.set e { old with value := v })[x]?) =
      l.filterMap (fun x => c.heap[x]?) := by
    intro l hl
    apply List.filterMap_congr
    intro x hx
    have hne : e ≠ x := fun hex => hl (hex ▸ hx)
    rw [List.getElem?_set]
    simp [hne]
  refine ⟨l₁.filterMap (fun e => c.heap[e]?), l₂.filterMap (fun e => c.heap[e]?), ?_, ?_⟩
  · simp [entries, h1, List.filterMap_append, hold]
  · have hself : (c.heap.set e { old with value := v })[e]? = some { old with value := v } := by
      rw [List.getElem?_set]
      simp [hlt]
    simp only [entries, updated, h2, List.filterMap_cons, hself, List.filterMap_append,
      hset l₁ hn1, hset l₂ hn2]

theorem WF_updated {c : Cache V} (hwf : WF c) {e : Nat} {old : Node V} (v : V)
    (he : e ∈ c.doublyLinkedList) (hold : c.heap[e]? = some old)
    (hfit : ¬ overfull c (kvCost old.key v)) : WF (updated c e old v) := by
  have hperm : c.doublyLinkedList.Perm (e :: c.doublyLinkedList.erase e) :=
    List.perm_cons_erase he
  have hlt : e < c.heap.length := hwf.bound e he
  have hkey : ∀ (x : Nat) (k : String),
      (∃ n : Node V, (c.heap.set e { old with value := v })[x]? = some n ∧ n.key = k) ↔
      (∃ n : Node V, c.heap[x]? = some n ∧ n.key = k) := by
    intro x k
    rw [List.getElem?_set]
    by_cases hex : e = x
    · subst hex
      simp [hlt, hold]
    · simp [hex]
  obtain ⟨E₁, E₂, hE, hE'⟩ := entries_updated hwf v he hold
  have hc := hwf.cost
  rw [hE, totalCost_append, totalCost_cons] at hc
  have hcost : c.CurrByte + ((Lengthable.Len v : Int) - (Lengthable.Len old.value : Int)) =
      totalCost (entries (updated c e old v)) := by
    rw [hE', totalCost_cons, totalCost_append]
    simp only [kvCost] at hc ⊢
    omega
  refine ⟨?_, ?_, hwf.keysNodup, ?_, hcost, ?_⟩
  · exact hperm.nodup_iff.mp hwf.nodup
  · intro x hx
    show x < (c.heap.set e _).length
    rw [List.length_set]
    exact hwf.bound x (hperm.mem_iff.mpr hx)
  · intro k x
    show mapGet c.hashmap k = some x ↔
      (x ∈ e :: c.doublyLinkedList.erase e ∧
        ∃ n, (c.heap.set e { old with value := v })[x]? = some n ∧ n.key = k)
    rw [hkey, hwf.index k x, hperm.mem_iff]
  · intro hpos
    show c.CurrByte + ((Lengthable.Len v : Int) - (Lengthable.Len old.value : Int)) ≤ c.MaxByte
    have hpos' : 0 < c.MaxByte := hpos
    have h1 : (0 : Int) ≤ (Lengthable.Len old.value : Int) := Int.ofNat_nonneg _
    have h2 := keyLen_nonneg old.key
    by_contra hcon
    apply hfit
    refine ⟨by omega, ?_⟩
    simp only [kvCost]
    omega

/-- An `Evict` on a well-formed cache returns, and leaves a well-formed cache. -/
theorem Evict_cases {c : Cache V} (hwf : WF c) :
    (c.doublyLinkedList = [] ∧ Evict c = .ok (("", none), c)) ∨
    (∃ ys t n, c.doublyLinkedList = ys ++ [t] ∧ c.heap[t]? = some n ∧
      Evict c = .ok ((n.key, some n.value), evicted1 c ys n)) := by
  rcases List.eq_nil_or_concat c.doublyLinkedList with h | ⟨ys, t, h⟩
  · exact Or.inl ⟨h, Evict_nil h⟩
  · rw [List.concat_eq_append] at h
    obtain ⟨n, hn, hE⟩ := Evict_concat hwf h
    exact Or.inr ⟨ys, t, n, h, hn, hE⟩

theorem Trimmed.refl {c : Cache V} (hwf : WF c) : Trimmed c 0 c := by
  refine ⟨hwf, rfl, rfl, rfl, by simp, by simp, by simp⟩

theorem Trimmed.evict {c c' : Cache V} {ys : List Nat} {t : Nat} {n : Node V} {j : Nat}
    (h : c.doublyLinkedList = ys ++ [t]) (hn : c.heap[t]? = some n)
    (ht : Trimmed (evicted1 c ys n) j c') : Trimmed c (j + 1) c' := by
  have hE := entries_concat h hn
  refine ⟨ht.wf, ht.maxByte, ht.callback, ht.heap, ?_, ?_, ?_⟩
  · rw [ht.lst, h, List.rdrop_concat_succ]
    rfl
  · rw [ht.ents, hE, List.rdrop_concat_succ]
  · rw [ht.log, hE, List.reverse_concat, List.take_succ_cons]
    show (if c.callback then c.evicted ++ [(n.key, n.value)] else c.evicted) ++
      (if c.callback then _ else []) = _
    cases c.callback <;> simp

theorem evictLoop_ok {fuel : Nat} {c c' : Cache V} {s : Int} (hwf : WF c)
    (h : evictLoop fuel c s = .ok c') :
    ∃ j, Trimmed c j c' ∧ ¬ overfull c' s ∧
      ∀ i < j, c.MaxByte ≠ 0 ∧ totalCost ((entries c).rdrop i) + s > c.MaxByte := by
  induction fuel generalizing c with
  | zero => simp [evictLoop] at h
  | succ fuel ih =>
    unfold evictLoop at h
    by_cases hcond : c.MaxByte ≠ 0 ∧ c.CurrByte + s > c.MaxByte
    · rw [if_pos hcond] at h
      rcases Evict_cases hwf with ⟨_, hE⟩ | ⟨ys, t, n, hl, hn, hE⟩
      · rw [hE] at h
        exact ih hwf h
      · rw [hE] at h
        obtain ⟨j, hT, hstop, hmin⟩ := ih (WF_evicted1 hwf hl hn) h
        refine ⟨j + 1, Trimmed.evict hl hn hT, hstop, ?_⟩
        intro i hi
        cases i with
        | zero =>
          rw [List.rdrop_zero, ← hwf.cost]
          exact hcond
        | succ i =>
          have := hmin i (by omega)
          rw [entries_concat hl hn, List.rdrop_concat_succ]
          exact this
    · rw [if_neg hcond] at h
      cases h
      exact ⟨0, Trimmed.refl hwf, hcond, by intro i hi; omega⟩

theorem evictLoop_total {c : Cache V} {s : Int} (hwf : WF c)
    (hfit : c.MaxByte = 0 ∨ s ≤ c.MaxByte) :
    ∀ fuel, c.doublyLinkedList.length < fuel → ∃ c', evictLoop fuel c s = .ok c' := by
  intro fuel
  induction fuel generalizing c with
  | zero => intro h; omega
  | succ fuel ih =>
    intro hlen
    unfold evictLoop
    by_cases hcond : c.MaxByte ≠ 0 ∧ c.CurrByte + s > c.MaxByte
    · rw [if_pos hcond]
      rcases Evict_cases hwf with ⟨hnil, _⟩ | ⟨ys, t, n, hl, hn, hE⟩
      · exfalso
        have hc := hwf.cost
        simp only [entries, hnil, List.filterMap_nil, totalCost, List.map_nil, List.sum_nil] at hc
        rcases hfit with h0 | hle
        · exact hcond.1 h0
        · have := hcond.2
          omega
      · rw [hE]
        have hwf1 := WF_evicted1 hwf hl hn
        apply ih hwf1 hfit
        show ys.length < fuel
        rw [hl] at hlen
        simp at hlen
        omega
    · rw [if_neg hcond]
      exact ⟨c, rfl⟩

theorem evictLoop_diverges {c : Cache V} {s : Int} (hwf : WF c)
    (h0 : c.MaxByte ≠ 0) (hbig : c.MaxByte < s) :
    ∀ fuel, evictLoop fuel c s = .timeout := by
  intro fuel
  induction fuel generalizing c with
  | zero => rfl
  | succ fuel ih =>
    unfold evictLoop
    have hcond : c.MaxByte ≠ 0 ∧ c.CurrByte + s > c.MaxByte := by
      have := hwf.currByte_nonneg
      exact ⟨h0, by omega⟩
    rw [if_pos hcond]
    rcases Evict_cases hwf with ⟨_, hE⟩ | ⟨ys, t, n, hl, hn, hE⟩
    · rw [hE]
      exact ih hwf h0 hbig
    · rw [hE]
      exact ih (WF_evicted1 hwf hl hn) h0 hbig

end lru

namespace lru

variable {V : Type} [Lengthable V]

theorem nodup_filterMap_on {α β : Type} (f : α → Option β) :
    ∀ l : List α, l.Nodup →
      (∀ x ∈ l, ∀ y ∈ l, ∀ b, f x = some b → f y = some b → x = y) →
      (l.filterMap f).Nodup
  | [], _, _ => by simp
  | a :: t, hn, hinj => by
    have hn' := List.nodup_cons.mp hn
    have ih := nodup_filterMap_on f t hn'.2 (fun x hx y hy b hxb hyb =>
      hinj x (List.mem_cons_of_mem _ hx) y (List.mem_cons_of_mem _ hy) b hxb hyb)
    cases hfa : f a with
    | none => simpa [List.filterMap_cons, hfa] using ih
    | some b =>
      rw [List.filterMap_cons, hfa]
      refine List.nodup_cons.mpr ⟨?_, ih⟩
      intro hb
      obtain ⟨y, hy, hyb⟩ := List.mem_filterMap.mp hb
      have := hinj a (List.mem_cons_self _ _) y (List.mem_cons_of_mem _ hy) b hfa hyb
      exact hn'.1 (this ▸ hy)

theorem keys_eq (c : Cache V) :
    keys c = c.doublyLinkedList.filterMap (fun e => (c.heap[e]?).map Node.key) := by
  simp [keys, entries, List.map_filterMap]

theorem WF.mem_keys {c : Cache V} (hwf : WF c) (k : String) :
    k ∈ keys c ↔ ∃ e, mapGet c.hashmap k = some e := by
  rw [keys_eq, List.mem_filterMap]
  constructor
  · rintro ⟨e, he, hk⟩
    cases hn : c.heap[e]? with
    | none => simp [hn] at hk
    | some n =>
      simp [hn] at hk
      exact ⟨e, (hwf.index k e).mpr ⟨he, n, hn, hk⟩⟩
  · rintro ⟨e, h⟩
    obtain ⟨he, n, hn, hk⟩ := (hwf.index k e).mp h
    exact ⟨e, he, by simp [hn, hk]⟩

theorem WF.keys_nodup {c : Cache V} (hwf : WF c) : (keys c).Nodup := by
  rw [keys_eq]
  apply nodup_filterMap_on _ _ hwf.nodup
  intro x hx y hy b hxb hyb
  cases hnx : c.heap[x]? with
  | none => simp [hnx] at hxb
  | some nx =>
    cases hny : c.heap[y]? with
    | none => simp [hny] at hyb
    | some ny =>
      simp [hnx] at hxb
      simp [hny] at hyb
      have h1 := (hwf.index b x).mpr ⟨hx, nx, hnx, hxb⟩
      have h2 := (hwf.index b y).mpr ⟨hy, ny, hny, hyb⟩
      rw [h1] at h2
      exact Option.some.inj h2

theorem WF.entries_length {c : Cache V} (hwf : WF c) :
    (entries c).length = c.doublyLinkedList.length := by
  have : ∀ l : List Nat, (∀ e ∈ l, e < c.heap.length) →
      (l.filterMap (fun e => c.heap[e]?)).length = l.length := by
    intro l
    induction l with
    | nil => simp
    | cons a t ih =>
      intro hb
      have ha : a < c.heap.length := hb a (List.mem_cons_self _ _)
      rw [List.filterMap_cons, List.getElem?_eq_getElem ha]
      simp [ih (fun e he => hb e (List.mem_cons_of_mem _ he))]
  exact this _ hwf.bound

theorem WF.inv {c : Cache V} (hwf : WF c) {C : Int} (hC : 0 < C) (hm : c.MaxByte = C) :
    Inv C c := by
  refine ⟨hwf.cost, ?_, ?_, hwf.keys_nodup, hwf.keysNodup, hwf.entries_length, ?_⟩
  · exact hm ▸ hwf.cap (hm ▸ hC)
  · intro k
    rw [Contains_iff, hwf.mem_keys]
  · intro k e h
    exact (hwf.index k e).mp h

/-- What a completed `Add` does: trim from the back, then insert or update. -/
theorem Add_ok {fuel : Nat} {c c' : Cache V} {k : String} {v : V} (hwf : WF c)
    (h : Add fuel c k v = .ok c') :
    ∃ j c₁, Trimmed c j c₁ ∧ ¬ overfull c₁ (kvCost k v) ∧
      (∀ i < j, c.MaxByte ≠ 0 ∧ totalCost ((entries c).rdrop i) + kvCost k v > c.MaxByte) ∧
      ((mapGet c₁.hashmap k = none ∧ c' = inserted c₁ k v) ∨
       (∃ e old, mapGet c₁.hashmap k = some e ∧ c₁.heap[e]? = some old ∧ old.key = k ∧
          c' = updated c₁ e old v)) := by
  unfold Add at h
  cases hl : evictLoop fuel c (kvCost k v) with
  | panic => simp [hl] at h
  | timeout => simp [hl] at h
  | ok c₁ =>
    rw [hl] at h
    simp only at h
    obtain ⟨j, hT, hstop, hmin⟩ := evictLoop_ok hwf hl
    refine ⟨j, c₁, hT, hstop, hmin, ?_⟩
    cases hg : mapGet c₁.hashmap k with
    | none =>
      rw [addEntry_none v hg] at h
      cases h
      exact Or.inl ⟨rfl, rfl⟩
    | some e =>
      obtain ⟨old, hold, hk, hA⟩ := addEntry_some hT.wf v hg
      rw [hA] at h
      cases h
      exact Or.inr ⟨e, old, rfl, hold, hk, rfl⟩

theorem Add_total {c : Cache V} (hwf : WF c) {k : String} {v : V}
    (hfit : c.MaxByte = 0 ∨ kvCost k v ≤ c.MaxByte) (fuel : Nat)
    (hfuel : c.doublyLinkedList.length < fuel) : ∃ c', Add fuel c k v = .ok c' := by
  obtain ⟨c₁, h1⟩ := evictLoop_total hwf hfit fuel hfuel
  obtain ⟨j, hT, _, _⟩ := evictLoop_ok hwf h1
  unfold Add
  rw [h1]
  cases hg : mapGet c₁.hashmap k with
  | none => exact ⟨_, addEntry_none v hg⟩
  | some e =>
    obtain ⟨old, _, _, hA⟩ := addEntry_some hT.wf v hg
    exact ⟨_, hA⟩

theorem Add_WF {fuel : Nat} {c c' : Cache V} {k : String} {v : V} (hwf : WF c)
    (h : Add fuel c k v = .ok c') :
    WF c' ∧ c'.MaxByte = c.MaxByte ∧ c'.callback = c.callback ∧
      c'.doublyLinkedList.length ≤ c.doublyLinkedList.length + 1 := by
  obtain ⟨j, c₁, hT, hstop, _, hcase⟩ := Add_ok hwf h
  have hlen : c₁.doublyLinkedList.length ≤ c.doublyLinkedList.length := by
    rw [hT.lst, List.rdrop, List.length_take]
    omega
  rcases hcase with ⟨hg, rfl⟩ | ⟨e, old, hg, hold, hk, rfl⟩
  · refine ⟨WF_inserted hT.wf v hg hstop, hT.maxByte, hT.callback, ?_⟩
    show (c₁.heap.length :: c₁.doublyLinkedList).length ≤ _
    simp
    omega
  · have he : e ∈ c₁.doublyLinkedList := ((hT.wf.index k e).mp hg).1
    refine ⟨WF_updated hT.wf v he hold (hk ▸ hstop), hT.maxByte, hT.callback, ?_⟩
    show (e :: c₁.doublyLinkedList.erase e).length ≤ _
    rw [List.length_cons, List.length_erase_of_mem he]
    have : 0 < c₁.doublyLinkedList.length := List.length_pos_of_mem he
    omega

theorem step_WF {fuel : Nat} {c c' : Cache V} {op : Op V} (hwf : WF c)
    (h : step fuel c op = .ok c') :
    WF c' ∧ c'.MaxByte = c.MaxByte ∧ c'.callback = c.callback ∧
      c'.doublyLinkedList.length ≤ c.doublyLinkedList.length + 1 := by
  cases op with
  | add k v => exact Add_WF hwf h
  | get k =>
    simp only [step] at h
    cases hg : mapGet c.hashmap k with
    | none =>
      rw [Get_miss hg] at h
      cases h
      exact ⟨hwf, rfl, rfl, by omega⟩
    | some e =>
      obtain ⟨n, hn, hk, hG⟩ := Get_hit hwf hg
      rw [hG] at h
      cases h
      have he : e ∈ c.doublyLinkedList := ((hwf.index k e).mp hg).1
      refine ⟨WF_touched hwf he, rfl, rfl, ?_⟩
      show (e :: c.doublyLinkedList.erase e).length ≤ _
      rw [List.length_cons, List.length_erase_of_mem he]
      have : 0 < c.doublyLinkedList.length := List.length_pos_of_mem he
      omega
  | remove k =>
    simp only [step] at h
    cases hg : mapGet c.hashmap k with
    | none =>
      rw [Remove_miss hg] at h
      cases h
      exact ⟨hwf, rfl, rfl, by omega⟩
    | some e =>
      obtain ⟨n, hn, hk, hR⟩ := Remove_hit hwf hg
      rw [hR] at h
      cases h
      have he : e ∈ c.doublyLinkedList := ((hwf.index k e).mp hg).1
      refine ⟨WF_removed hwf he hn, rfl, rfl, ?_⟩
      show (c.doublyLinkedList.erase e).length ≤ _
      rw [List.length_erase_of_mem he]
      omega
  | evict =>
    simp only [step] at h
    rcases Evict_cases hwf with ⟨_, hE⟩ | ⟨ys, t, n, hl, hn, hE⟩
    · rw [hE] at h
      cases h
      exact ⟨hwf, rfl, rfl, by omega⟩
    · rw [hE] at h
      cases h
      refine ⟨WF_evicted1 hwf hl hn, rfl, rfl, ?_⟩
      show ys.length ≤ _
      rw [hl]
      simp
      omega

theorem Reachable.wf {C : Int} {cb : Bool} {c : Cache V} (h : Reachable C cb c) :
    WF c ∧ c.MaxByte = C ∧ c.callback = cb := by
  induction h with
  | init => exact ⟨WF_New C cb, rfl, rfl⟩
  | step fuel op c c' _ hs ih =>
    obtain ⟨h1, h2, h3, _⟩ := step_WF ih.1 hs
    exact ⟨h1, h2.trans ih.2.1, h3.trans ih.2.2⟩

theorem step_total {C : Int} {c : Cache V} (hwf : WF c) (hm : c.MaxByte = C)
    (op : Op V) (hfit : fits C [op]) (fuel : Nat) (hfuel : c.doublyLinkedList.length < fuel) :
    ∃ c', step fuel c op = .ok c' := by
  cases op with
  | add k v =>
    have : kvCost k v ≤ C := hfit.1
    exact Add_total hwf (Or.inr (hm ▸ this)) fuel hfuel
  | get k =>
    simp only [step]
    cases hg : mapGet c.hashmap k with
    | none => exact ⟨c, by rw [Get_miss hg]⟩
    | some e =>
      obtain ⟨n, _, _, hG⟩ := Get_hit hwf hg
      exact ⟨_, by rw [hG]⟩
  | remove k =>
    simp only [step]
    cases hg : mapGet c.hashmap k with
    | none => exact ⟨c, Remove_miss hg⟩
    | some e =>
      obtain ⟨n, _, _, hR⟩ := Remove_hit hwf hg
      exact ⟨_, hR⟩
  | evict =>
    simp only [step]
    rcases Evict_cases hwf with ⟨_, hE⟩ | ⟨ys, t, n, _, _, hE⟩
    · exact ⟨_, by rw [hE]⟩
    · exact ⟨_, by rw [hE]⟩

theorem fits_cons {C : Int} (op : Op V) (ops : List (Op V)) :
    fits C (op :: ops) ↔ fits C [op] ∧ fits C ops := by
  cases op <;> simp [fits]

theorem fits_take {C : Int} (ops : List (Op V)) (n : Nat) (h : fits C ops) :
    fits C (ops.take n) := by
  induction ops generalizing n with
  | nil => simpa using h
  | cons op ops ih =>
    cases n with
    | zero => simp [fits]
    | succ n =>
      rw [List.take_succ_cons, fits_cons]
      rw [fits_cons] at h
      exact ⟨h.1, ih n h.2⟩

theorem run_total {C : Int} (fuel : Nat) (ops : List (Op V)) :
    ∀ c : Cache V, WF c → c.MaxByte = C → fits C ops →
      c.doublyLinkedList.length + ops.length < fuel →
      ∃ c', run fuel c ops = .ok c' ∧ WF c' ∧ c'.MaxByte = C := by
  induction ops with
  | nil =>
    intro c hwf hm _ _
    exact ⟨c, rfl, hwf, hm⟩
  | cons op ops ih =>
    intro c hwf hm hfit hfuel
    rw [fits_cons] at hfit
    simp only [List.length_cons] at hfuel
    obtain ⟨c₁, h1⟩ := step_total hwf hm op hfit.1 fuel (by omega)
    obtain ⟨hwf1, hm1, _, hlen⟩ := step_WF hwf h1
    obtain ⟨c', h2, hwf', hm'⟩ := ih c₁ hwf1 (hm1.trans hm) hfit.2 (by omega)
    refine ⟨c', ?_, hwf', hm'⟩
    simp only [run, h1]
    exact h2

end lru

namespace lru

variable {V : Type} [Lengthable V]

theorem reachable_of_run (C : Int) (cb : Bool) (fuel : Nat) (ops : List (Op V)) :
    ∀ c₀ c : Cache V, Reachable C cb c₀ → run fuel c₀ ops = .ok c → Reachable C cb c := by
  induction ops with
  | nil =>
    intro c₀ c h₀ h
    simp only [run] at h
    cases h
    exact h₀
  | cons op ops ih =>
    intro c₀ c h₀ h
    simp only [run] at h
    cases hs : step fuel c₀ op with
    | panic => simp [hs] at h
    | timeout => simp [hs] at h
    | ok c₁ =>
      rw [hs] at h
      exact ih c₁ c (Reachable.step fuel op c₀ c₁ h₀ hs) h

/-- C1. LRU state invariant: for a cache created by `New(C)` with `C > 0` and a sequence of
Add/Get/Remove/Evict calls whose added entries each cost at most `C`, every prefix of the
sequence runs to completion (any fuel above the number of calls suffices for the loops) and
leaves a state in which (1) `CurrByte` is the sum of the costs of the listed entries,
(2) `CurrByte ≤ C`, (3) the hashmap and the list hold the same keys, each once, and the
hashmap points at the list node of its key. -/
theorem lru_state_invariant (C : Int) (cb : Bool) (hC : 0 < C) (ops : List (Op V))
    (hfit : fits C ops) (fuel : Nat) (hfuel : ops.length < fuel) (n : Nat) :
    ∃ c, run fuel (New C cb) (ops.take n) = .ok c ∧ Inv C c := by
  have hlen : (New C cb : Cache V).doublyLinkedList.length + (ops.take n).length < fuel := by
    simp only [New, List.length_nil, List.length_take]
    omega
  obtain ⟨c, hrun, hwf, hm⟩ :=
    run_total fuel (ops.take n) (New C cb) (WF_New C cb) rfl (fits_take ops n hfit) hlen
  exact ⟨c, hrun, hwf.inv hC hm⟩

theorem lru_state_invariant_witness :
    ∃ c, run 8 (New 12 true)
        (([.add "k1" "v1", .add "k2" "v2", .add "k3" "v3", .get "k1", .add "k4" "v4",
          .remove "k3", .evict] : List (Op String)).take 7) = .ok c ∧ Inv 12 c :=
  lru_state_invariant 12 true (by decide)
    [.add "k1" "v1", .add "k2" "v2", .add "k3" "v3", .get "k1", .add "k4" "v4",
      .remove "k3", .evict] (by decide) 8 (by decide) 7

/-- C2. LRU eviction on insert: in a state reachable from `New(C)`, `C > 0`, adding an absent
key whose entry costs `s ≤ C` completes, removes exactly the `j` entries at the
least-recently-used end of the list for the least `j` whose removal makes the remaining cost
plus `s` fit in `C`, keeps the other entries with their values and order, and puts the new
entry at the front. -/
theorem lru_eviction_on_insert (C : Int) (cb : Bool) (hC : 0 < C) (c : Cache V)
    (hr : Reachable C cb c) (k : String) (v : V) (habs : Contains c k = false)
    (hs : kvCost k v ≤ C) (fuel : Nat) (hfuel : c.doublyLinkedList.length < fuel) :
    ∃ c' j, Add fuel c k v = .ok c' ∧
      entries c' = { key := k, value := v } :: (entries c).rdrop j ∧
      totalCost ((entries c).rdrop j) + kvCost k v ≤ C ∧
      (∀ i < j, totalCost ((entries c).rdrop i) + kvCost k v > C) ∧
      c'.CurrByte = totalCost ((entries c).rdrop j) + kvCost k v := by
  obtain ⟨hwf, hm, _⟩ := hr.wf
  obtain ⟨c', hA⟩ := Add_total hwf (Or.inr (hm ▸ hs)) fuel hfuel
  obtain ⟨j, c₁, hT, hstop, hmin, hcase⟩ := Add_ok hwf hA
  have hnone : mapGet c₁.hashmap k = none := by
    cases hg : mapGet c₁.hashmap k with
    | none => rfl
    | some e =>
      exfalso
      obtain ⟨he, n, hn, hk⟩ := (hT.wf.index k e).mp hg
      have he' : e ∈ c.doublyLinkedList := by
        rw [hT.lst, List.rdrop] at he
        exact List.mem_of_mem_take he
      have : mapGet c.hashmap k = some e := (hwf.index k e).mpr ⟨he', n, hT.heap ▸ hn, hk⟩
      rw [(Contains_eq_false_iff c k).mp habs] at this
      cases this
  have hc' : c' = inserted c₁ k v := by
    rcases hcase with ⟨_, h⟩ | ⟨e, old, hg, _⟩
    · exact h
    · rw [hnone] at hg
      cases hg
  have hcost₁ : c₁.CurrByte = totalCost ((entries c).rdrop j) := by
    rw [hT.wf.cost, hT.ents]
  refine ⟨c', j, hA, ?_, ?_, ?_, ?_⟩
  · rw [hc', entries_inserted hT.wf, hT.ents]
  · rw [← hcost₁]
    have hm₁ : c₁.MaxByte = C := hT.maxByte.trans hm
    by_contra hcon
    exact hstop ⟨by omega, by omega⟩
  · intro i hi
    have := (hmin i hi).2
    rw [hm] at this
    exact this
  · rw [hc', ← hcost₁]
    rfl

theorem lru_eviction_on_insert_witness :
    (∃ c' j, Add 4 demo3 "k4" "v4" = .ok c' ∧
      entries c' = { key := "k4", value := "v4" } :: (entries demo3).rdrop j ∧
      totalCost ((entries demo3).rdrop j) + kvCost "k4" "v4" ≤ 12 ∧
      (∀ i < j, totalCost ((entries demo3).rdrop i) + kvCost "k4" "v4" > 12) ∧
      c'.CurrByte = totalCost ((entries demo3).rdrop j) + kvCost "k4" "v4") ∧
    ((run 2 (New 12 true)
        [.add "k1" "v1", .add "k2" "v2", .add "k3" "v3", .add "k4" "v4"]).result.map
      (fun c => (keys c, c.evicted)) = some (["k4", "k3", "k2"], [("k1", "v1")])) :=
  ⟨lru_eviction_on_insert 12 true (by decide) demo3
    (reachable_of_run 12 true 1 [.add "k1" "v1", .add "k2" "v2", .add "k3" "v3"]
      (New 12 true) demo3 Reachable.init (by decide))
    "k4" "v4" (by decide) (by decide) 4 (by decide), by decide⟩

end lru

namespace lru

variable {V : Type} [Lengthable V]

theorem nodesOf_cons (kv : String × V) (kvs : List (String × V)) :
    nodesOf (kv :: kvs) = { key := kv.1, value := kv.2 } :: nodesOf kvs := rfl

theorem nodesOf_append (l₁ l₂ : List (String × V)) :
    nodesOf (l₁ ++ l₂) = nodesOf l₁ ++ nodesOf l₂ := by
  simp [nodesOf]

theorem mem_nodesOf_key {kvs : List (String × V)} {n : Node V} (h : n ∈ nodesOf kvs) :
    n.key ∈ kvs.map Prod.fst := by
  simp only [nodesOf, List.mem_map] at h ⊢
  obtain ⟨kv, hkv, rfl⟩ := h
  exact ⟨kv, hkv, rfl⟩

/-- Adding entries with fresh, distinct keys whose total cost fits: nothing is evicted and
each entry goes to the front. -/
theorem run_addAll (fuel : Nat) (hfuel : 0 < fuel) (kvs : List (String × V)) :
    ∀ c₀ : Cache V, WF c₀ → (kvs.map Prod.fst).Nodup →
      (∀ k ∈ kvs.map Prod.fst, mapGet c₀.hashmap k = none) →
      (c₀.MaxByte = 0 ∨ c₀.CurrByte + totalCost (nodesOf kvs) ≤ c₀.MaxByte) →
      ∃ c, run fuel c₀ (addAll kvs) = .ok c ∧ WF c ∧
        entries c = (nodesOf kvs).reverse ++ entries c₀ ∧ c.MaxByte = c₀.MaxByte := by
  induction kvs with
  | nil =>
    intro c₀ hwf _ _ _
    exact ⟨c₀, rfl, hwf, by simp [nodesOf], rfl⟩
  | cons kv kvs ih =>
    intro c₀ hwf hnd hfresh hfit
    obtain ⟨k, v⟩ := kv
    simp only [List.map_cons, List.nodup_cons] at hnd
    have hk : mapGet c₀.hashmap k = none := hfresh k (by simp)
    have htot : totalCost (nodesOf ((k, v) :: kvs)) = kvCost k v + totalCost (nodesOf kvs) := by
      rw [nodesOf_cons, totalCost_cons]
    have hrest := totalCost_nonneg (nodesOf kvs)
    have hstop : ¬ overfull c₀ (kvCost k v) := by
      rintro ⟨h0, hgt⟩
      rcases hfit with h | h
      · exact h0 h
      · rw [htot] at h
        omega
    obtain ⟨f, rfl⟩ : ∃ f, fuel = f + 1 := ⟨fuel - 1, by omega⟩
    have hloop : evictLoop (f + 1) c₀ (kvCost k v) = .ok c₀ := by
      unfold evictLoop
      exact if_neg hstop
    have hadd : Add (f + 1) c₀ k v = .ok (inserted c₀ k v) := by
      unfold Add
      rw [hloop]
      exact addEntry_none v hk
    have hwf1 := WF_inserted hwf v hk hstop
    have hfresh1 : ∀ k' ∈ kvs.map Prod.fst, mapGet (inserted c₀ k v).hashmap k' = none := by
      intro k' hk'
      show mapGet (mapSet c₀.hashmap k c₀.heap.length) k' = none
      rw [mapGet_mapSet]
      have hne : k' ≠ k := fun h => hnd.1 (h ▸ hk')
      simp only [hne, if_false]
      exact hfresh k' (by simp [hk'])
    have hfit1 : (inserted c₀ k v).MaxByte = 0 ∨
        (inserted c₀ k v).CurrByte + totalCost (nodesOf kvs) ≤ (inserted c₀ k v).MaxByte := by
      rcases hfit with h | h
      · exact Or.inl h
      · right
        show c₀.CurrByte + kvCost k v + totalCost (nodesOf kvs) ≤ c₀.MaxByte
        rw [htot] at h
        omega
    obtain ⟨c, hrun, hwfc, hent, hmax⟩ := ih (inserted c₀ k v) hwf1 hnd.2 hfresh1 hfit1
    refine ⟨c, ?_, hwfc, ?_, hmax⟩
    · simp only [addAll, List.map_cons, run, step, hadd]
      exact hrun
    · rw [hent, entries_inserted hwf, nodesOf_cons]
      simp

/-- C3. LRU recency order: after `Add(k₁,v₁), ..., Add(kₙ,vₙ)` on a fresh cache, with distinct
keys and cumulative cost at most the capacity, the list read back to front is
`k₁, ..., kₙ` with their values; a following `Get(kᵢ)` returns `vᵢ` and leaves the list, read
back to front, as the other entries in their order followed by `kᵢ`, with `CurrByte`
unchanged; a `Get` of an absent key returns not-found and leaves the state unchanged. -/
theorem lru_recency_order (C : Int) (cb : Bool) (kvs : List (String × V))
    (hd : (kvs.map Prod.fst).Nodup) (hcost : totalCost (nodesOf kvs) ≤ C) (fuel : Nat)
    (hfuel : 0 < fuel) :
    ∃ c, run fuel (New C cb) (addAll kvs) = .ok c ∧
      (entries c).reverse = nodesOf kvs ∧
      (∀ pre k v post, kvs = pre ++ (k, v) :: post →
        ∃ c', Get c k = .ok (some v, c') ∧
          (entries c').reverse = nodesOf (pre ++ post ++ [(k, v)]) ∧
          c'.CurrByte = c.CurrByte) ∧
      (∀ k, k ∉ kvs.map Prod.fst → Get c k = .ok (none, c)) := by
  obtain ⟨c, hrun, hwf, hent, _⟩ := run_addAll fuel hfuel kvs (New C cb) (WF_New C cb) hd
    (by intro k _; rfl) (Or.inr (by simpa [New] using hcost))
  have hent' : entries c = (nodesOf kvs).reverse := by
    rw [hent]
    simp [New, entries]
  have hkeys : keys c = (kvs.map Prod.fst).reverse := by
    simp [keys, hent', nodesOf, List.map_reverse]
  refine ⟨c, hrun, by rw [hent', List.reverse_reverse], ?_, ?_⟩
  · intro pre k v post hkvs
    have hmem : k ∈ keys c := by
      rw [hkeys, hkvs]
      simp
    obtain ⟨e, hg⟩ := (hwf.mem_keys k).mp hmem
    obtain ⟨n, hn, hnk, hG⟩ := Get_hit hwf hg
    have he : e ∈ c.doublyLinkedList := ((hwf.index k e).mp hg).1
    obtain ⟨E₁, E₂, hE, hE'⟩ := entries_touched hwf he hn
    have hdec : entries c = (nodesOf post).reverse ++
        ({ key := k, value := v } : Node V) :: (nodesOf pre).reverse := by
      rw [hent', hkvs, nodesOf_append, nodesOf_cons]
      simp
    subst hkvs
    simp only [List.map_append, List.map_cons] at hd
    have hd' := List.nodup_append.mp hd
    have hkpre : k ∉ pre.map Prod.fst := by
      intro h
      exact hd'.2.2 h (List.mem_cons_self _ _)
    have hkpost : k ∉ post.map Prod.fst := (List.nodup_cons.mp hd'.2.1).1
    have hn1 : n ∉ (nodesOf post).reverse := by
      intro h
      exact hkpost (hnk ▸ mem_nodesOf_key (List.mem_reverse.mp h))
    have hn2 : n ∉ (nodesOf pre).reverse := by
      intro h
      exact hkpre (hnk ▸ mem_nodesOf_key (List.mem_reverse.mp h))
    rw [hE] at hdec
    obtain ⟨h1, h2, h3⟩ := (List.append_cons_inj_of_not_mem hn1 hn2).mp hdec.symm
    refine ⟨touched c e, ?_, ?_, rfl⟩
    · rw [hG, ← h2]
    · rw [hE', ← h1, ← h3, ← h2]
      simp [nodesOf]
  · intro k hk
    apply Get_miss
    cases hg : mapGet c.hashmap k with
    | none => rfl
    | some e =>
      exfalso
      have := (hwf.mem_keys k).mpr ⟨e, hg⟩
      rw [hkeys] at this
      exact hk (List.mem_reverse.mp this)

theorem lru_recency_order_witness :
    ∃ c, run 1 (New 12 false) (addAll [("k1", "v1"), ("k2", "v2"), ("k3", "v3")]) = .ok c ∧
      (entries c).reverse = nodesOf [("k1", "v1"), ("k2", "v2"), ("k3", "v3")] ∧
      (∀ pre k v post, [("k1", "v1"), ("k2", "v2"), ("k3", "v3")] = pre ++ (k, v) :: post →
        ∃ c', Get c k = .ok (some v, c') ∧
          (entries c').reverse = nodesOf (pre ++ post ++ [(k, v)]) ∧
          c'.CurrByte = c.CurrByte) ∧
      (∀ k, k ∉ ([("k1", "v1"), ("k2", "v2"), ("k3", "v3")] : List (String × String)).map
        Prod.fst → Get c k = .ok (none, c)) :=
  lru_recency_order 12 false [("k1", "v1"), ("k2", "v2"), ("k3", "v3")] (by decide)
    (by decide) 1 (by decide)

/-- C4. LRU add/get round trip: in a state reachable from `New(C)`, for an entry with
`C = 0` or cost at most `C`, `Add(k, v)` completes and afterwards `Contains(k)` is true and
`Get(k)` returns `(v, true)`, whether or not `k` was present before. -/
theorem lru_add_get_round_trip (C : Int) (cb : Bool) (c : Cache V) (hr : Reachable C cb c)
    (k : String) (v : V) (hfit : C = 0 ∨ kvCost k v ≤ C) (fuel : Nat)
    (hfuel : c.doublyLinkedList.length < fuel) :
    ∃ c', Add fuel c k v = .ok c' ∧ Contains c' k = true ∧
      ∃ c'', Get c' k = .ok (some v, c'') := by
  obtain ⟨hwf, hm, _⟩ := hr.wf
  obtain ⟨c', hA⟩ := Add_total hwf (by rw [hm]; exact hfit) fuel hfuel
  obtain ⟨hwf', _, _, _⟩ := Add_WF hwf hA
  obtain ⟨j, c₁, hT, hstop, _, hcase⟩ := Add_ok hwf hA
  have hkey : ∃ e, mapGet c'.hashmap k = some e ∧
      c'.heap[e]? = some { key := k, value := v } := by
    rcases hcase with ⟨_, rfl⟩ | ⟨e, old, hg, hold, hk, rfl⟩
    · refine ⟨c₁.heap.length, ?_, ?_⟩
      · show mapGet (mapSet c₁.hashmap k c₁.heap.length) k = _
        rw [mapGet_mapSet]
        simp
      · show (c₁.heap ++ [_])[c₁.heap.length]? = _
        rw [List.getElem?_concat_length]
    · refine ⟨e, hg, ?_⟩
      have hlt : e < c₁.heap.length := hT.wf.bound e ((hT.wf.index k e).mp hg).1
      show (c₁.heap.set e { old with value := v })[e]? = _
      rw [List.getElem?_set]
      simp [hlt, ← hk]
  obtain ⟨e, hg, hv⟩ := hkey
  refine ⟨c', hA, (Contains_iff c' k).mpr ⟨e, hg⟩, ?_⟩
  obtain ⟨n, hn, _, hG⟩ := Get_hit hwf' hg
  rw [hv] at hn
  cases hn
  exact ⟨_, hG⟩

theorem lru_add_get_round_trip_witness :
    ∃ c', Add 4 demo3 "k2" "w2" = .ok c' ∧ Contains c' "k2" = true ∧
      ∃ c'', Get c' "k2" = .ok (some "w2", c'') :=
  lru_add_get_round_trip 12 true demo3
    (reachable_of_run 12 true 1 [.add "k1" "v1", .add "k2" "v2", .add "k3" "v3"]
      (New 12 true) demo3 Reachable.init (by decide))
    "k2" "w2" (by decide) 4 (by decide)

/-- C5 (the code at the failing input). On a fresh cache of capacity 4, `Add("key1", "12345")`
(an entry of cost 9) never leaves the capacity loop: whatever the number of iterations
allowed, the call has not returned. -/
theorem lru_add_oversized_never_returns (fuel : Nat) :
    Add fuel (New 4 false : Cache String) "key1" "12345" = .timeout := by
  unfold Add
  rw [evictLoop_diverges (WF_New 4 false) (by decide) (by decide) fuel]

end lru

/-! ## LFU: the representation invariant and its preservation -/

section MapSums

variable {κ α : Type} [DecidableEq κ]

theorem sum_mapDelete (g : κ × α → Int) {k : κ} {a : α} :
    ∀ m : List (κ × α), (m.map Prod.fst).Nodup → mapGet m k = some a →
      (m.map g).sum = g (k, a) + ((mapDelete m k).map g).sum
  | [], _, h => by simp [mapGet] at h
  | (k₁, a₁) :: t, hn, h => by
    simp only [List.map_cons, List.nodup_cons] at hn
    by_cases hk : k₁ = k
    · subst hk
      simp only [mapGet, if_true, Option.some.injEq] at h
      subst h
      have ht : mapGet t k₁ = none := (mapGet_eq_none_iff t k₁).mpr hn.1
      have hd : mapDelete ((k₁, a₁) :: t) k₁ = t := by
        have := mapDelete_of_none ht
        unfold mapDelete at this ⊢
        rw [List.filter_cons_of_neg (by simp)]
        exact this
      rw [hd]
      simp
    · simp only [mapGet, hk, if_false] at h
      have ih := sum_mapDelete g t hn.2 h
      have hd : mapDelete ((k₁, a₁) :: t) k = (k₁, a₁) :: mapDelete t k := by
        unfold mapDelete
        simp [List.filter_cons, hk]
      rw [hd]
      simp only [List.map_cons, List.sum_cons, ih]
      ring

theorem mapDelete_mapSet (m : List (κ × α)) (k : κ) (a : α) :
    mapDelete (mapSet m k a) k = mapDelete m k := by
  unfold mapSet mapDelete
  simp [List.filter_cons, List.filter_filter]

theorem mem_of_mapGet_nodup {m : List (κ × α)} (hn : (m.map Prod.fst).Nodup) {k : κ} {a : α} :
    (k, a) ∈ m ↔ mapGet m k = some a :=
  ⟨mapGet_of_mem hn, mapGet_mem⟩

end MapSums

namespace lfu

variable {V : Type} [Lengthable V]

theorem Contains_iff_lfu (c : Cache V) (k : String) :
    Contains c k = true ↔ ∃ e, mapGet c.kvMap k = some e := by
  unfold Contains
  cases mapGet c.kvMap k <;> simp

theorem Contains_eq_false_iff_lfu (c : Cache V) (k : String) :
    Contains c k = false ↔ mapGet c.kvMap k = none := by
  unfold Contains
  cases mapGet c.kvMap k <;> simp

theorem nodeAt_eq_some {c : Cache V} {e : Nat} {n : Node V} :
    nodeAt c e = some n ↔ c.heap[e]? = some (.node n) := by
  unfold nodeAt
  cases h : c.heap[e]? with
  | none => simp
  | some p =>
    cases p with
    | node m => simp
    | elem w => simp

theorem totalCost_liveNodes (c : Cache V) :
    totalCost (liveNodes c) = (c.kvMap.map (fun p => costAt c p.2)).sum := by
  unfold liveNodes totalCost
  induction c.kvMap with
  | nil => simp
  | cons p t ih =>
    rw [List.filterMap_cons, List.map_cons, List.sum_cons, ← ih]
    unfold costAt
    cases nodeAt c p.2 <;> simp

theorem bucket_eq {fm : List (Int × List Nat)} {f : Int} {l : List Nat}
    (h : mapGet fm f = some l) : bucket fm f = l := by
  simp [bucket, h]

theorem WF_New_lfu (C : Int) (cb : Bool) : WF (New C cb : Cache V) := by
  refine ⟨by simp [New], ?_, ?_, ?_, ?_, by simp [New, liveNodes, totalCost]⟩
  · intro k e h
    simp [New, mapGet] at h
  · intro f l h
    simp [New, mapGet] at h
  · intro f l e n h
    simp [New, mapGet] at h
  · intro k e n h
    simp [New, mapGet] at h

theorem WF.lt_of_live {c : Cache V} (hwf : WF c) {k : String} {e : Nat}
    (h : mapGet c.kvMap k = some e) : e < c.heap.length := by
  obtain ⟨n, hn, _⟩ := hwf.live k e h
  exact (List.getElem?_eq_some.mp hn).1

/-- Costs of the live entries when the heap changes only in ways that keep, for every live
element, the key and value of its node. -/
theorem cost_congr {c c' : Cache V} (hkv : c'.kvMap = c.kvMap)
    (h : ∀ p ∈ c.kvMap, costAt c' p.2 = costAt c p.2) :
    totalCost (liveNodes c') = totalCost (liveNodes c) := by
  rw [totalCost_liveNodes, totalCost_liveNodes, hkv]
  congr 1
  exact List.map_congr_left h

end lfu

namespace lfu

variable {V : Type} [Lengthable V]

theorem costAt_of_node {c : Cache V} {e : Nat} {n : Node V}
    (h : c.heap[e]? = some (.node n)) : costAt c e = kvCost n.key n.value := by
  simp [costAt, nodeAt, h]

theorem costAt_congr {c c' : Cache V} {e : Nat} (h : c'.heap[e]? = c.heap[e]?) :
    costAt c' e = costAt c e := by
  simp [costAt, nodeAt, h]

theorem bucket_mem {fm : List (Int × List Nat)} {f : Int} {x : Nat} (h : x ∈ bucket fm f) :
    mapGet fm f = some (bucket fm f) := by
  unfold bucket at h ⊢
  cases hg : mapGet fm f with
  | none => simp [hg] at h
  | some l => rfl

theorem WF.bucket_nodup {c : Cache V} (hwf : WF c) (f : Int) :
    (bucket c.freqMap f).Nodup ∧ ∀ x ∈ bucket c.freqMap f, x < c.heap.length := by
  unfold bucket
  cases hg : mapGet c.freqMap f with
  | none => simp
  | some l => exact hwf.bucketBound f l hg

theorem WF_bumped {c : Cache V} (hwf : WF c) {k : String} {e : Nat} {n : Node V} {l : List Nat}
    (hk : mapGet c.kvMap k = some e) (hn : c.heap[e]? = some (.node n))
    (hl : mapGet c.freqMap n.freq = some l) : WF (bumped c e n l) := by
  have helt : e < c.heap.length := (List.getElem?_eq_some.mp hn).1
  have hlen : (c.heap.set e (Payload.node { n with freq := n.freq + 1 })).length =
      c.heap.length := List.length_set _ _ _
  have hself : (bumped c e n l).heap[e]? = some (.node { n with freq := n.freq + 1 }) := by
    show (c.heap.set e _ ++ [_])[e]? = _
    rw [List.getElem?_append_left (by rw [hlen]; exact helt), List.getElem?_set]
    simp [helt]
  have hother : ∀ x, x ≠ e → x < c.heap.length → (bumped c e n l).heap[x]? = c.heap[x]? := by
    intro x hxe hx
    show (c.heap.set e _ ++ [_])[x]? = _
    rw [List.getElem?_append_left (by rw [hlen]; exact hx), List.getElem?_set]
    simp [Ne.symm hxe]
  have hnew : (bumped c e n l).heap[c.heap.length]? = some (.elem e) := by
    show (c.heap.set e _ ++ [_])[c.heap.length]? = _
    rw [List.getElem?_append_right (by rw [hlen]), hlen]
    simp
  have hheaplen : (bumped c e n l).heap.length = c.heap.length + 1 := by
    show (c.heap.set e _ ++ [_]).length = _
    simp
  have hfm : ∀ g, mapGet (bumped c e n l).freqMap g =
      if g = n.freq + 1 then some (c.heap.length :: bucket c.freqMap (n.freq + 1))
      else if g = n.freq then some (l.erase e) else mapGet c.freqMap g := by
    intro g
    show mapGet (mapSet (mapSet c.freqMap n.freq (l.erase e)) (n.freq + 1) _) g = _
    rw [mapGet_mapSet, mapGet_mapSet]
  have hkv : (bumped c e n l).kvMap = c.kvMap := rfl
  have hold_e : ∀ g l', mapGet c.freqMap g = some l' → e ∈ l' → g = n.freq :=
    fun g l' hg he => ((hwf.linked g l' e n hg he hn).1).symm
  have hlb := hwf.bucketBound n.freq l hl
  have hb2 := hwf.bucket_nodup (n.freq + 1)
  have hmemNew : ∀ g L x, mapGet (bumped c e n l).freqMap g = some L → x ∈ L →
      x = c.heap.length ∨ (x ≠ e ∧ ∃ L0, mapGet c.freqMap g = some L0 ∧ x ∈ L0) := by
    intro g L x hg hx
    rw [hfm] at hg
    by_cases h1 : g = n.freq + 1
    · rw [if_pos h1] at hg
      cases hg
      rcases List.mem_cons.mp hx with hx | hx
      · exact Or.inl hx
      · right
        have hb := bucket_mem hx
        refine ⟨?_, _, h1 ▸ hb, hx⟩
        rintro rfl
        have := hold_e _ _ hb hx
        omega
    · rw [if_neg h1] at hg
      by_cases h2 : g = n.freq
      · rw [if_pos h2] at hg
        cases hg
        have := (hlb.1.mem_erase_iff).mp hx
        exact Or.inr ⟨this.1, l, h2 ▸ hl, this.2⟩
      · rw [if_neg h2] at hg
        right
        refine ⟨?_, L, hg, hx⟩
        rintro rfl
        exact h2 (hold_e _ _ hg hx)
  have hmemOld : ∀ g L0 x, mapGet c.freqMap g = some L0 → x ∈ L0 → x ≠ e →
      ∃ L, mapGet (bumped c e n l).freqMap g = some L ∧ x ∈ L := by
    intro g L0 x hg hx hxe
    rw [hfm]
    by_cases h1 : g = n.freq + 1
    · rw [if_pos h1]
      refine ⟨_, rfl, List.mem_cons_of_mem _ ?_⟩
      rw [bucket_eq (h1 ▸ hg)]
      exact hx
    · rw [if_neg h1]
      by_cases h2 : g = n.freq
      · rw [if_pos h2]
        refine ⟨_, rfl, ?_⟩
        rw [h2, hl] at hg
        cases hg
        exact (hlb.1.mem_erase_iff).mpr ⟨hxe, hx⟩
      · rw [if_neg h2]
        exact ⟨L0, hg, hx⟩
  refine ⟨hwf.kvKeys, ?_, ?_, ?_, ?_, ?_⟩
  · intro k' e' hk'
    obtain ⟨m, hm, hmk⟩ := hwf.live k' e' hk'
    by_cases hee : e' = e
    · subst hee
      rw [hn] at hm
      cases hm
      exact ⟨_, hself, hmk⟩
    · exact ⟨m, (hother e' hee (hwf.lt_of_live hk')).trans hm, hmk⟩
  · intro g L hg
    constructor
    · rw [hfm] at hg
      by_cases h1 : g = n.freq + 1
      · rw [if_pos h1] at hg
        cases hg
        refine List.nodup_cons.mpr ⟨?_, hb2.1⟩
        intro hm
        exact absurd (hb2.2 _ hm) (lt_irrefl _)
      · rw [if_neg h1] at hg
        by_cases h2 : g = n.freq
        · rw [if_pos h2] at hg
          cases hg
          exact hlb.1.erase e
        · rw [if_neg h2] at hg
          exact (hwf.bucketBound g L hg).1
    · intro x hx
      rw [hheaplen]
      rcases hmemNew g L x hg hx with h | ⟨_, L0, hg0, hx0⟩
      · omega
      · have := (hwf.bucketBound g L0 hg0).2 x hx0
        omega
  · intro g L x m hg hx hm
    rcases hmemNew g L x hg hx with h | ⟨hxe, L0, hg0, hx0⟩
    · subst h
      rw [hnew] at hm
      cases hm
    · have hxlt := (hwf.bucketBound g L0 hg0).2 x hx0
      rw [hother x hxe hxlt] at hm
      exact hwf.linked g L0 x m hg0 hx0 hm
  · intro k' e' m hk' hm
    by_cases hee : e' = e
    · subst hee
      rw [hself] at hm
      cases hm
      refine ⟨c.heap.length :: bucket c.freqMap (n.freq + 1), ?_,
        Or.inr ⟨c.heap.length, List.mem_cons_self _ _, hnew⟩⟩
      rw [hfm]
      simp
    · have helt' := hwf.lt_of_live hk'
      rw [hother e' hee helt'] at hm
      obtain ⟨L0, hg0, hcase⟩ := hwf.housed k' e' m hk' hm
      rcases hcase with he' | ⟨w, hw, hwe⟩
      · obtain ⟨L, hg, hx⟩ := hmemOld _ L0 e' hg0 he' hee
        exact ⟨L, hg, Or.inl hx⟩
      · have hwne : w ≠ e := by
          rintro rfl
          rw [hn] at hwe
          cases hwe
        obtain ⟨L, hg, hx⟩ := hmemOld _ L0 w hg0 hw hwne
        have hwlt := (hwf.bucketBound _ L0 hg0).2 w hw
        exact ⟨L, hg, Or.inr ⟨w, hx, (hother w hwne hwlt).trans hwe⟩⟩
  · show c.CurrByte = _
    rw [hwf.cost]
    symm
    apply cost_congr hkv
    intro p hp
    have hp' : mapGet c.kvMap p.1 = some p.2 := mapGet_of_mem hwf.kvKeys hp
    by_cases hpe : p.2 = e
    · rw [hpe, costAt_of_node hself, costAt_of_node hn]
    · exact costAt_congr (hother p.2 hpe (hwf.lt_of_live hp'))

end lfu

namespace lfu

variable {V : Type} [Lengthable V]

theorem WF.key_of_elem {c : Cache V} (hwf : WF c) {k k' : String} {e : Nat}
    (h : mapGet c.kvMap k = some e) (h' : mapGet c.kvMap k' = some e) : k = k' := by
  obtain ⟨n, hn, hnk⟩ := hwf.live k e h
  obtain ⟨n', hn', hnk'⟩ := hwf.live k' e h'
  rw [hn] at hn'
  cases hn'
  exact hnk.symm.trans hnk'

theorem WF_revalued {c : Cache V} (hwf : WF c) {k : String} {e : Nat} {n : Node V} (v : V)
    (hk : mapGet c.kvMap k = some e) (hn : c.heap[e]? = some (.node n)) :
    WF (revalued c e n v) := by
  have helt : e < c.heap.length := (List.getElem?_eq_some.mp hn).1
  have hself : (revalued c e n v).heap[e]? = some (.node { n with value := v }) := by
    show (c.heap.set e _)[e]? = _
    rw [List.getElem?_set]
    simp [helt]
  have hother : ∀ x, x ≠ e → (revalued c e n v).heap[x]? = c.heap[x]? := by
    intro x hxe
    show (c.heap.set e _)[x]? = _
    rw [List.getElem?_set]
    simp [Ne.symm hxe]
  have hheaplen : (revalued c e n v).heap.length = c.heap.length := List.length_set _ _ _
  have hnk : n.key = k := by
    obtain ⟨m, hm, hmk⟩ := hwf.live k e hk
    rw [hn] at hm
    cases hm
    exact hmk
  refine ⟨hwf.kvKeys, ?_, ?_, ?_, ?_, ?_⟩
  · intro k' e' hk'
    obtain ⟨m, hm, hmk⟩ := hwf.live k' e' hk'
    by_cases hee : e' = e
    · subst hee
      rw [hn] at hm
      cases hm
      exact ⟨_, hself, hmk⟩
    · exact ⟨m, (hother e' hee).trans hm, hmk⟩
  · intro g L hg
    rw [hheaplen]
    exact hwf.bucketBound g L hg
  · intro g L x m hg hx hm
    by_cases hxe : x = e
    · subst hxe
      rw [hself] at hm
      cases hm
      exact hwf.linked g L x n hg hx hn
    · rw [hother x hxe] at hm
      exact hwf.linked g L x m hg hx hm
  · intro k' e' m hk' hm
    have hw : ∀ w : Nat, c.heap[w]? = some (Payload.elem e') →
        (revalued c e n v).heap[w]? = some (Payload.elem e') := by
      intro w hwe
      have hwne : w ≠ e := by
        rintro rfl
        rw [hn] at hwe
        cases hwe
      exact (hother w hwne).trans hwe
    by_cases hee : e' = e
    · subst hee
      rw [hself] at hm
      cases hm
      obtain ⟨L0, hg0, hcase⟩ := hwf.housed k' e' n hk' hn
      refine ⟨L0, hg0, ?_⟩
      rcases hcase with h | ⟨w, hwL, hwe⟩
      · exact Or.inl h
      · exact Or.inr ⟨w, hwL, hw w hwe⟩
    · rw [hother e' hee] at hm
      obtain ⟨L0, hg0, hcase⟩ := hwf.housed k' e' m hk' hm
      refine ⟨L0, hg0, ?_⟩
      rcases hcase with h | ⟨w, hwL, hwe⟩
      · exact Or.inl h
      · exact Or.inr ⟨w, hwL, hw w hwe⟩
  · show c.CurrByte + ((Lengthable.Len v : Int) - (Lengthable.Len n.value : Int)) = _
    rw [totalCost_liveNodes]
    show _ = (c.kvMap.map (fun p => costAt (revalued c e n v) p.2)).sum
    have h1 := sum_mapDelete (fun p => costAt (revalued c e n v) p.2) c.kvMap hwf.kvKeys hk
    have h2 := sum_mapDelete (fun p => costAt c p.2) c.kvMap hwf.kvKeys hk
    have h3 : ((mapDelete c.kvMap k).map (fun p => costAt (revalued c e n v) p.2)) =
        ((mapDelete c.kvMap k).map (fun p => costAt c p.2)) := by
      apply List.map_congr_left
      intro p hp
      apply costAt_congr
      apply hother
      intro hpe
      have hp1 := List.mem_filter.mp hp
      have hp2 : mapGet c.kvMap p.1 = some e := hpe ▸ mapGet_of_mem hwf.kvKeys hp1.1
      have := hwf.key_of_elem hp2 hk
      simp [this] at hp1
    have h4 := hwf.cost
    rw [totalCost_liveNodes] at h4
    rw [h1, h3]
    rw [h2] at h4
    simp only [costAt_of_node hself, costAt_of_node hn, kvCost] at h4 ⊢
    omega

theorem WF_inserted_lfu {c : Cache V} (hwf : WF c) {k : String} (v : V)
    (hk : mapGet c.kvMap k = none) : WF (inserted c k v) := by
  have hnew : (inserted c k v).heap[c.heap.length]? =
      some (.node { key := k, value := v, freq := 1 }) := by
    show (c.heap ++ [_])[c.heap.length]? = _
    rw [List.getElem?_concat_length]
  have hother : ∀ x, x < c.heap.length → (inserted c k v).heap[x]? = c.heap[x]? := by
    intro x hx
    show (c.heap ++ [_])[x]? = _
    exact List.getElem?_append_left hx
  have hheaplen : (inserted c k v).heap.length = c.heap.length + 1 := by
    show (c.heap ++ [_]).length = _
    simp
  have hfm : ∀ g, mapGet (inserted c k v).freqMap g =
      if g = 1 then some (c.heap.length :: bucket c.freqMap 1) else mapGet c.freqMap g := by
    intro g
    show mapGet (mapSet c.freqMap 1 _) g = _
    rw [mapGet_mapSet]
  have hkv : ∀ k', mapGet (inserted c k v).kvMap k' =
      if k' = k then some c.heap.length else mapGet c.kvMap k' := by
    intro k'
    show mapGet (mapSet c.kvMap k _) k' = _
    rw [mapGet_mapSet]
  have hb1 := hwf.bucket_nodup 1
  have hmemNew : ∀ g L x, mapGet (inserted c k v).freqMap g = some L → x ∈ L →
      (g = 1 ∧ x = c.heap.length) ∨ (∃ L0, mapGet c.freqMap g = some L0 ∧ x ∈ L0) := by
    intro g L x hg hx
    rw [hfm] at hg
    by_cases h1 : g = 1
    · rw [if_pos h1] at hg
      cases hg
      rcases List.mem_cons.mp hx with hx | hx
      · exact Or.inl ⟨h1, hx⟩
      · subst h1
        exact Or.inr ⟨_, bucket_mem hx, hx⟩
    · rw [if_neg h1] at hg
      exact Or.inr ⟨L, hg, hx⟩
  have hmemOld : ∀ g L0 x, mapGet c.freqMap g = some L0 → x ∈ L0 →
      ∃ L, mapGet (inserted c k v).freqMap g = some L ∧ x ∈ L := by
    intro g L0 x hg hx
    rw [hfm]
    by_cases h1 : g = 1
    · rw [if_pos h1]
      refine ⟨_, rfl, List.mem_cons_of_mem _ ?_⟩
      rw [bucket_eq (h1 ▸ hg)]
      exact hx
    · rw [if_neg h1]
      exact ⟨L0, hg, hx⟩
  refine ⟨mapSet_keysNodup _ _ hwf.kvKeys, ?_, ?_, ?_, ?_, ?_⟩
  · intro k' e' hk'
    rw [hkv] at hk'
    by_cases hkk : k' = k
    · rw [if_pos hkk] at hk'
      cases hk'
      exact ⟨_, hnew, hkk.symm⟩
    · rw [if_neg hkk] at hk'
      obtain ⟨m, hm, hmk⟩ := hwf.live k' e' hk'
      exact ⟨m, (hother e' (hwf.lt_of_live hk')).trans hm, hmk⟩
  · intro g L hg
    constructor
    · rw [hfm] at hg
      by_cases h1 : g = 1
      · rw [if_pos h1] at hg
        cases hg
        refine List.nodup_cons.mpr ⟨?_, hb1.1⟩
        intro hm
        exact absurd (hb1.2 _ hm) (lt_irrefl _)
      · rw [if_neg h1] at hg
        exact (hwf.bucketBound g L hg).1
    · intro x hx
      rw [hheaplen]
      rcases hmemNew g L x hg hx with ⟨_, h⟩ | ⟨L0, hg0, hx0⟩
      · omega
      · have := (hwf.bucketBound g L0 hg0).2 x hx0
        omega
  · intro g L x m hg hx hm
    rcases hmemNew g L x hg hx with ⟨h1, h⟩ | ⟨L0, hg0, hx0⟩
    · subst h
      rw [hnew] at hm
      cases hm
      refine ⟨h1.symm, ?_⟩
      rw [hkv]
      simp
    · have hxlt := (hwf.bucketBound g L0 hg0).2 x hx0
      rw [hother x hxlt] at hm
      obtain ⟨h1, h2⟩ := hwf.linked g L0 x m hg0 hx0 hm
      refine ⟨h1, ?_⟩
      rw [hkv]
      have hne : m.key ≠ k := by
        intro h
        rw [h, hk] at h2
        cases h2
      rw [if_neg hne]
      exact h2
  · intro k' e' m hk' hm
    rw [hkv] at hk'
    by_cases hkk : k' = k
    · rw [if_pos hkk] at hk'
      cases hk'
      rw [hnew] at hm
      cases hm
      refine ⟨c.heap.length :: bucket c.freqMap 1, ?_, Or.inl (List.mem_cons_self _ _)⟩
      rw [hfm]
      simp
    · rw [if_neg hkk] at hk'
      rw [hother e' (hwf.lt_of_live hk')] at hm
      obtain ⟨L0, hg0, hcase⟩ := hwf.housed k' e' m hk' hm
      rcases hcase with he' | ⟨w, hw, hwe⟩
      · obtain ⟨L, hg, hx⟩ := hmemOld _ L0 e' hg0 he'
        exact ⟨L, hg, Or.inl hx⟩
      · obtain ⟨L, hg, hx⟩ := hmemOld _ L0 w hg0 hw
        have hwlt := (hwf.bucketBound _ L0 hg0).2 w hw
        exact ⟨L, hg, Or.inr ⟨w, hx, (hother w hwlt).trans hwe⟩⟩
  · show c.CurrByte + kvCost k v = _
    rw [totalCost_liveNodes]
    show _ = ((mapSet c.kvMap k c.heap.length).map (fun p => costAt (inserted c k v) p.2)).sum
    unfold mapSet
    rw [mapDelete_of_none hk, List.map_cons, List.sum_cons, costAt_of_node hnew]
    have h3 : (c.kvMap.map (fun p => costAt (inserted c k v) p.2)) =
        (c.kvMap.map (fun p => costAt c p.2)) := by
      apply List.map_congr_left
      intro p hp
      apply costAt_congr
      exact hother _ (hwf.lt_of_live (mapGet_of_mem hwf.kvKeys hp))
    have h4 := hwf.cost
    rw [totalCost_liveNodes] at h4
    rw [h3, ← h4]
    ring

theorem WF_dropped {c : Cache V} (hwf : WF c) {e : Nat} {n : Node V} {l : List Nat}
    {fm : List (Int × List Nat)} (mf : Int) (ev : List (String × V))
    (hk : mapGet c.kvMap n.key = some e) (hn : c.heap[e]? = some (.node n))
    (hl : mapGet c.freqMap n.freq = some l)
    (hfm : ∀ g, g ≠ n.freq → mapGet fm g = mapGet c.freqMap g)
    (hfm2 : mapGet fm n.freq = some (l.erase e) ∨ (mapGet fm n.freq = none ∧ l.erase e = [])) :
    WF (dropped c n fm mf ev) := by
  have hlb := hwf.bucketBound n.freq l hl
  have hkv : ∀ k', mapGet (dropped c n fm mf ev).kvMap k' =
      if k' = n.key then none else mapGet c.kvMap k' := by
    intro k'
    show mapGet (mapDelete c.kvMap n.key) k' = _
    rw [mapGet_mapDelete]
  have hmemNew : ∀ g L x, mapGet fm g = some L → x ∈ L →
      x ≠ e ∧ ∃ L0, mapGet c.freqMap g = some L0 ∧ x ∈ L0 := by
    intro g L x hg hx
    by_cases h1 : g = n.freq
    · subst h1
      rcases hfm2 with h | ⟨h, _⟩
      · rw [h] at hg
        cases hg
        have := (hlb.1.mem_erase_iff).mp hx
        exact ⟨this.1, l, hl, this.2⟩
      · rw [h] at hg
        cases hg
    · rw [hfm g h1] at hg
      refine ⟨?_, L, hg, hx⟩
      rintro rfl
      exact h1 ((hwf.linked g L x n hg hx hn).1).symm
  have hmemOld : ∀ g L0 x, mapGet c.freqMap g = some L0 → x ∈ L0 → x ≠ e →
      ∃ L, mapGet fm g = some L ∧ x ∈ L := by
    intro g L0 x hg hx hxe
    by_cases h1 : g = n.freq
    · subst h1
      rw [hl] at hg
      cases hg
      have hmem : x ∈ l.erase e := (hlb.1.mem_erase_iff).mpr ⟨hxe, hx⟩
      rcases hfm2 with h | ⟨_, h⟩
      · exact ⟨_, h, hmem⟩
      · rw [h] at hmem
        cases hmem
    · rw [hfm g h1]
      exact ⟨L0, hg, hx⟩
  refine ⟨mapDelete_keysNodup _ hwf.kvKeys, ?_, ?_, ?_, ?_, ?_⟩
  · intro k' e' hk'
    rw [hkv] at hk'
    by_cases hkk : k' = n.key
    · rw [if_pos hkk] at hk'
      cases hk'
    · rw [if_neg hkk] at hk'
      exact hwf.live k' e' hk'
  · intro g L hg
    show L.Nodup ∧ ∀ x ∈ L, x < c.heap.length
    have hg' : mapGet fm g = some L := hg
    constructor
    · by_cases h1 : g = n.freq
      · subst h1
        rcases hfm2 with h | ⟨h, _⟩
        · rw [h] at hg'
          cases hg'
          exact hlb.1.erase e
        · rw [h] at hg'
          cases hg'
      · rw [hfm g h1] at hg'
        exact (hwf.bucketBound g L hg').1
    · intro x hx
      obtain ⟨_, L0, hg0, hx0⟩ := hmemNew g L x hg' hx
      exact (hwf.bucketBound g L0 hg0).2 x hx0
  · intro g L x m hg hx hm
    have hm' : c.heap[x]? = some (.node m) := hm
    obtain ⟨hxe, L0, hg0, hx0⟩ := hmemNew g L x hg hx
    obtain ⟨h1, h2⟩ := hwf.linked g L0 x m hg0 hx0 hm'
    refine ⟨h1, ?_⟩
    rw [hkv]
    have hne : m.key ≠ n.key := by
      intro h
      rw [h, hk] at h2
      exact hxe (Option.some.inj h2).symm
    rw [if_neg hne]
    exact h2
  · intro k' e' m hk' hm
    have hm' : c.heap[e']? = some (.node m) := hm
    rw [hkv] at hk'
    by_cases hkk : k' = n.key
    · rw [if_pos hkk] at hk'
      cases hk'
    · rw [if_neg hkk] at hk'
      have hee : e' ≠ e := by
        rintro rfl
        exact hkk (hwf.key_of_elem hk' hk)
      obtain ⟨L0, hg0, hcase⟩ := hwf.housed k' e' m hk' hm'
      rcases hcase with he' | ⟨w, hw, hwe⟩
      · obtain ⟨L, hg, hx⟩ := hmemOld _ L0 e' hg0 he' hee
        exact ⟨L, hg, Or.inl hx⟩
      · have hwne : w ≠ e := by
          rintro rfl
          rw [hn] at hwe
          cases hwe
        obtain ⟨L, hg, hx⟩ := hmemOld _ L0 w hg0 hw hwne
        exact ⟨L, hg, Or.inr ⟨w, hx, hwe⟩⟩
  · show c.CurrByte - kvCost n.key n.value = _
    rw [totalCost_liveNodes]
    show _ = ((mapDelete c.kvMap n.key).map (fun p => costAt c p.2)).sum
    have h2 := sum_mapDelete (fun p => costAt c p.2) c.kvMap hwf.kvKeys hk
    have h4 := hwf.cost
    rw [totalCost_liveNodes, h2] at h4
    simp only [costAt_of_node hn] at h4
    omega

end lfu

namespace lfu

variable {V : Type} [Lengthable V]

theorem updateFreq_live {c : Cache V} (hwf : WF c) {k : String} {e : Nat} {n : Node V}
    (hk : mapGet c.kvMap k = some e) (hn : c.heap[e]? = some (.node n)) :
    ∃ l, mapGet c.freqMap n.freq = some l ∧ updateFreq c e = .ok (bumped c e n l) := by
  obtain ⟨l, hl, _⟩ := hwf.housed k e n hk hn
  refine ⟨l, hl, ?_⟩
  have hne : n.freq + 1 ≠ n.freq := by omega
  simp [updateFreq, hn, bucketRemove, hl, bumped, listRemove, mapGet_mapSet, hne, bucket]

theorem Get_miss_lfu {c : Cache V} {k : String} (h : mapGet c.kvMap k = none) :
    Get c k = .ok (none, c) := by
  simp [Get, h]

theorem Get_hit_lfu {c : Cache V} (hwf : WF c) {k : String} {e : Nat}
    (hk : mapGet c.kvMap k = some e) :
    ∃ n l, c.heap[e]? = some (.node n) ∧ n.key = k ∧ mapGet c.freqMap n.freq = some l ∧
      Get c k = .ok (some n.value, bumped c e n l) := by
  obtain ⟨n, hn, hnk⟩ := hwf.live k e hk
  obtain ⟨l, hl, hu⟩ := updateFreq_live hwf hk hn
  refine ⟨n, l, hn, hnk, hl, ?_⟩
  have helt : e < c.heap.length := (List.getElem?_eq_some.mp hn).1
  have hself : (bumped c e n l).heap[e]? = some (.node { n with freq := n.freq + 1 }) := by
    show (c.heap.set e _ ++ [_])[e]? = _
    rw [List.getElem?_append_left (by rw [List.length_set]; exact helt), List.getElem?_set]
    simp [helt]
  simp [Get, hk, hu, hself]

theorem addEntry_none_lfu {c : Cache V} {k : String} (v : V) (h : mapGet c.kvMap k = none) :
    addEntry c k v = .ok (inserted c k v) := by
  simp [addEntry, h, inserted, bucket]

theorem addEntry_some_lfu {c : Cache V} (hwf : WF c) {k : String} {e : Nat} (v : V)
    (hk : mapGet c.kvMap k = some e) :
    ∃ n l, c.heap[e]? = some (.node n) ∧ n.key = k ∧ mapGet c.freqMap n.freq = some l ∧
      addEntry c k v = .ok (bumped (revalued c e n v) e { n with value := v } l) ∧
      WF (bumped (revalued c e n v) e { n with value := v } l) := by
  obtain ⟨n, hn, hnk⟩ := hwf.live k e hk
  have hwf1 := WF_revalued hwf v hk hn
  have helt : e < c.heap.length := (List.getElem?_eq_some.mp hn).1
  have hself : (revalued c e n v).heap[e]? = some (.node { n with value := v }) := by
    show (c.heap.set e _)[e]? = _
    rw [List.getElem?_set]
    simp [helt]
  have hk1 : mapGet (revalued c e n v).kvMap k = some e := hk
  obtain ⟨l, hl, hu⟩ := updateFreq_live hwf1 hk1 hself
  refine ⟨n, l, hn, hnk, hl, ?_, WF_bumped hwf1 hk1 hself hl⟩
  simp only [addEntry, hk, hn]
  exact hu

theorem Evict_empty {c : Cache V} (h : c.kvMap = []) : Evict c = .ok (("", none), c) := by
  simp [Evict, h]

theorem mem_of_listBack {l : List Nat} {b : Nat} (h : listBack l = some b) : b ∈ l := by
  unfold listBack at h
  obtain ⟨ys, rfl⟩ := List.getLast?_eq_some_iff.mp h
  simp

theorem evictBuckets_spec {c : Cache V} {n : Node V} {l : List Nat} {e : Nat}
    (hf : n.freq = c.minFreq) :
    (∀ g, g ≠ n.freq → mapGet (evictBuckets c l e) g = mapGet c.freqMap g) ∧
    (mapGet (evictBuckets c l e) n.freq = some (l.erase e) ∨
      (mapGet (evictBuckets c l e) n.freq = none ∧ l.erase e = [])) := by
  unfold evictBuckets
  by_cases h0 : (l.erase e).length = 0
  · rw [if_pos h0]
    constructor
    · intro g hg
      rw [mapGet_mapDelete, ← hf, if_neg hg]
    · right
      rw [mapGet_mapDelete, hf]
      exact ⟨by simp, List.length_eq_zero.mp h0⟩
  · rw [if_neg h0]
    constructor
    · intro g hg
      rw [mapGet_mapSet, ← hf, if_neg hg]
    · left
      rw [mapGet_mapSet, hf]
      simp

/-- What a completed `Evict` does on a well-formed cache. -/
theorem Evict_ok {c c' : Cache V} {r : String × Option V} (hwf : WF c)
    (h : Evict c = .ok (r, c')) :
    (c.kvMap = [] ∧ r = ("", none) ∧ c' = c) ∨
    (∃ e n l, mapGet c.kvMap n.key = some e ∧ c.heap[e]? = some (.node n) ∧
      mapGet c.freqMap c.minFreq = some l ∧ n.freq = c.minFreq ∧ listBack l = some e ∧
      r = (n.key, some n.value) ∧
      c' = dropped c n (evictBuckets c l e) c.minFreq (evictLog c n) ∧ WF c') := by
  unfold Evict at h
  by_cases h0 : c.kvMap.length = 0
  · rw [if_pos h0] at h
    cases h
    exact Or.inl ⟨List.length_eq_zero.mp h0, rfl, rfl⟩
  · rw [if_neg h0] at h
    right
    cases hl : mapGet c.freqMap c.minFreq with
    | none => simp [hl] at h
    | some l =>
      rw [hl] at h
      simp only at h
      cases hb : listBack l with
      | none => simp [hb] at h
      | some b =>
        rw [hb] at h
        simp only at h
        cases hp : c.heap[b]? with
        | none => simp [hp] at h
        | some p =>
          cases p with
          | elem w => simp [hp] at h
          | node n =>
            rw [hp] at h
            simp only [Outcome.ok.injEq, Prod.mk.injEq] at h
            obtain ⟨hr, hc'⟩ := h
            have hbl := mem_of_listBack hb
            obtain ⟨hf, hk⟩ := hwf.linked c.minFreq l b n hl hbl hp
            obtain ⟨h1, h2⟩ := evictBuckets_spec (c := c) (l := l) (e := b) hf
            have hc'' : c' = dropped c n (evictBuckets c l b) c.minFreq (evictLog c n) := by
              rw [← hc']
              simp [dropped, evictBuckets, evictLog, listRemove]
            refine ⟨b, n, l, hk, hp, rfl, hf, hb, hr.symm, hc'', ?_⟩
            rw [hc'']
            exact WF_dropped hwf _ _ hk hp (hf ▸ hl) h1 h2

/-- What a completed `Remove` does on a well-formed cache. -/
theorem Remove_ok {fuel : Nat} {c c' : Cache V} {k : String} (hwf : WF c)
    (h : Remove fuel c k = .ok c') :
    (mapGet c.kvMap k = none ∧ c' = c) ∨
    (∃ e n fm mf, mapGet c.kvMap k = some e ∧ c.heap[e]? = some (.node n) ∧ n.key = k ∧
      c' = dropped c n fm mf c.evicted ∧ WF c') := by
  unfold Remove at h
  cases hk : mapGet c.kvMap k with
  | none =>
    rw [hk] at h
    cases h
    exact Or.inl ⟨rfl, rfl⟩
  | some e =>
    right
    rw [hk] at h
    simp only at h
    obtain ⟨n, hn, hnk⟩ := hwf.live k e hk
    obtain ⟨l, hl, _⟩ := hwf.housed k e n hk hn
    have hk' : mapGet c.kvMap n.key = some e := hnk ▸ hk
    rw [hn] at h
    simp only [bucketRemove, hl, listRemove, mapGet_mapSet, if_true] at h
    have hspec1 : ∀ g, g ≠ n.freq →
        mapGet (mapSet c.freqMap n.freq (l.erase e)) g = mapGet c.freqMap g := by
      intro g hg
      rw [mapGet_mapSet, if_neg hg]
    have hspec2 : ∀ g, g ≠ n.freq →
        mapGet (mapDelete (mapSet c.freqMap n.freq (l.erase e)) n.freq) g =
          mapGet c.freqMap g := by
      intro g hg
      rw [mapGet_mapDelete, if_neg hg, mapGet_mapSet, if_neg hg]
    have hdel : mapGet (mapDelete (mapSet c.freqMap n.freq (l.erase e)) n.freq) n.freq =
        none := by
      rw [mapGet_mapDelete]
      simp
    by_cases h0 : (l.erase e).length = 0
    · rw [if_pos h0] at h
      have hnil := List.length_eq_zero.mp h0
      by_cases h1 : (mapDelete (mapSet c.freqMap n.freq (l.erase e)) n.freq).length = 0
      · rw [if_pos h1] at h
        cases h
        exact ⟨e, n, _, 0, rfl, hn, hnk, rfl,
          WF_dropped hwf _ _ hk' hn hl hspec2 (Or.inr ⟨hdel, hnil⟩)⟩
      · rw [if_neg h1] at h
        cases hs : scanFreq fuel (mapDelete (mapSet c.freqMap n.freq (l.erase e)) n.freq)
            (n.freq + 1) with
        | none => simp [hs] at h
        | some newFreq =>
          rw [hs] at h
          cases h
          exact ⟨e, n, _, newFreq, rfl, hn, hnk, rfl,
            WF_dropped hwf _ _ hk' hn hl hspec2 (Or.inr ⟨hdel, hnil⟩)⟩
    · rw [if_neg h0] at h
      cases h
      refine ⟨e, n, mapSet c.freqMap n.freq (l.erase e), c.minFreq, rfl, hn, hnk, rfl, ?_⟩
      exact WF_dropped hwf _ _ hk' hn hl hspec1 (Or.inl (by rw [mapGet_mapSet]; simp))

theorem evictLoop_ok_lfu {fuel : Nat} {c c' : Cache V} {s : Int} (hwf : WF c)
    (h : evictLoop fuel c s = .ok c') :
    WF c' ∧ ¬ overfull c' s ∧ c'.MaxByte = c.MaxByte ∧ c'.callback = c.callback ∧
      (∀ k e, mapGet c'.kvMap k = some e → mapGet c.kvMap k = some e) := by
  induction fuel generalizing c with
  | zero => simp [evictLoop] at h
  | succ fuel ih =>
    unfold evictLoop at h
    by_cases hcond : c.MaxByte ≠ 0 ∧ c.CurrByte + s > c.MaxByte
    · rw [if_pos hcond] at h
      cases hE : Evict c with
      | panic => simp [hE] at h
      | timeout => simp [hE] at h
      | ok rc =>
        obtain ⟨r, c₁⟩ := rc
        rw [hE] at h
        simp only at h
        rcases Evict_ok hwf hE with ⟨_, _, rfl⟩ | ⟨e, n, l, hk, hn, hl, hf, hb, _, rfl, hwf₁⟩
        · exact ih hwf h
        · obtain ⟨h1, h2, h3, h4, h5⟩ := ih hwf₁ h
          refine ⟨h1, h2, h3, h4, ?_⟩
          intro k' e' hk'
          have := h5 k' e' hk'
          have hd : mapGet (mapDelete c.kvMap n.key) k' = some e' := this
          rw [mapGet_mapDelete] at hd
          by_cases hkk : k' = n.key
          · rw [if_pos hkk] at hd
            cases hd
          · rw [if_neg hkk] at hd
            exact hd
    · rw [if_neg hcond] at h
      cases h
      exact ⟨hwf, hcond, rfl, rfl, fun _ _ h => h⟩

/-- What a completed `Add` does on a well-formed cache. -/
theorem Add_ok_lfu {fuel : Nat} {c c' : Cache V} {k : String} {v : V} (hwf : WF c)
    (h : Add fuel c k v = .ok c') :
    WF c' ∧ c'.MaxByte = c.MaxByte ∧ c'.callback = c.callback ∧
      (∃ e, mapGet c'.kvMap k = some e) ∧
      (∀ k' e, mapGet c'.kvMap k' = some e → k' = k ∨ mapGet c.kvMap k' = some e) := by
  unfold Add at h
  cases hl : evictLoop fuel c (kvCost k v) with
  | panic => simp [hl] at h
  | timeout => simp [hl] at h
  | ok c₁ =>
    rw [hl] at h
    simp only at h
    obtain ⟨hwf₁, _, hmax, hcb, hsub⟩ := evictLoop_ok_lfu hwf hl
    cases hg : mapGet c₁.kvMap k with
    | none =>
      rw [addEntry_none_lfu v hg] at h
      cases h
      refine ⟨WF_inserted_lfu hwf₁ v hg, hmax, hcb, ⟨c₁.heap.length, ?_⟩, ?_⟩
      · show mapGet (mapSet c₁.kvMap k _) k = _
        rw [mapGet_mapSet]
        simp
      · intro k' e hk'
        have hk'' : mapGet (mapSet c₁.kvMap k c₁.heap.length) k' = some e := hk'
        rw [mapGet_mapSet] at hk''
        by_cases hkk : k' = k
        · exact Or.inl hkk
        · rw [if_neg hkk] at hk''
          exact Or.inr (hsub k' e hk'')
    | some e =>
      obtain ⟨n, l, hn, hnk, hl', hA, hwf'⟩ := addEntry_some_lfu hwf₁ v hg
      rw [hA] at h
      cases h
      refine ⟨hwf', hmax, hcb, ⟨e, hg⟩, ?_⟩
      intro k' e' hk'
      exact Or.inr (hsub k' e' hk')

theorem step_WF_lfu {fuel : Nat} {c c' : Cache V} {op : Op V} (hwf : WF c)
    (h : step fuel c op = .ok c') : WF c' := by
  cases op with
  | add k v => exact (Add_ok_lfu hwf h).1
  | get k =>
    simp only [step] at h
    cases hg : mapGet c.kvMap k with
    | none =>
      rw [Get_miss_lfu hg] at h
      cases h
      exact hwf
    | some e =>
      obtain ⟨n, l, hn, _, hl, hG⟩ := Get_hit_lfu hwf hg
      rw [hG] at h
      cases h
      exact WF_bumped hwf hg hn hl
  | remove k =>
    rcases Remove_ok hwf h with ⟨_, rfl⟩ | ⟨_, _, _, _, _, _, _, _, hwf'⟩
    · exact hwf
    · exact hwf'
  | evict =>
    simp only [step] at h
    cases hE : Evict c with
    | panic => simp [hE] at h
    | timeout => simp [hE] at h
    | ok rc =>
      obtain ⟨r, c₁⟩ := rc
      rw [hE] at h
      cases h
      rcases Evict_ok hwf hE with ⟨_, _, rfl⟩ | ⟨_, _, _, _, _, _, _, _, _, _, hwf'⟩
      · exact hwf
      · exact hwf'

theorem Reachable.wf_lfu {C : Int} {cb : Bool} {c : Cache V} (h : Reachable C cb c) : WF c := by
  induction h with
  | init => exact WF_New_lfu C cb
  | step fuel op c c' _ hs ih => exact step_WF_lfu ih hs

end lfu

namespace lfu

variable {V : Type} [Lengthable V]

theorem filterMap_concat_full {α β : Type} {f : α → Option β} {ys : List α} {b : α}
    {X : List β} {y : β} (h : (ys ++ [b]).filterMap f = X ++ [y])
    (hlen : X.length = ys.length) : f b = some y ∧ ys.filterMap f = X := by
  rw [List.filterMap_append] at h
  cases hfb : f b with
  | none =>
    exfalso
    simp only [List.filterMap_cons, hfb, List.filterMap_nil, List.append_nil] at h
    have h1 := List.length_filterMap_le f ys
    rw [h] at h1
    simp at h1
    omega
  | some z =>
    simp only [List.filterMap_cons, hfb, List.filterMap_nil] at h
    obtain ⟨h1, h2⟩ := List.append_inj' h rfl
    simp only [List.cons.injEq, and_true] at h2
    exact ⟨by rw [h2], h1⟩

theorem WF.liveNodes_keys {c : Cache V} (hwf : WF c) :
    (liveNodes c).map Node.key = c.kvMap.map Prod.fst := by
  have : ∀ m : List (String × Nat), (∀ p ∈ m, p ∈ c.kvMap) →
      (m.filterMap (fun p => nodeAt c p.2)).map Node.key = m.map Prod.fst := by
    intro m
    induction m with
    | nil => simp
    | cons p t ih =>
      intro hsub
      have hp : mapGet c.kvMap p.1 = some p.2 :=
        mapGet_of_mem hwf.kvKeys (hsub p (List.mem_cons_self _ _))
      obtain ⟨n, hn, hnk⟩ := hwf.live p.1 p.2 hp
      rw [List.filterMap_cons, nodeAt_eq_some.mpr hn]
      simp only [List.map_cons, hnk]
      rw [ih (fun q hq => hsub q (List.mem_cons_of_mem _ hq))]
  exact this c.kvMap (fun _ h => h)

theorem freshNodes_cons (kv : String × V) (kvs : List (String × V)) :
    freshNodes (kv :: kvs) = { key := kv.1, value := kv.2, freq := 1 } :: freshNodes kvs := rfl

theorem freshNodes_append (l₁ l₂ : List (String × V)) :
    freshNodes (l₁ ++ l₂) = freshNodes l₁ ++ freshNodes l₂ := by
  simp [freshNodes]

theorem freshNodes_length (l : List (String × V)) : (freshNodes l).length = l.length := by
  simp [freshNodes]

theorem freshNodes_keys (l : List (String × V)) :
    (freshNodes l).map Node.key = l.map Prod.fst := by
  simp [freshNodes]

theorem Fifo.keys {c : Cache V} {live : List (String × V)} (h : Fifo c live) :
    c.kvMap.map Prod.fst = (live.map Prod.fst).reverse := by
  rw [← h.wf.liveNodes_keys, h.nodes, List.map_reverse, freshNodes_keys]

theorem Fifo_New (C : Int) (cb : Bool) : Fifo (New C cb : Cache V) [] := by
  refine ⟨WF_New_lfu C cb, by simp [New, liveNodes, freshNodes], ?_, ?_⟩
  · intro h
    exact absurd rfl h
  · intro _
    simp [New, bucket, mapGet]

theorem Fifo.evict_oldest {c : Cache V} {kv : String × V} {rest : List (String × V)}
    (h : Fifo c (kv :: rest)) :
    ∃ c', Evict c = .ok ((kv.1, some kv.2), c') ∧ Fifo c' rest ∧
      c'.evicted = (if c.callback then c.evicted ++ [kv] else c.evicted) ∧
      c'.MaxByte = c.MaxByte ∧ c'.callback = c.callback := by
  obtain ⟨hmf, L, hL, hLn, hLlen⟩ := h.queue (by simp)
  have hwf := h.wf
  have hLb := hwf.bucketBound 1 L hL
  -- the bucket ends with the element of the oldest entry
  obtain ⟨ys, b, hLeq⟩ : ∃ ys b, L = ys ++ [b] := by
    rcases List.eq_nil_or_concat L with hnil | ⟨ys, b, hc⟩
    · rw [hnil] at hLlen
      simp at hLlen
    · exact ⟨ys, b, by rw [hc, List.concat_eq_append]⟩
  have hys : ys.length = rest.length := by
    rw [hLeq] at hLlen
    simpa using hLlen
  have hrev : (freshNodes (kv :: rest)).reverse =
      (freshNodes rest).reverse ++ [{ key := kv.1, value := kv.2, freq := 1 }] := by
    rw [freshNodes_cons, List.reverse_cons]
  rw [hLeq, hrev] at hLn
  obtain ⟨hb, hysn⟩ := filterMap_concat_full hLn
    (by rw [List.length_reverse, freshNodes_length, hys])
  have hbn : c.heap[b]? = some (.node { key := kv.1, value := kv.2, freq := 1 }) :=
    nodeAt_eq_some.mp hb
  -- the entry of the oldest key is the last one of kvMap
  have hkeys := h.keys
  have hne : c.kvMap.length ≠ 0 := by
    have := congrArg List.length hkeys
    simp at this
    omega
  have hback : listBack L = some b := by
    rw [hLeq]
    simp [listBack]
  have hE : Evict c = .ok ((kv.1, some kv.2),
      dropped c { key := kv.1, value := kv.2, freq := 1 } (evictBuckets c L b) c.minFreq
        (evictLog c { key := kv.1, value := kv.2, freq := 1 })) := by
    simp [Evict, hne, hmf, hL, hback, hbn, dropped, evictBuckets, evictLog, listRemove]
  have hwf' : WF (dropped c { key := kv.1, value := kv.2, freq := 1 } (evictBuckets c L b)
      c.minFreq (evictLog c { key := kv.1, value := kv.2, freq := 1 })) := by
    rcases Evict_ok hwf hE with ⟨hnil, _, _⟩ | ⟨_, _, _, _, _, _, _, _, _, _, hw⟩
    · rw [hnil] at hne
      exact absurd rfl hne
    · exact hw
  have herase : L.erase b = ys := erase_back hLb.1 hLeq
  refine ⟨_, hE, ⟨hwf', ?_, ?_, ?_⟩, ?_, rfl, rfl⟩
  · -- the live nodes
    obtain ⟨m', p, hm⟩ : ∃ m' p, c.kvMap = m' ++ [p] := by
      rcases List.eq_nil_or_concat c.kvMap with hnil | ⟨m', p, hc⟩
      · rw [hnil] at hne
        exact absurd rfl hne
      · exact ⟨m', p, by rw [hc, List.concat_eq_append]⟩
    have hk2 : m'.map Prod.fst ++ [p.1] = (rest.map Prod.fst).reverse ++ [kv.1] := by
      rw [hm] at hkeys
      simpa using hkeys
    obtain ⟨hk3, hk4⟩ := List.append_inj' hk2 rfl
    have hp1 : p.1 = kv.1 := by simpa using hk4
    have hnd := hwf.kvKeys
    rw [hm, List.map_append, List.nodup_append] at hnd
    have hnotin : ∀ q ∈ m', q.1 ≠ kv.1 := by
      intro q hq hqk
      refine hnd.2.2 (List.mem_map_of_mem Prod.fst hq) ?_
      rw [hqk, ← hp1]
      simp
    have hdel : mapDelete c.kvMap kv.1 = m' := by
      unfold mapDelete
      rw [hm, List.filter_append]
      have h1 : m'.filter (fun e => decide (e.1 ≠ kv.1)) = m' := by
        rw [List.filter_eq_self]
        intro q hq
        simpa using hnotin q hq
      rw [h1]
      simp [hp1]
    have hnodes := h.nodes
    unfold liveNodes at hnodes
    rw [hm, hrev] at hnodes
    have hm'len : m'.length = rest.length := by
      have := congrArg List.length hk3
      simpa using this
    obtain ⟨_, hmn⟩ := filterMap_concat_full hnodes
      (by rw [List.length_reverse, freshNodes_length, hm'len])
    show (mapDelete c.kvMap kv.1).filterMap _ = _
    rw [hdel]
    exact hmn
  · intro hrest
    refine ⟨hmf, ys, ?_, hysn, hys⟩
    show mapGet (evictBuckets c L b) 1 = some ys
    unfold evictBuckets
    have hlen0 : ¬ (L.erase b).length = 0 := by
      rw [herase, hys]
      intro h0
      exact hrest (List.length_eq_zero.mp h0)
    rw [if_neg hlen0, hmf, mapGet_mapSet, herase]
    simp
  · intro hrest
    show bucket (evictBuckets c L b) 1 = []
    unfold evictBuckets
    have hlen0 : (L.erase b).length = 0 := by
      rw [herase, hys, hrest]
      rfl
    rw [if_pos hlen0, hmf]
    unfold bucket
    rw [mapGet_mapDelete]
    simp
  · show evictLog c _ = _
    unfold evictLog
    rfl

theorem Fifo.insert {c : Cache V} {live : List (String × V)} (h : Fifo c live) {k : String}
    (v : V) (hk : k ∉ live.map Prod.fst) :
    addEntry c k v = .ok (inserted c k v) ∧ Fifo (inserted c k v) (live ++ [(k, v)]) := by
  have hwf := h.wf
  have hnone : mapGet c.kvMap k = none := by
    rw [mapGet_eq_none_iff, h.keys]
    simpa using hk
  have hother : ∀ x, x < c.heap.length → nodeAt (inserted c k v) x = nodeAt c x := by
    intro x hx
    unfold nodeAt
    have : (inserted c k v).heap[x]? = c.heap[x]? := List.getElem?_append_left hx
    rw [this]
  have hnew : nodeAt (inserted c k v) c.heap.length =
      some { key := k, value := v, freq := 1 } := by
    rw [nodeAt_eq_some]
    show (c.heap ++ [_])[c.heap.length]? = _
    rw [List.getElem?_concat_length]
  have hrev : (freshNodes (live ++ [(k, v)])).reverse =
      { key := k, value := v, freq := 1 } :: (freshNodes live).reverse := by
    rw [freshNodes_append, List.reverse_append]
    rfl
  refine ⟨addEntry_none_lfu v hnone, WF_inserted_lfu hwf v hnone, ?_, ?_, ?_⟩
  · show (mapSet c.kvMap k c.heap.length).filterMap _ = _
    unfold mapSet
    rw [mapDelete_of_none hnone, hrev]
    simp only [List.filterMap_cons, hnew, List.cons.injEq, true_and]
    rw [← h.nodes]
    unfold liveNodes
    apply List.filterMap_congr
    intro p hp
    exact hother _ (hwf.lt_of_live (mapGet_of_mem hwf.kvKeys hp))
  · intro _
    refine ⟨rfl, c.heap.length :: bucket c.freqMap 1, ?_, ?_, ?_⟩
    · show mapGet (mapSet c.freqMap 1 _) 1 = _
      rw [mapGet_mapSet]
      simp
    · rw [hrev]
      simp only [List.filterMap_cons, hnew, List.cons.injEq, true_and]
      by_cases hl : live = []
      · rw [h.idle hl, hl]
        rfl
      · obtain ⟨_, L, hL, hLn, _⟩ := h.queue hl
        rw [bucket_eq hL, ← hLn]
        apply List.filterMap_congr
        intro x hx
        exact hother x ((hwf.bucketBound 1 L hL).2 x hx)
    · by_cases hl : live = []
      · rw [h.idle hl, hl]
        rfl
      · obtain ⟨_, L, hL, _, hLlen⟩ := h.queue hl
        rw [bucket_eq hL]
        simp [hLlen]
  · intro hl
    simp at hl

end lfu

namespace lfu

variable {V : Type} [Lengthable V]

theorem reachable_of_run_lfu (C : Int) (cb : Bool) (fuel : Nat) (ops : List (Op V)) :
    ∀ c₀ c : Cache V, Reachable C cb c₀ → run fuel c₀ ops = .ok c → Reachable C cb c := by
  induction ops with
  | nil =>
    intro c₀ c h₀ h
    simp only [run] at h
    cases h
    exact h₀
  | cons op ops ih =>
    intro c₀ c h₀ h
    simp only [run] at h
    cases hs : step fuel c₀ op with
    | panic => simp [hs] at h
    | timeout => simp [hs] at h
    | ok c₁ =>
      rw [hs] at h
      exact ih c₁ c (Reachable.step fuel op c₀ c₁ h₀ hs) h

theorem Fifo.evictLoop {C : Int} {s : Int} (hs : s ≤ C) :
    ∀ (fuel : Nat) (c : Cache V) (live : List (String × V)), Fifo c live → c.MaxByte = C →
      c.callback = true → live.length < fuel →
      ∃ i c₁, i ≤ live.length ∧ evictLoop fuel c s = .ok c₁ ∧ Fifo c₁ (live.drop i) ∧
        c₁.evicted = c.evicted ++ live.take i ∧ ¬ overfull c₁ s ∧ c₁.MaxByte = C ∧
        c₁.callback = true := by
  intro fuel
  induction fuel with
  | zero =>
    intro c live _ _ _ hlt
    omega
  | succ fuel ih =>
    intro c live hF hm hcb hlt
    unfold lfu.evictLoop
    by_cases hcond : c.MaxByte ≠ 0 ∧ c.CurrByte + s > c.MaxByte
    · rw [if_pos hcond]
      cases live with
      | nil =>
        exfalso
        have hc := hF.wf.cost
        rw [hF.nodes] at hc
        simp only [freshNodes, List.map_nil, List.reverse_nil, totalCost, List.sum_nil] at hc
        have := hcond.2
        omega
      | cons kv rest =>
        obtain ⟨c', hE, hF', hev, hm', hcb'⟩ := hF.evict_oldest
        rw [hE]
        simp only
        simp only [List.length_cons] at hlt
        obtain ⟨i, c₁, hi, hl, hF₁, hev₁, hstop, hm₁, hcb₁⟩ :=
          ih c' rest hF' (hm'.trans hm) (hcb'.trans hcb) (by omega)
        refine ⟨i + 1, c₁, by simp; omega, hl, by simpa using hF₁, ?_, hstop, hm₁, hcb₁⟩
        rw [hev₁, hev, hcb]
        simp
    · rw [if_neg hcond]
      exact ⟨0, c, by omega, rfl, by simpa using hF, by simp, hcond, hm, hcb⟩

theorem run_fifo {C : Int} (fuel : Nat) :
    ∀ (more : List (String × V)) (c : Cache V) (live : List (String × V)), Fifo c live →
      c.MaxByte = C → c.callback = true → ((live ++ more).map Prod.fst).Nodup →
      (∀ kv ∈ more, kvCost kv.1 kv.2 ≤ C) → live.length + more.length < fuel →
      ∃ c' j, run fuel c (addAll more) = .ok c' ∧ j ≤ (live ++ more).length ∧
        Fifo c' ((live ++ more).drop j) ∧ c'.evicted = c.evicted ++ (live ++ more).take j := by
  intro more
  induction more with
  | nil =>
    intro c live hF _ _ _ _ _
    exact ⟨c, 0, rfl, by omega, by simpa using hF, by simp⟩
  | cons kv rest ih =>
    intro c live hF hm hcb hnd hfit hlt
    obtain ⟨k, v⟩ := kv
    simp only [List.length_cons] at hlt
    obtain ⟨i, c₁, hi, hl, hF₁, hev₁, _, hm₁, hcb₁⟩ :=
      Fifo.evictLoop (hfit (k, v) (List.mem_cons_self _ _)) fuel c live hF hm hcb (by omega)
    have hnd' : (live.map Prod.fst ++ k :: rest.map Prod.fst).Nodup := by
      simpa using hnd
    have hklive : k ∉ live.map Prod.fst := by
      intro hmem
      exact (List.nodup_append.mp hnd').2.2 hmem (List.mem_cons_self _ _)
    have hkdrop : k ∉ (live.drop i).map Prod.fst := by
      intro hmem
      apply hklive
      obtain ⟨p, hp, hpk⟩ := List.mem_map.mp hmem
      exact List.mem_map.mpr ⟨p, List.mem_of_mem_drop hp, hpk⟩
    obtain ⟨hA, hF₂⟩ := hF₁.insert v hkdrop
    have hadd : Add fuel c k v = .ok (inserted c₁ k v) := by
      unfold Add
      rw [hl]
      exact hA
    have hnd₂ : ((live.drop i ++ [(k, v)] ++ rest).map Prod.fst).Nodup := by
      have hsub : (live.drop i ++ [(k, v)] ++ rest).Sublist (live ++ (k, v) :: rest) := by
        rw [List.append_assoc]
        exact List.Sublist.append (List.drop_sublist i live) (List.Sublist.refl _)
      exact List.Nodup.sublist (hsub.map Prod.fst) hnd
    have hlen₂ : (live.drop i ++ [(k, v)]).length + rest.length < fuel := by
      simp only [List.length_append, List.length_drop, List.length_cons, List.length_nil]
      omega
    obtain ⟨c', j, hrun, hj, hF', hev'⟩ := ih (inserted c₁ k v) (live.drop i ++ [(k, v)]) hF₂
      hm₁ hcb₁ hnd₂ (fun kv hkv => hfit kv (List.mem_cons_of_mem _ hkv)) hlen₂
    have hsplit : live.drop i ++ [(k, v)] ++ rest = (live ++ (k, v) :: rest).drop i := by
      rw [List.drop_append_of_le_length hi, List.append_assoc]
      rfl
    refine ⟨c', i + j, ?_, ?_, ?_, ?_⟩
    · simp only [addAll, List.map_cons, run, step, hadd]
      exact hrun
    · rw [hsplit, List.length_drop] at hj
      have : i ≤ (live ++ (k, v) :: rest).length := by
        rw [List.length_append]
        omega
      omega
    · rw [hsplit, List.drop_drop] at hF'
      exact hF'
    · rw [hev', hsplit]
      show c₁.evicted ++ _ = _
      rw [hev₁, List.take_add, List.take_append_of_le_length hi, List.append_assoc]

/-- C6 (the code at the failing input). After `Add("k1", "v1")` and a hit `Get("k1")` on an
unbounded LFU cache, the cache holds one entry and the next `Evict` panics: bucket
`minFreq = 2` holds only the wrapper element that `updateFreq` pushed, and its `Value` is not
a `*Node`.  The scenario of `TestEvict` itself runs through (3 entries left, `k2` gone):
each of its evictions finds a never-updated element at the back of bucket 1. -/
theorem lfu_evict_panics_after_hit :
    run 1 (New 0 false) [.add "k1" "v1", .get "k1"] = .ok demoHit ∧
      Len demoHit = 1 ∧ Evict demoHit = .panic ∧
      ((run 2 (New 12 false)
          [.add "k1" "v1", .add "k1" "v1", .add "k1" "v1", .add "k2" "v2", .add "k3" "v3",
            .add "k3" "v3", .add "k4" "v4"]).result.map
        (fun c => (Len c, Contains c "k2")) = some (3, false)) := by
  decide

/-- C7. LFU eviction callback: on a cache of capacity `C > 0` with a callback, adding entries
with pairwise distinct keys, each of cost at most `C`, completes; for some `j` the callback
log is exactly the first `j` entries added, in insertion order, each with its own key and
value, and the cache holds exactly the remaining entries, each with frequency 1. -/
theorem lfu_eviction_callback (C : Int) (_hC : 0 < C) (kvs : List (String × V))
    (hd : (kvs.map Prod.fst).Nodup) (hfit : ∀ kv ∈ kvs, kvCost kv.1 kv.2 ≤ C) (fuel : Nat)
    (hfuel : kvs.length < fuel) :
    ∃ c j, run fuel (New C true) (addAll kvs) = .ok c ∧ j ≤ kvs.length ∧
      c.evicted = kvs.take j ∧
      (liveNodes c).reverse = freshNodes (kvs.drop j) ∧
      c.kvMap.map Prod.fst = ((kvs.drop j).map Prod.fst).reverse ∧
      Len c = ((kvs.length - j : Nat) : Int) := by
  obtain ⟨c, j, hrun, hj, hF, hev⟩ := run_fifo fuel kvs (New C true) [] (Fifo_New C true)
    rfl rfl (by simpa using hd) hfit (by simpa using hfuel)
  simp only [List.nil_append] at hj hF hev
  refine ⟨c, j, hrun, hj, ?_, ?_, hF.keys, ?_⟩
  · rw [hev]
    rfl
  · rw [hF.nodes, List.reverse_reverse]
  · unfold Len
    have := congrArg List.length hF.keys
    simp only [List.length_map, List.length_reverse, List.length_drop] at this
    rw [this]

theorem lfu_eviction_callback_witness :
    (∃ c j, run 5 (New 10 true)
        (addAll [("key1", "123456"), ("k2", "k2"), ("k3", "k3"), ("k4", "k4")]) = .ok c ∧
      j ≤ [("key1", "123456"), ("k2", "k2"), ("k3", "k3"), ("k4", "k4")].length ∧
      c.evicted = [("key1", "123456"), ("k2", "k2"), ("k3", "k3"), ("k4", "k4")].take j ∧
      (liveNodes c).reverse =
        freshNodes ([("key1", "123456"), ("k2", "k2"), ("k3", "k3"), ("k4", "k4")].drop j) ∧
      c.kvMap.map Prod.fst =
        (([("key1", "123456"), ("k2", "k2"), ("k3", "k3"), ("k4", "k4")].drop j).map
          Prod.fst).reverse ∧
      Len c =
        (([("key1", "123456"), ("k2", "k2"), ("k3", "k3"), ("k4", "k4")].length - j : Nat) :
          Int)) ∧
    ((run 5 (New 10 true)
        (addAll [("key1", "123456"), ("k2", "k2"), ("k3", "k3"), ("k4", "k4")])).result.map
      (fun c => (c.evicted.map Prod.fst, (liveNodes c).map (fun n => (n.key, n.freq)))) =
        some (["key1", "k2"], [("k4", 1), ("k3", 1)])) :=
  ⟨lfu_eviction_callback 10 (by decide)
    [("key1", "123456"), ("k2", "k2"), ("k3", "k3"), ("k4", "k4")] (by decide) (by decide) 5
    (by decide), by decide⟩

/-- C8 (as stated, refuted). On the full cache of capacity 12 holding `k1, k2, k3`, re-adding
the present key `k3` with a value of the same size runs the capacity loop first, which
evicts `k1`: `CurrByte` drops from 12 to 8 although the two value sizes are equal. -/
theorem lfu_readd_cost_counterexample :
    run 1 (New 12 false) [.add "k1" "v1", .add "k2" "v2", .add "k3" "v3"] = .ok demoFull ∧
      nodeOf demoFull "k3" = some { key := "k3", value := "v3", freq := 1 } ∧
      ∃ c', Add 2 demoFull "k3" "v3" = .ok c' ∧ c'.CurrByte = 8 ∧
        c'.CurrByte ≠ demoFull.CurrByte +
          ((Lengthable.Len "v3" : Int) - (Lengthable.Len "v3" : Int)) := by
  refine ⟨by decide, by decide, ?_⟩
  exact ⟨_, rfl, by decide, by decide⟩

/-- C8 (amended). In every LFU state reached by completed Add/Get/Remove/Evict calls,
`CurrByte` is the sum of `len(k) + v.Len()` over the entries of `kvMap` (every entry of
`kvMap` holding the node of its key); and re-adding a present key, when the capacity loop
does not run (`MaxByte = 0` or `CurrByte + len(k) + v.Len() ≤ MaxByte`), completes and
changes `CurrByte` by exactly the difference of the two value sizes. -/
theorem lfu_cost_accounting (C : Int) (cb : Bool) (c : Cache V) (hr : Reachable C cb c) :
    c.CurrByte = totalCost (liveNodes c) ∧
      (liveNodes c).map Node.key = c.kvMap.map Prod.fst ∧
      ∀ (k : String) (v : V) (old : Node V), nodeOf c k = some old →
        ¬ overfull c (kvCost k v) → ∀ fuel, 0 < fuel →
        ∃ c', Add fuel c k v = .ok c' ∧
          c'.CurrByte = c.CurrByte +
            ((Lengthable.Len v : Int) - (Lengthable.Len old.value : Int)) := by
  have hwf := hr.wf_lfu
  refine ⟨hwf.cost, hwf.liveNodes_keys, ?_⟩
  intro k v old hold hstop fuel hfuel
  obtain ⟨f, rfl⟩ : ∃ f, fuel = f + 1 := ⟨fuel - 1, by omega⟩
  have hloop : evictLoop (f + 1) c (kvCost k v) = .ok c := by
    unfold evictLoop
    exact if_neg hstop
  unfold nodeOf at hold
  cases hk : mapGet c.kvMap k with
  | none => simp [hk] at hold
  | some e =>
    rw [hk] at hold
    simp only at hold
    obtain ⟨n, l, hn, _, _, hA, _⟩ := addEntry_some_lfu hwf v hk
    have : n = old := by
      rw [nodeAt_eq_some, hn] at hold
      simpa using hold
    subst this
    refine ⟨bumped (revalued c e n v) e { n with value := v } l, ?_, rfl⟩
    unfold Add
    rw [hloop]
    exact hA

theorem lfu_cost_accounting_witness :
    (∃ c', Add 1 demo1 "key" "111" = .ok c' ∧
      c'.CurrByte = demo1.CurrByte +
        ((Lengthable.Len "111" : Int) - (Lengthable.Len "1" : Int))) ∧
    ((run 1 (New 0 false) [.add "key" "1", .add "key" "111"]).result.map
      (fun c => c.CurrByte) = some 6) :=
  ⟨(lfu_cost_accounting 0 false demo1
    (reachable_of_run_lfu 0 false 1 [.add "key" "1"] (New 0 false) demo1 Reachable.init
      (by decide))).2.2 "key" "111" { key := "key", value := "1", freq := 1 } (by decide)
    (by decide) 1 (by decide), by decide⟩

end lfu

/-! ## ARC: the four lists hold disjoint keys -/

namespace lru

variable {V : Type} [Lengthable V]

theorem Contains_mapDelete {c c' : Cache V} {k : String}
    (h : c'.hashmap = mapDelete c.hashmap k) (k' : String) :
    Contains c' k' = true ↔ (k' ≠ k ∧ Contains c k' = true) := by
  rw [Contains_iff, Contains_iff, h]
  by_cases hk : k' = k
  · simp [mapGet_mapDelete, hk]
  · simp [mapGet_mapDelete, hk]

theorem Get_keys {c c' : Cache V} {k : String} {r : Option V} (hwf : WF c)
    (h : Get c k = .ok (r, c')) :
    WF c' ∧ c'.hashmap = c.hashmap ∧ (r = none → c' = c) ∧
      (∀ v, r = some v → Contains c k = true) := by
  cases hg : mapGet c.hashmap k with
  | none =>
    rw [Get_miss hg] at h
    cases h
    exact ⟨hwf, rfl, fun _ => rfl, fun v hv => by cases hv⟩
  | some e =>
    obtain ⟨n, hn, hk, hG⟩ := Get_hit hwf hg
    rw [hG] at h
    cases h
    have he : e ∈ c.doublyLinkedList := ((hwf.index k e).mp hg).1
    refine ⟨WF_touched hwf he, rfl, ?_, fun _ _ => (Contains_iff c k).mpr ⟨e, hg⟩⟩
    intro hr
    cases hr

theorem Remove_keys {c c' : Cache V} {k : String} (hwf : WF c) (h : Remove c k = .ok c') :
    WF c' ∧ c'.hashmap = mapDelete c.hashmap k := by
  cases hg : mapGet c.hashmap k with
  | none =>
    rw [Remove_miss hg] at h
    cases h
    exact ⟨hwf, (mapDelete_of_none hg).symm⟩
  | some e =>
    obtain ⟨n, hn, hk, hR⟩ := Remove_hit hwf hg
    rw [hR] at h
    cases h
    have he : e ∈ c.doublyLinkedList := ((hwf.index k e).mp hg).1
    refine ⟨WF_removed hwf he hn, ?_⟩
    show mapDelete c.hashmap n.key = _
    rw [hk]

theorem Evict_keys {c c' : Cache V} {k : String} {r : Option V} (hwf : WF c)
    (h : Evict c = .ok ((k, r), c')) :
    WF c' ∧ (r = none → c' = c) ∧
      (∀ v, r = some v → Contains c k = true ∧ c'.hashmap = mapDelete c.hashmap k) := by
  rcases Evict_cases hwf with ⟨_, hE⟩ | ⟨ys, t, n, hl, hn, hE⟩
  · rw [hE] at h
    cases h
    exact ⟨hwf, fun _ => rfl, fun v hv => by cases hv⟩
  · rw [hE] at h
    cases h
    refine ⟨WF_evicted1 hwf hl hn, ?_, ?_⟩
    · intro hr
      cases hr
    · intro v _
      exact ⟨(Contains_iff c n.key).mpr
        ⟨t, (hwf.index n.key t).mpr ⟨by simp [hl], n, hn, rfl⟩⟩, rfl⟩

theorem Add_keys {fuel : Nat} {c c' : Cache V} {k : String} {v : V} (hwf : WF c)
    (h : Add fuel c k v = .ok c') :
    WF c' ∧ Contains c' k = true ∧
      (∀ k', Contains c' k' = true → k' = k ∨ Contains c k' = true) := by
  obtain ⟨hwf', _, _, _⟩ := Add_WF hwf h
  obtain ⟨j, c₁, hT, _, _, hcase⟩ := Add_ok hwf h
  have hsub : ∀ k' e, mapGet c₁.hashmap k' = some e → mapGet c.hashmap k' = some e := by
    intro k' e hg
    obtain ⟨he, n, hn, hk⟩ := (hT.wf.index k' e).mp hg
    have he' : e ∈ c.doublyLinkedList := by
      rw [hT.lst, List.rdrop] at he
      exact List.mem_of_mem_take he
    exact (hwf.index k' e).mpr ⟨he', n, hT.heap ▸ hn, hk⟩
  refine ⟨hwf', ?_, ?_⟩
  · rw [Contains_iff]
    rcases hcase with ⟨_, rfl⟩ | ⟨e, old, hg, _, _, rfl⟩
    · refine ⟨c₁.heap.length, ?_⟩
      show mapGet (mapSet c₁.hashmap k _) k = _
      rw [mapGet_mapSet]
      simp
    · exact ⟨e, hg⟩
  · intro k' hk'
    rw [Contains_iff] at hk' ⊢
    obtain ⟨e', he'⟩ := hk'
    rcases hcase with ⟨_, rfl⟩ | ⟨e, old, hg, _, _, rfl⟩
    · have h2 : mapGet (mapSet c₁.hashmap k c₁.heap.length) k' = some e' := he'
      rw [mapGet_mapSet] at h2
      by_cases hkk : k' = k
      · exact Or.inl hkk
      · rw [if_neg hkk] at h2
        exact Or.inr ⟨e', hsub k' e' h2⟩
    · exact Or.inr ⟨e', hsub k' e' he'⟩

end lru

namespace lfu

variable {V : Type} [Lengthable V]

theorem Contains_mapDelete_lfu {c c' : Cache V} {k : String}
    (h : c'.kvMap = mapDelete c.kvMap k) (k' : String) :
    Contains c' k' = true ↔ (k' ≠ k ∧ Contains c k' = true) := by
  rw [Contains_iff_lfu, Contains_iff_lfu, h]
  by_cases hk : k' = k
  · simp [mapGet_mapDelete, hk]
  · simp [mapGet_mapDelete, hk]

theorem Get_keys_lfu {c c' : Cache V} {k : String} {r : Option V} (hwf : WF c)
    (h : Get c k = .ok (r, c')) : WF c' ∧ c'.kvMap = c.kvMap := by
  cases hg : mapGet c.kvMap k with
  | none =>
    rw [Get_miss_lfu hg] at h
    cases h
    exact ⟨hwf, rfl⟩
  | some e =>
    obtain ⟨n, l, hn, _, hl, hG⟩ := Get_hit_lfu hwf hg
    rw [hG] at h
    cases h
    exact ⟨WF_bumped hwf hg hn hl, rfl⟩

theorem Remove_keys_lfu {fuel : Nat} {c c' : Cache V} {k : String} (hwf : WF c)
    (h : Remove fuel c k = .ok c') : WF c' ∧ c'.kvMap = mapDelete c.kvMap k := by
  rcases Remove_ok hwf h with ⟨hg, rfl⟩ | ⟨e, n, fm, mf, _, _, hnk, rfl, hwf'⟩
  · exact ⟨hwf, (mapDelete_of_none hg).symm⟩
  · refine ⟨hwf', ?_⟩
    show mapDelete c.kvMap n.key = _
    rw [hnk]

theorem Evict_keys_lfu {c c' : Cache V} {k : String} {r : Option V} (hwf : WF c)
    (h : Evict c = .ok ((k, r), c')) :
    WF c' ∧ (r = none → c' = c) ∧
      (∀ v, r = some v → Contains c k = true ∧ c'.kvMap = mapDelete c.kvMap k) := by
  rcases Evict_ok hwf h with ⟨_, hr, rfl⟩ | ⟨e, n, l, hk, _, _, _, _, hr, rfl, hwf'⟩
  · cases hr
    exact ⟨hwf, fun _ => rfl, fun v hv => by cases hv⟩
  · cases hr
    refine ⟨hwf', ?_, ?_⟩
    · intro hr
      cases hr
    · intro v _
      exact ⟨(Contains_iff_lfu c n.key).mpr ⟨e, hk⟩, rfl⟩

theorem Add_keys_lfu {fuel : Nat} {c c' : Cache V} {k : String} {v : V} (hwf : WF c)
    (h : Add fuel c k v = .ok c') :
    WF c' ∧ Contains c' k = true ∧
      (∀ k', Contains c' k' = true → k' = k ∨ Contains c k' = true) := by
  obtain ⟨hwf', _, _, hk, hsub⟩ := Add_ok_lfu hwf h
  refine ⟨hwf', (Contains_iff_lfu c' k).mpr hk, ?_⟩
  intro k' hk'
  obtain ⟨e, he⟩ := (Contains_iff_lfu c' k').mp hk'
  rcases hsub k' e he with h1 | h1
  · exact Or.inl h1
  · exact Or.inr ((Contains_iff_lfu c k').mpr ⟨e, h1⟩)

end lfu

namespace arc

variable {V : Type} [Lengthable V]

theorem toNat_mono {a a' : Bool} (h : a' = true → a = true) : a'.toNat ≤ a.toNat := by
  cases a' <;> cases a <;> simp at h ⊢

theorem holders_eq (c : Cache V) (k : String) :
    holders c k = (lru.Contains c.lru k).toNat + (lfu.Contains c.lfu k).toNat +
      (lru.Contains c.ghostLru k).toNat + (lfu.Contains c.ghostLfu k).toNat := by
  unfold holders
  cases lru.Contains c.lru k <;> cases lfu.Contains c.lfu k <;>
    cases lru.Contains c.ghostLru k <;> cases lfu.Contains c.ghostLfu k <;> rfl

theorem holders_mono (c c' : Cache V) {k : String}
    (m1 : lru.Contains c'.lru k = true → lru.Contains c.lru k = true)
    (m2 : lfu.Contains c'.lfu k = true → lfu.Contains c.lfu k = true)
    (m3 : lru.Contains c'.ghostLru k = true → lru.Contains c.ghostLru k = true)
    (m4 : lfu.Contains c'.ghostLfu k = true → lfu.Contains c.ghostLfu k = true) :
    holders c' k ≤ holders c k := by
  rw [holders_eq, holders_eq]
  have h1 := toNat_mono m1
  have h2 := toNat_mono m2
  have h3 := toNat_mono m3
  have h4 := toNat_mono m4
  omega

theorem holders_of_lru {c : Cache V} {k : String} (h : holders c k ≤ 1)
    (hk : lru.Contains c.lru k = true) :
    lfu.Contains c.lfu k = false ∧ lru.Contains c.ghostLru k = false ∧
      lfu.Contains c.ghostLfu k = false := by
  rw [holders_eq, hk] at h
  revert h
  cases lfu.Contains c.lfu k <;> cases lru.Contains c.ghostLru k <;>
    cases lfu.Contains c.ghostLfu k <;> simp

theorem holders_of_lfu {c : Cache V} {k : String} (h : holders c k ≤ 1)
    (hk : lfu.Contains c.lfu k = true) :
    lru.Contains c.lru k = false ∧ lru.Contains c.ghostLru k = false ∧
      lfu.Contains c.ghostLfu k = false := by
  rw [holders_eq, hk] at h
  revert h
  cases lru.Contains c.lru k <;> cases lru.Contains c.ghostLru k <;>
    cases lfu.Contains c.ghostLfu k <;> simp

theorem holders_of_ghostLru {c : Cache V} {k : String} (h : holders c k ≤ 1)
    (hk : lru.Contains c.ghostLru k = true) :
    lru.Contains c.lru k = false ∧ lfu.Contains c.lfu k = false ∧
      lfu.Contains c.ghostLfu k = false := by
  rw [holders_eq, hk] at h
  revert h
  cases lru.Contains c.lru k <;> cases lfu.Contains c.lfu k <;>
    cases lfu.Contains c.ghostLfu k <;> simp

theorem holders_of_ghostLfu {c : Cache V} {k : String} (h : holders c k ≤ 1)
    (hk : lfu.Contains c.ghostLfu k = true) :
    lru.Contains c.lru k = false ∧ lfu.Contains c.lfu k = false ∧
      lru.Contains c.ghostLru k = false := by
  rw [holders_eq, hk] at h
  revert h
  cases lru.Contains c.lru k <;> cases lfu.Contains c.lfu k <;>
    cases lru.Contains c.ghostLru k <;> simp

theorem holders_only_lfu {c : Cache V} {k : String} (h1 : lru.Contains c.lru k = false)
    (h3 : lru.Contains c.ghostLru k = false) (h4 : lfu.Contains c.ghostLfu k = false) :
    holders c k ≤ 1 := by
  rw [holders_eq, h1, h3, h4]
  cases lfu.Contains c.lfu k <;> simp

theorem holders_only_lru {c : Cache V} {k : String} (h2 : lfu.Contains c.lfu k = false)
    (h3 : lru.Contains c.ghostLru k = false) (h4 : lfu.Contains c.ghostLfu k = false) :
    holders c k ≤ 1 := by
  rw [holders_eq, h2, h3, h4]
  cases lru.Contains c.lru k <;> simp

theorem holders_only_ghostLru {c : Cache V} {k : String} (h1 : lru.Contains c.lru k = false)
    (h2 : lfu.Contains c.lfu k = false) (h4 : lfu.Contains c.ghostLfu k = false) :
    holders c k ≤ 1 := by
  rw [holders_eq, h1, h2, h4]
  cases lru.Contains c.ghostLru k <;> simp

theorem holders_only_ghostLfu {c : Cache V} {k : String} (h1 : lru.Contains c.lru k = false)
    (h2 : lfu.Contains c.lfu k = false) (h3 : lru.Contains c.ghostLru k = false) :
    holders c k ≤ 1 := by
  rw [holders_eq, h1, h2, h3]
  cases lfu.Contains c.ghostLfu k <;> simp

theorem eq_false_of_imp {a b : Bool} (h : a = true → b = true) (hb : b = false) :
    a = false := by
  cases a <;> simp_all

/-- A step that moves at most the key `key` between the four lists, and otherwise only drops
keys, keeps the lists disjoint provided `key` ends up in at most one of them. -/
theorem Inv.of_moves (c c' : Cache V) (key : String) (h : Inv c)
    (w1 : lru.WF c'.lru) (w2 : lru.WF c'.ghostLru) (w3 : lfu.WF c'.lfu)
    (w4 : lfu.WF c'.ghostLfu)
    (m1 : ∀ k, k ≠ key → lru.Contains c'.lru k = true → lru.Contains c.lru k = true)
    (m2 : ∀ k, k ≠ key → lfu.Contains c'.lfu k = true → lfu.Contains c.lfu k = true)
    (m3 : ∀ k, k ≠ key → lru.Contains c'.ghostLru k = true →
      lru.Contains c.ghostLru k = true)
    (m4 : ∀ k, k ≠ key → lfu.Contains c'.ghostLfu k = true →
      lfu.Contains c.ghostLfu k = true)
    (hkey : holders c' key ≤ 1) : Inv c' := by
  refine ⟨w1, w2, w3, w4, ?_⟩
  intro k
  by_cases hk : k = key
  · rw [hk]
    exact hkey
  · exact le_trans (holders_mono c c' (m1 k hk) (m2 k hk) (m3 k hk) (m4 k hk)) (h.disjoint k)

theorem Inv_New (C : Int) (cb : Bool) : Inv (New C cb : Cache V) := by
  refine ⟨lru.WF_New C false, lru.WF_New C false, lfu.WF_New_lfu C false,
    lfu.WF_New_lfu C false, ?_⟩
  intro k
  simp [holders, New, lru.New, lfu.New, lru.Contains, lfu.Contains, mapGet]

/-- The effect of `replace` on the four key sets. -/
theorem replace_ok {fuel : Nat} {c c' : Cache V} {key : String} (h : Inv c)
    (hr : replace fuel c key = .ok c') :
    Inv c' ∧
      (∀ k, lru.Contains c'.lru k = true → lru.Contains c.lru k = true) ∧
      (∀ k, lfu.Contains c'.lfu k = true → lfu.Contains c.lfu k = true) ∧
      (∀ k, lru.Contains c'.ghostLru k = true →
        lru.Contains c.ghostLru k = true ∨ lru.Contains c.lru k = true) ∧
      (∀ k, lfu.Contains c'.ghostLfu k = true →
        lfu.Contains c.ghostLfu k = true ∨ lfu.Contains c.lfu k = true) := by
  unfold replace at hr
  split at hr
  · -- the victim comes from the live LRU list
    cases hE : lru.Evict c.lru with
    | panic => simp [hE] at hr
    | timeout => simp [hE] at hr
    | ok p =>
      obtain ⟨⟨k₁, r⟩, l⟩ := p
      cases r with
      | none => simp [hE] at hr
      | some v₁ =>
        rw [hE] at hr
        simp only at hr
        cases hA : lru.Add fuel c.ghostLru k₁ v₁ with
        | panic => simp [hA] at hr
        | timeout => simp [hA] at hr
        | ok g =>
          rw [hA] at hr
          simp only [Outcome.ok.injEq] at hr
          subst hr
          obtain ⟨wl, _, hsome⟩ := lru.Evict_keys h.wfLru hE
          obtain ⟨hin, hmap⟩ := hsome v₁ rfl
          obtain ⟨wg, _, hsub⟩ := lru.Add_keys h.wfGhostLru hA
          have hL : ∀ k, lru.Contains l k = true → lru.Contains c.lru k = true :=
            fun k hk => ((lru.Contains_mapDelete hmap k).mp hk).2
          have hG : ∀ k, lru.Contains g k = true →
              lru.Contains c.ghostLru k = true ∨ lru.Contains c.lru k = true := by
            intro k hk
            rcases hsub k hk with rfl | h'
            · exact Or.inr hin
            · exact Or.inl h'
          obtain ⟨e2, e3, e4⟩ := holders_of_lru (h.disjoint k₁) hin
          refine ⟨?_, hL, fun _ hk => hk, hG, fun _ hk => Or.inl hk⟩
          refine Inv.of_moves c _ k₁ h wl wg h.wfLfu h.wfGhostLfu ?_ ?_ ?_ ?_ ?_
          · exact fun k _ hk => hL k hk
          · exact fun _ _ hk => hk
          · intro k hne hk
            rcases hsub k hk with rfl | h'
            · exact absurd rfl hne
            · exact h'
          · exact fun _ _ hk => hk
          · apply holders_only_ghostLru
            · show lru.Contains l k₁ = false
              cases hc : lru.Contains l k₁ with
              | false => rfl
              | true => exact absurd rfl ((lru.Contains_mapDelete hmap k₁).mp hc).1
            · exact e2
            · exact e4
  · -- the victim comes from the live LFU list
    cases hE : lfu.Evict c.lfu with
    | panic => simp [hE] at hr
    | timeout => simp [hE] at hr
    | ok p =>
      obtain ⟨⟨k₁, r⟩, f⟩ := p
      cases r with
      | none => simp [hE] at hr
      | some v₁ =>
        rw [hE] at hr
        simp only at hr
        cases hA : lfu.Add fuel c.ghostLfu k₁ v₁ with
        | panic => simp [hA] at hr
        | timeout => simp [hA] at hr
        | ok g =>
          rw [hA] at hr
          simp only [Outcome.ok.injEq] at hr
          subst hr
          obtain ⟨wf, _, hsome⟩ := lfu.Evict_keys_lfu h.wfLfu hE
          obtain ⟨hin, hmap⟩ := hsome v₁ rfl
          obtain ⟨wg, _, hsub⟩ := lfu.Add_keys_lfu h.wfGhostLfu hA
          have hF : ∀ k, lfu.Contains f k = true → lfu.Contains c.lfu k = true :=
            fun k hk => ((lfu.Contains_mapDelete_lfu hmap k).mp hk).2
          have hG : ∀ k, lfu.Contains g k = true →
              lfu.Contains c.ghostLfu k = true ∨ lfu.Contains c.lfu k = true := by
            intro k hk
            rcases hsub k hk with rfl | h'
            · exact Or.inr hin
            · exact Or.inl h'
          obtain ⟨e1, e3, e4⟩ := holders_of_lfu (h.disjoint k₁) hin
          refine ⟨?_, fun _ hk => hk, hF, fun _ hk => Or.inl hk, hG⟩
          refine Inv.of_moves c _ k₁ h h.wfLru h.wfGhostLru wf wg ?_ ?_ ?_ ?_ ?_
          · exact fun _ _ hk => hk
          · exact fun k _ hk => hF k hk
          · exact fun _ _ hk => hk
          · intro k hne hk
            rcases hsub k hk with rfl | h'
            · exact absurd rfl hne
            · exact h'
          · apply holders_only_ghostLfu
            · exact e1
            · show lfu.Contains f k₁ = false
              cases hc : lfu.Contains f k₁ with
              | false => rfl
              | true => exact absurd rfl ((lfu.Contains_mapDelete_lfu hmap k₁).mp hc).1
            · exact e3

theorem replaceIfFull_ok {fuel : Nat} {c c' : Cache V} {key : String} (h : Inv c)
    (hr : replaceIfFull fuel c key = .ok c') :
    Inv c' ∧
      (∀ k, lru.Contains c'.lru k = true → lru.Contains c.lru k = true) ∧
      (∀ k, lfu.Contains c'.lfu k = true → lfu.Contains c.lfu k = true) ∧
      (∀ k, lru.Contains c'.ghostLru k = true →
        lru.Contains c.ghostLru k = true ∨ lru.Contains c.lru k = true) ∧
      (∀ k, lfu.Contains c'.ghostLfu k = true →
        lfu.Contains c.ghostLfu k = true ∨ lfu.Contains c.lfu k = true) := by
  unfold replaceIfFull at hr
  split at hr
  · exact replace_ok h hr
  · cases hr
    exact ⟨h, fun _ hk => hk, fun _ hk => hk, fun _ hk => Or.inl hk, fun _ hk => Or.inl hk⟩

end arc

namespace arc

variable {V : Type} [Lengthable V]

theorem lru_Contains_congr {a b : lru.Cache V} (h : a.hashmap = b.hashmap) (k : String) :
    lru.Contains a k = lru.Contains b k := by
  unfold lru.Contains
  rw [h]

theorem lfu_Contains_congr {a b : lfu.Cache V} (h : a.kvMap = b.kvMap) (k : String) :
    lfu.Contains a k = lfu.Contains b k := by
  unfold lfu.Contains
  rw [h]

theorem trimGhostLru_ok {c c' : Cache V} {key : String} {v : V} (h : Inv c)
    (hr : trimGhostLru c key v = .ok c') :
    Inv c' ∧ c'.lru = c.lru ∧ c'.lfu = c.lfu ∧ c'.ghostLfu = c.ghostLfu ∧
      (∀ k, lru.Contains c'.ghostLru k = true → lru.Contains c.ghostLru k = true) := by
  unfold trimGhostLru at hr
  split at hr
  · cases hE : lru.Evict c.ghostLru with
    | panic => simp [hE] at hr
    | timeout => simp [hE] at hr
    | ok p =>
      obtain ⟨⟨k₁, r⟩, g⟩ := p
      rw [hE] at hr
      simp only [Outcome.ok.injEq] at hr
      subst hr
      obtain ⟨wg, hnone, hsome⟩ := lru.Evict_keys h.wfGhostLru hE
      have hG : ∀ k, lru.Contains g k = true → lru.Contains c.ghostLru k = true := by
        intro k hk
        cases r with
        | none =>
          rw [hnone rfl] at hk
          exact hk
        | some v₁ =>
          exact ((lru.Contains_mapDelete (hsome v₁ rfl).2 k).mp hk).2
      refine ⟨⟨h.wfLru, wg, h.wfLfu, h.wfGhostLfu, ?_⟩, rfl, rfl, rfl, hG⟩
      intro k
      exact le_trans (holders_mono c _ (fun hk => hk) (fun hk => hk) (hG k) (fun hk => hk))
        (h.disjoint k)
  · cases hr
    exact ⟨h, rfl, rfl, rfl, fun _ hk => hk⟩

theorem trimGhostLfu_ok {c c' : Cache V} {key : String} {v : V} (h : Inv c)
    (hr : trimGhostLfu c key v = .ok c') :
    Inv c' ∧ c'.lru = c.lru ∧ c'.lfu = c.lfu ∧ c'.ghostLru = c.ghostLru ∧
      (∀ k, lfu.Contains c'.ghostLfu k = true → lfu.Contains c.ghostLfu k = true) := by
  unfold trimGhostLfu at hr
  split at hr
  · cases hE : lfu.Evict c.ghostLfu with
    | panic => simp [hE] at hr
    | timeout => simp [hE] at hr
    | ok p =>
      obtain ⟨⟨k₁, r⟩, g⟩ := p
      rw [hE] at hr
      simp only [Outcome.ok.injEq] at hr
      subst hr
      obtain ⟨wg, hnone, hsome⟩ := lfu.Evict_keys_lfu h.wfGhostLfu hE
      have hG : ∀ k, lfu.Contains g k = true → lfu.Contains c.ghostLfu k = true := by
        intro k hk
        cases r with
        | none =>
          rw [hnone rfl] at hk
          exact hk
        | some v₁ =>
          exact ((lfu.Contains_mapDelete_lfu (hsome v₁ rfl).2 k).mp hk).2
      refine ⟨⟨h.wfLru, h.wfGhostLru, h.wfLfu, wg, ?_⟩, rfl, rfl, rfl, hG⟩
      intro k
      exact le_trans (holders_mono c _ (fun hk => hk) (fun hk => hk) (fun hk => hk) (hG k))
        (h.disjoint k)
  · cases hr
    exact ⟨h, rfl, rfl, rfl, fun _ hk => hk⟩

/-- Changing the bias `part` does not touch the four lists. -/
theorem Inv_part {c : Cache V} (h : Inv c) (p : Int) : Inv { c with part := p } :=
  ⟨h.wfLru, h.wfGhostLru, h.wfLfu, h.wfGhostLfu, h.disjoint⟩

theorem addGhostLru_ok {fuel : Nat} {c c' : Cache V} {key : String} {v : V} (h : Inv c)
    (h1 : lru.Contains c.lru key = false) (h2 : lfu.Contains c.lfu key = false)
    (h3 : lru.Contains c.ghostLru key = true)
    (hr : addGhostLru fuel c key v = .ok c') : Inv c' := by
  obtain ⟨_, _, h4⟩ := holders_of_ghostLru (h.disjoint key) h3
  unfold addGhostLru at hr
  simp only at hr
  split at hr
  · rename_i delta _
    cases hR : replaceIfFull fuel
        { c with part := if c.part + delta < c.maxByte then c.part + delta else c.maxByte } key with
    | panic => simp [hR] at hr
    | timeout => simp [hR] at hr
    | ok c₂ =>
      rw [hR] at hr
      simp only at hr
      cases hG : lru.Remove c₂.ghostLru key with
      | panic => simp [hG] at hr
      | timeout => simp [hG] at hr
      | ok g =>
        rw [hG] at hr
        simp only at hr
        cases hA : lfu.Add fuel c₂.lfu key v with
        | panic => simp [hA] at hr
        | timeout => simp [hA] at hr
        | ok f =>
          rw [hA] at hr
          simp only [Outcome.ok.injEq] at hr
          subst hr
          obtain ⟨hI, b1, b2, b3, b4⟩ := replaceIfFull_ok (Inv_part h _) hR
          obtain ⟨wg, hmap⟩ := lru.Remove_keys hI.wfGhostLru hG
          obtain ⟨wf, _, hsub⟩ := lfu.Add_keys_lfu hI.wfLfu hA
          refine Inv.of_moves c₂ _ key hI hI.wfLru wg wf hI.wfGhostLfu ?_ ?_ ?_ ?_ ?_
          · exact fun _ _ hk => hk
          · intro k hne hk
            rcases hsub k hk with rfl | h'
            · exact absurd rfl hne
            · exact h'
          · exact fun k _ hk => ((lru.Contains_mapDelete hmap k).mp hk).2
          · exact fun _ _ hk => hk
          · apply holders_only_lfu
            · exact eq_false_of_imp (b1 key) h1
            · show lru.Contains g key = false
              cases hc : lru.Contains g key with
              | false => rfl
              | true => exact absurd rfl ((lru.Contains_mapDelete hmap key).mp hc).1
            · show lfu.Contains c₂.ghostLfu key = false
              cases hc : lfu.Contains c₂.ghostLfu key with
              | false => rfl
              | true =>
                rcases b4 key hc with h' | h'
                · rw [h4] at h'
                  cases h'
                · rw [h2] at h'
                  cases h'
  · cases hr
  · cases hr

theorem addGhostLfu_ok {fuel : Nat} {c c' : Cache V} {key : String} {v : V} (h : Inv c)
    (h1 : lru.Contains c.lru key = false) (h2 : lfu.Contains c.lfu key = false)
    (h3 : lru.Contains c.ghostLru key = false)
    (hr : addGhostLfu fuel c key v = .ok c') : Inv c' := by
  unfold addGhostLfu at hr
  simp only at hr
  split at hr
  · rename_i delta _
    cases hR : replaceIfFull fuel
        { c with part := if delta ≥ c.part then 0 else c.part - delta } key with
    | panic => simp [hR] at hr
    | timeout => simp [hR] at hr
    | ok c₂ =>
      rw [hR] at hr
      simp only at hr
      cases hG : lfu.Remove fuel c₂.ghostLfu key with
      | panic => simp [hG] at hr
      | timeout => simp [hG] at hr
      | ok g =>
        rw [hG] at hr
        simp only at hr
        cases hA : lfu.Add fuel c₂.lfu key v with
        | panic => simp [hA] at hr
        | timeout => simp [hA] at hr
        | ok f =>
          rw [hA] at hr
          simp only [Outcome.ok.injEq] at hr
          subst hr
          obtain ⟨hI, b1, b2, b3, b4⟩ := replaceIfFull_ok (Inv_part h _) hR
          obtain ⟨wg, hmap⟩ := lfu.Remove_keys_lfu hI.wfGhostLfu hG
          obtain ⟨wf, _, hsub⟩ := lfu.Add_keys_lfu hI.wfLfu hA
          refine Inv.of_moves c₂ _ key hI hI.wfLru hI.wfGhostLru wf wg ?_ ?_ ?_ ?_ ?_
          · exact fun _ _ hk => hk
          · intro k hne hk
            rcases hsub k hk with rfl | h'
            · exact absurd rfl hne
            · exact h'
          · exact fun _ _ hk => hk
          · exact fun k _ hk => ((lfu.Contains_mapDelete_lfu hmap k).mp hk).2
          · apply holders_only_lfu
            · exact eq_false_of_imp (b1 key) h1
            · show lru.Contains c₂.ghostLru key = false
              cases hc : lru.Contains c₂.ghostLru key with
              | false => rfl
              | true =>
                rcases b3 key hc with h' | h'
                · rw [h3] at h'
                  cases h'
                · rw [h1] at h'
                  cases h'
            · show lfu.Contains g key = false
              cases hc : lfu.Contains g key with
              | false => rfl
              | true => exact absurd rfl ((lfu.Contains_mapDelete_lfu hmap key).mp hc).1
  · cases hr
  · cases hr

theorem addFresh_ok {fuel : Nat} {c c' : Cache V} {key : String} {v : V} (h : Inv c)
    (h1 : lru.Contains c.lru key = false) (h2 : lfu.Contains c.lfu key = false)
    (h3 : lru.Contains c.ghostLru key = false) (h4 : lfu.Contains c.ghostLfu key = false)
    (hr : addFresh fuel c key v = .ok c') : Inv c' := by
  unfold addFresh at hr
  cases hR : replaceIfFull fuel c key with
  | panic => simp [hR] at hr
  | timeout => simp [hR] at hr
  | ok c₁ =>
    rw [hR] at hr
    simp only at hr
    cases hT : trimGhostLru c₁ key v with
    | panic => simp [hT] at hr
    | timeout => simp [hT] at hr
    | ok c₂ =>
      rw [hT] at hr
      simp only at hr
      cases hU : trimGhostLfu c₂ key v with
      | panic => simp [hU] at hr
      | timeout => simp [hU] at hr
      | ok c₃ =>
        rw [hU] at hr
        simp only at hr
        cases hA : lru.Add fuel c₃.lru key v with
        | panic => simp [hA] at hr
        | timeout => simp [hA] at hr
        | ok l =>
          rw [hA] at hr
          simp only [Outcome.ok.injEq] at hr
          subst hr
          obtain ⟨hI₁, b1, b2, b3, b4⟩ := replaceIfFull_ok h hR
          obtain ⟨hI₂, t1, t2, t3, t4⟩ := trimGhostLru_ok hI₁ hT
          obtain ⟨hI₃, u1, u2, u3, u4⟩ := trimGhostLfu_ok hI₂ hU
          obtain ⟨wl, _, hsub⟩ := lru.Add_keys hI₃.wfLru hA
          refine Inv.of_moves c₃ _ key hI₃ wl hI₃.wfGhostLru hI₃.wfLfu hI₃.wfGhostLfu
            ?_ ?_ ?_ ?_ ?_
          · intro k hne hk
            rcases hsub k hk with rfl | h'
            · exact absurd rfl hne
            · exact h'
          · exact fun _ _ hk => hk
          · exact fun _ _ hk => hk
          · exact fun _ _ hk => hk
          · apply holders_only_lru
            · show lfu.Contains c₃.lfu key = false
              rw [u2, t2]
              exact eq_false_of_imp (b2 key) h2
            · show lru.Contains c₃.ghostLru key = false
              rw [u3]
              cases hc : lru.Contains c₂.ghostLru key with
              | false => rfl
              | true =>
                rcases b3 key (t4 key hc) with h' | h'
                · rw [h3] at h'
                  cases h'
                · rw [h1] at h'
                  cases h'
            · show lfu.Contains c₃.ghostLfu key = false
              cases hc : lfu.Contains c₃.ghostLfu key with
              | false => rfl
              | true =>
                have hc₂ := u4 key hc
                rw [t3] at hc₂
                rcases b4 key hc₂ with h' | h'
                · rw [h4] at h'
                  cases h'
                · rw [h2] at h'
                  cases h'

theorem Add_inv {fuel : Nat} {c c' : Cache V} {key : String} {v : V} (h : Inv c)
    (hr : Add fuel c key v = .ok c') : Inv c' := by
  unfold Add at hr
  split at hr
  · rename_i hL
    obtain ⟨_, e3, e4⟩ := holders_of_lru (h.disjoint key) hL
    cases hR : lru.Remove c.lru key with
    | panic => simp [hR] at hr
    | timeout => simp [hR] at hr
    | ok l =>
      rw [hR] at hr
      simp only at hr
      cases hA : lfu.Add fuel c.lfu key v with
      | panic => simp [hA] at hr
      | timeout => simp [hA] at hr
      | ok f =>
        rw [hA] at hr
        simp only [Outcome.ok.injEq] at hr
        subst hr
        obtain ⟨wl, hmap⟩ := lru.Remove_keys h.wfLru hR
        obtain ⟨wf, _, hsub⟩ := lfu.Add_keys_lfu h.wfLfu hA
        refine Inv.of_moves c _ key h wl h.wfGhostLru wf h.wfGhostLfu ?_ ?_ ?_ ?_ ?_
        · exact fun k _ hk => ((lru.Contains_mapDelete hmap k).mp hk).2
        · intro k hne hk
          rcases hsub k hk with rfl | h'
          · exact absurd rfl hne
          · exact h'
        · exact fun _ _ hk => hk
        · exact fun _ _ hk => hk
        · apply holders_only_lfu
          · show lru.Contains l key = false
            cases hc : lru.Contains l key with
            | false => rfl
            | true => exact absurd rfl ((lru.Contains_mapDelete hmap key).mp hc).1
          · exact e3
          · exact e4
  · rename_i hL
    have h1 : lru.Contains c.lru key = false := by
      cases hc : lru.Contains c.lru key with
      | false => rfl
      | true => exact absurd hc hL
    split at hr
    · rename_i hF
      obtain ⟨_, e3, e4⟩ := holders_of_lfu (h.disjoint key) hF
      cases hA : lfu.Add fuel c.lfu key v with
      | panic => simp [hA] at hr
      | timeout => simp [hA] at hr
      | ok f =>
        rw [hA] at hr
        simp only [Outcome.ok.injEq] at hr
        subst hr
        obtain ⟨wf, _, hsub⟩ := lfu.Add_keys_lfu h.wfLfu hA
        refine Inv.of_moves c _ key h h.wfLru h.wfGhostLru wf h.wfGhostLfu ?_ ?_ ?_ ?_ ?_
        · exact fun _ _ hk => hk
        · intro k hne hk
          rcases hsub k hk with rfl | h'
          · exact absurd rfl hne
          · exact h'
        · exact fun _ _ hk => hk
        · exact fun _ _ hk => hk
        · exact holders_only_lfu h1 e3 e4
    · rename_i hF
      have h2 : lfu.Contains c.lfu key = false := by
        cases hc : lfu.Contains c.lfu key with
        | false => rfl
        | true => exact absurd hc hF
      split at hr
      · rename_i hGL
        exact addGhostLru_ok h h1 h2 hGL hr
      · rename_i hGL
        have h3 : lru.Contains c.ghostLru key = false := by
          cases hc : lru.Contains c.ghostLru key with
          | false => rfl
          | true => exact absurd hc hGL
        split at hr
        · exact addGhostLfu_ok h h1 h2 h3 hr
        · rename_i hGF
          have h4 : lfu.Contains c.ghostLfu key = false := by
            cases hc : lfu.Contains c.ghostLfu key with
            | false => rfl
            | true => exact absurd hc hGF
          exact addFresh_ok h h1 h2 h3 h4 hr

theorem Get_ok {fuel : Nat} {c c' : Cache V} {key : String} {r : Option V} (h : Inv c)
    (hr : Get fuel c key = .ok (r, c')) : Inv c' := by
  unfold Get at hr
  cases hG : lru.Get c.lru key with
  | panic => simp [hG] at hr
  | timeout => simp [hG] at hr
  | ok p =>
    obtain ⟨r₁, l₁⟩ := p
    obtain ⟨wl₁, hmap₁, hnone, hsome⟩ := lru.Get_keys h.wfLru hG
    cases r₁ with
    | some v =>
      rw [hG] at hr
      simp only at hr
      have hL := hsome v rfl
      obtain ⟨_, e3, e4⟩ := holders_of_lru (h.disjoint key) hL
      cases hR : lru.Remove l₁ key with
      | panic => simp [hR] at hr
      | timeout => simp [hR] at hr
      | ok l₂ =>
        rw [hR] at hr
        simp only at hr
        cases hA : lfu.Add fuel c.lfu key v with
        | panic => simp [hA] at hr
        | timeout => simp [hA] at hr
        | ok f =>
          rw [hA] at hr
          simp only [Outcome.ok.injEq, Prod.mk.injEq] at hr
          obtain ⟨_, hc'⟩ := hr
          subst hc'
          obtain ⟨wl₂, hmap₂⟩ := lru.Remove_keys wl₁ hR
          obtain ⟨wf, _, hsub⟩ := lfu.Add_keys_lfu h.wfLfu hA
          refine Inv.of_moves c _ key h wl₂ h.wfGhostLru wf h.wfGhostLfu ?_ ?_ ?_ ?_ ?_
          · intro k _ hk
            have := ((lru.Contains_mapDelete hmap₂ k).mp hk).2
            rw [lru_Contains_congr hmap₁] at this
            exact this
          · intro k hne hk
            rcases hsub k hk with rfl | h'
            · exact absurd rfl hne
            · exact h'
          · exact fun _ _ hk => hk
          · exact fun _ _ hk => hk
          · apply holders_only_lfu
            · show lru.Contains l₂ key = false
              cases hc : lru.Contains l₂ key with
              | false => rfl
              | true => exact absurd rfl ((lru.Contains_mapDelete hmap₂ key).mp hc).1
            · exact e3
            · exact e4
    | none =>
      rw [hG] at hr
      simp only at hr
      cases hF : lfu.Get c.lfu key with
      | panic => simp [hF] at hr
      | timeout => simp [hF] at hr
      | ok q =>
        obtain ⟨r₂, f⟩ := q
        rw [hF] at hr
        simp only [Outcome.ok.injEq, Prod.mk.injEq] at hr
        obtain ⟨_, hc'⟩ := hr
        subst hc'
        obtain ⟨wf, hkv⟩ := lfu.Get_keys_lfu h.wfLfu hF
        refine ⟨wl₁, h.wfGhostLru, wf, h.wfGhostLfu, ?_⟩
        intro k
        refine le_trans (holders_mono c _ ?_ ?_ (fun hk => hk) (fun hk => hk)) (h.disjoint k)
        · intro hk
          have hk' : lru.Contains l₁ k = true := hk
          rw [lru_Contains_congr hmap₁] at hk'
          exact hk'
        · intro hk
          have hk' : lfu.Contains f k = true := hk
          rw [lfu_Contains_congr hkv] at hk'
          exact hk'

theorem step_Inv {fuel : Nat} {c c' : Cache V} {op : Op V} (h : Inv c)
    (hs : step fuel c op = .ok c') : Inv c' := by
  cases op with
  | add k v => exact Add_inv h hs
  | get k =>
    simp only [step] at hs
    cases hG : Get fuel c k with
    | panic => simp [hG] at hs
    | timeout => simp [hG] at hs
    | ok p =>
      obtain ⟨r, c₁⟩ := p
      rw [hG] at hs
      cases hs
      exact Get_ok h hG

theorem Reachable.arc_inv {C : Int} {cb : Bool} {c : Cache V} (h : Reachable C cb c) : Inv c := by
  induction h with
  | init => exact Inv_New C cb
  | step fuel op c c' _ hs ih => exact step_Inv ih hs

theorem reachable_of_run_arc (C : Int) (cb : Bool) (fuel : Nat) (ops : List (Op V)) :
    ∀ c₀ c : Cache V, Reachable C cb c₀ → run fuel c₀ ops = .ok c → Reachable C cb c := by
  induction ops with
  | nil =>
    intro c₀ c h₀ h
    simp only [run] at h
    cases h
    exact h₀
  | cons op ops ih =>
    intro c₀ c h₀ h
    simp only [run] at h
    cases hs : step fuel c₀ op with
    | panic => simp [hs] at h
    | timeout => simp [hs] at h
    | ok c₁ =>
      rw [hs] at h
      exact ih c₁ c (Reachable.step fuel op c₀ c₁ h₀ hs) h

end arc

namespace arc

variable {V : Type} [Lengthable V]

/-- C9 (the code at the failing input). On an ARC cache of capacity 10, the calls
`Add("a","1234")`, `Get("a")`, `Add("b","12345678")` all complete, each entry costs at most
10 (5 and 9), and the two live lists then hold 9 + 5 = 14 bytes: `Add` of a new key calls
`replace` only when the lists are already full, without counting the incoming entry. -/
theorem arc_capacity_exceeded :
    run 1 (New 10 false) [.add "a" "1234", .get "a", .add "b" "12345678"] = .ok demoOver ∧
      kvCost "a" "1234" ≤ 10 ∧ kvCost "b" "12345678" ≤ 10 ∧
      demoOver.lru.CurrByte + demoOver.lfu.CurrByte = 14 ∧
      ¬ (demoOver.lru.CurrByte + demoOver.lfu.CurrByte ≤ demoOver.maxByte) := by
  decide

/-- C10. ARC list disjointness: in every ARC state reached from `New(C)` by completed
Add/Get calls, every key is contained in at most one of the four sub-caches `lru`, `lfu`,
`ghostLru`, `ghostLfu`. -/
theorem arc_lists_disjoint (C : Int) (cb : Bool) (c : Cache V) (hr : Reachable C cb c)
    (k : String) : holders c k ≤ 1 :=
  hr.arc_inv.disjoint k

theorem arc_lists_disjoint_witness : holders demoGhost "a" ≤ 1 :=
  arc_lists_disjoint 10 false demoGhost
    (reachable_of_run_arc 10 false 1 [.add "a" "1234", .add "b" "1234", .add "cc" "x"]
      (New 10 false) demoGhost Reachable.init (by decide))
    "a"

end arc

/-! ## ARC: hits, capacity 0, bias range, ghost entries -/

namespace arc

variable {V : Type} [Lengthable V]

/-- C11 (the code at the failing input). On an ARC cache of capacity 10, after
`Add("a","1234")`, `Get("a")`, `Get("a")`, `Add("b","12345")`, the key `b` is in the live LRU
list, and `Get("b")` does not return: the promotion calls `lfu.Add`, whose capacity loop calls
`lfu.Evict` on a bucket that ends in a wrapper element, and that panics.  The scenario of
`TestGet` itself runs through. -/
theorem arc_get_hit_panics :
    run 2 (New 10 false) [.add "a" "1234", .get "a", .get "a", .add "b" "12345"] =
        .ok demoPromote ∧
      lru.Contains demoPromote.lru "b" = true ∧
      Get 2 demoPromote "b" = .panic ∧
      (∀ fuel, (Get fuel demoPromote "b").result = none) ∧
      ((Get 2 (New 10 false) "key2").result.map Prod.fst = some (none : Option String)) ∧
      (((run 2 (New 10 false) [.add "key1" "1234"]).result.bind
          (fun c => (Get 2 c "key1").result)).map
        (fun r => (r.1, lru.Contains r.2.lru "key1", lfu.Contains r.2.lfu "key1")) =
        some (some "1234", false, true)) := by
  refine ⟨by decide, by decide, by decide, ?_, by decide, by decide⟩
  intro fuel
  cases fuel with
  | zero => decide
  | succ n =>
    have h : Get (n + 1) demoPromote "b" = .panic := by
      simp [Get, demoPromote, lru.Get, lru.Remove, lfu.Add, lfu.evictLoop, lfu.Evict, mapGet,
        listMoveToFront, listBack, kvCost, keyLen, Lengthable.Len]
      decide
    rw [h]
    rfl

/-- C12 (the code at the failing input). On an ARC cache created with capacity 0, the first
`Add` of any key and value panics: `0 + 0 >= 0` calls `replace`, both live lists are empty,
`lfu.Evict` returns `"", nil`, and `ghostLfu.Add("", nil)` calls `Len` on the nil value.
So does the first `add` on the cache that `newCache(0, "arc")` builds. -/
theorem arc_capacity_zero_add_panics (fuel : Nat) (cb : Bool) (key : String) (value : V) :
    Add fuel (New 0 cb) key value = .panic ∧
      ∀ (k : String) (b : simplegroupcache.ByteView),
        simplegroupcache.mutexCache.add fuel (simplegroupcache.newCache 0 "arc") k b =
          .panic := by
  have h : ∀ (W : Type) [Lengthable W] (cb' : Bool) (k : String) (w : W),
      Add fuel (New 0 cb') k w = .panic := by
    intro W _ cb' k w
    simp [Add, New, lru.New, lfu.New, lru.Contains, lfu.Contains, mapGet, addFresh,
      replaceIfFull, replace, lru.Len, lfu.Evict]
  refine ⟨h V cb key value, ?_⟩
  intro k b
  have hn : simplegroupcache.newCache 0 "arc" =
      { cache := some (.arc (New 0 false)), capacity := 0 } := by decide
  rw [hn]
  simp only [simplegroupcache.mutexCache.add, simplegroupcache.CacheStrategy.Add,
    h simplegroupcache.ByteView false k b]

end arc

/-! ## ARC: the range of the bias -/

namespace arc

variable {V : Type} [Lengthable V]

theorem BiasOk_New (C : Int) (cb : Bool) (hC : 0 ≤ C) : BiasOk C (New C cb : Cache V) :=
  ⟨rfl, le_refl 0, hC⟩

theorem replace_bias {fuel : Nat} {c c' : Cache V} {key : String}
    (hr : replace fuel c key = .ok c') : c'.part = c.part ∧ c'.maxByte = c.maxByte := by
  unfold replace at hr
  split at hr
  · cases hE : lru.Evict c.lru with
    | panic => simp [hE] at hr
    | timeout => simp [hE] at hr
    | ok p =>
      obtain ⟨⟨k, ov⟩, l⟩ := p
      cases ov with
      | none => simp [hE] at hr
      | some v =>
        cases hA : lru.Add fuel c.ghostLru k v with
        | panic => simp [hE, hA] at hr
        | timeout => simp [hE, hA] at hr
        | ok g =>
          simp only [hE, hA, Outcome.ok.injEq] at hr
          subst hr
          exact ⟨rfl, rfl⟩
  · cases hE : lfu.Evict c.lfu with
    | panic => simp [hE] at hr
    | timeout => simp [hE] at hr
    | ok p =>
      obtain ⟨⟨k, ov⟩, l⟩ := p
      cases ov with
      | none => simp [hE] at hr
      | some v =>
        cases hA : lfu.Add fuel c.ghostLfu k v with
        | panic => simp [hE, hA] at hr
        | timeout => simp [hE, hA] at hr
        | ok g =>
          simp only [hE, hA, Outcome.ok.injEq] at hr
          subst hr
          exact ⟨rfl, rfl⟩

theorem replaceIfFull_bias {fuel : Nat} {c c' : Cache V} {key : String}
    (hr : replaceIfFull fuel c key = .ok c') : c'.part = c.part ∧ c'.maxByte = c.maxByte := by
  unfold replaceIfFull at hr
  split at hr
  · exact replace_bias hr
  · cases hr
    exact ⟨rfl, rfl⟩

theorem trimGhostLru_bias {c c' : Cache V} {key : String} {v : V}
    (hr : trimGhostLru c key v = .ok c') : c'.part = c.part ∧ c'.maxByte = c.maxByte := by
  unfold trimGhostLru at hr
  split at hr
  · cases hE : lru.Evict c.ghostLru with
    | panic => simp [hE] at hr
    | timeout => simp [hE] at hr
    | ok p =>
      simp only [hE, Outcome.ok.injEq] at hr
      subst hr
      exact ⟨rfl, rfl⟩
  · cases hr
    exact ⟨rfl, rfl⟩

theorem trimGhostLfu_bias {c c' : Cache V} {key : String} {v : V}
    (hr : trimGhostLfu c key v = .ok c') : c'.part = c.part ∧ c'.maxByte = c.maxByte := by
  unfold trimGhostLfu at hr
  split at hr
  · cases hE : lfu.Evict c.ghostLfu with
    | panic => simp [hE] at hr
    | timeout => simp [hE] at hr
    | ok p =>
      simp only [hE, Outcome.ok.injEq] at hr
      subst hr
      exact ⟨rfl, rfl⟩
  · cases hr
    exact ⟨rfl, rfl⟩

/-- The step added to or taken from `part` is never negative. -/
theorem delta_nonneg {b : Prop} [Decidable b] {m n kvSize delta : Int} (hm : 0 ≤ m)
    (hn : 0 ≤ n) (hk : 0 ≤ kvSize)
    (h : (if b then scaled m n kvSize else .ok kvSize) = .ok delta) : 0 ≤ delta := by
  split at h
  · unfold scaled at h
    split at h
    · cases h
    · cases h
      exact mul_nonneg (Int.tdiv_nonneg hm hn) hk
  · cases h
    exact hk

theorem addGhostLru_bias {fuel : Nat} {C : Int} {c c' : Cache V} {key : String} {v : V}
    (h : BiasOk C c) (hr : addGhostLru fuel c key v = .ok c') : BiasOk C c' := by
  unfold addGhostLru at hr
  simp only at hr
  cases hd : (if c.ghostLru.CurrByte < c.ghostLfu.CurrByte
      then scaled (lfu.Len c.ghostLfu) (lru.Len c.ghostLru) (kvCost key v)
      else Outcome.ok (kvCost key v)) with
  | panic => simp [hd] at hr
  | timeout => simp [hd] at hr
  | ok delta =>
    have hdelta : 0 ≤ delta :=
      delta_nonneg (by simp [lfu.Len]) (by simp [lru.Len]) (kvCost_nonneg key v) hd
    rw [hd] at hr
    simp only at hr
    cases hR : replaceIfFull fuel
        { c with part := if c.part + delta < c.maxByte then c.part + delta else c.maxByte }
        key with
    | panic => simp [hR] at hr
    | timeout => simp [hR] at hr
    | ok c2 =>
      obtain ⟨hp, hm⟩ := replaceIfFull_bias hR
      simp only at hp hm
      rw [hR] at hr
      simp only at hr
      cases hG : lru.Remove c2.ghostLru key with
      | panic => simp [hG] at hr
      | timeout => simp [hG] at hr
      | ok g =>
        cases hA : lfu.Add fuel c2.lfu key v with
        | panic => simp [hG, hA] at hr
        | timeout => simp [hG, hA] at hr
        | ok f =>
          simp only [hG, hA, Outcome.ok.injEq] at hr
          subst hr
          have hl := h.lower
          have hu := h.upper
          refine ⟨?_, ?_, ?_⟩
          · show c2.maxByte = C
            rw [hm]
            exact h.maxByte
          · show 0 ≤ c2.part
            rw [hp]
            split
            · omega
            · omega
          · show c2.part ≤ c2.maxByte
            rw [hp, hm]
            split
            · omega
            · omega

theorem addGhostLfu_bias {fuel : Nat} {C : Int} {c c' : Cache V} {key : String} {v : V}
    (h : BiasOk C c) (hr : addGhostLfu fuel c key v = .ok c') : BiasOk C c' := by
  unfold addGhostLfu at hr
  simp only at hr
  cases hd : (if c.ghostLru.CurrByte > c.ghostLfu.CurrByte
      then scaled (lru.Len c.ghostLru) (lfu.Len c.ghostLfu) (kvCost key v)
      else Outcome.ok (kvCost key v)) with
  | panic => simp [hd] at hr
  | timeout => simp [hd] at hr
  | ok delta =>
    have hdelta : 0 ≤ delta :=
      delta_nonneg (by simp [lru.Len]) (by simp [lfu.Len]) (kvCost_nonneg key v) hd
    rw [hd] at hr
    simp only at hr
    cases hR : replaceIfFull fuel
        { c with part := if delta ≥ c.part then 0 else c.part - delta } key with
    | panic => simp [hR] at hr
    | timeout => simp [hR] at hr
    | ok c2 =>
      obtain ⟨hp, hm⟩ := replaceIfFull_bias hR
      simp only at hp hm
      rw [hR] at hr
      simp only at hr
      cases hG : lfu.Remove fuel c2.ghostLfu key with
      | panic => simp [hG] at hr
      | timeout => simp [hG] at hr
      | ok g =>
        cases hA : lfu.Add fuel c2.lfu key v with
        | panic => simp [hG, hA] at hr
        | timeout => simp [hG, hA] at hr
        | ok f =>
          simp only [hG, hA, Outcome.ok.injEq] at hr
          subst hr
          have hl := h.lower
          have hu := h.upper
          refine ⟨?_, ?_, ?_⟩
          · show c2.maxByte = C
            rw [hm]
            exact h.maxByte
          · show 0 ≤ c2.part
            rw [hp]
            split
            · omega
            · omega
          · show c2.part ≤ c2.maxByte
            rw [hp, hm]
            split
            · omega
            · omega

theorem addFresh_bias {fuel : Nat} {C : Int} {c c' : Cache V} {key : String} {v : V}
    (h : BiasOk C c) (hr : addFresh fuel c key v = .ok c') : BiasOk C c' := by
  unfold addFresh at hr
  cases h1 : replaceIfFull fuel c key with
  | panic => simp [h1] at hr
  | timeout => simp [h1] at hr
  | ok c1 =>
    rw [h1] at hr
    simp only at hr
    cases h2 : trimGhostLru c1 key v with
    | panic => simp [h2] at hr
    | timeout => simp [h2] at hr
    | ok c2 =>
      rw [h2] at hr
      simp only at hr
      cases h3 : trimGhostLfu c2 key v with
      | panic => simp [h3] at hr
      | timeout => simp [h3] at hr
      | ok c3 =>
        rw [h3] at hr
        simp only at hr
        cases h4 : lru.Add fuel c3.lru key v with
        | panic => simp [h4] at hr
        | timeout => simp [h4] at hr
        | ok l =>
          simp only [h4, Outcome.ok.injEq] at hr
          subst hr
          obtain ⟨p1, m1⟩ := replaceIfFull_bias h1
          obtain ⟨p2, m2⟩ := trimGhostLru_bias h2
          obtain ⟨p3, m3⟩ := trimGhostLfu_bias h3
          have hl := h.lower
          have hu := h.upper
          have hm := h.maxByte
          exact ⟨by show c3.maxByte = C; omega, by show 0 ≤ c3.part; omega,
            by show c3.part ≤ c3.maxByte; omega⟩

theorem Add_bias {fuel : Nat} {C : Int} {c c' : Cache V} {key : String} {v : V}
    (h : BiasOk C c) (hr : Add fuel c key v = .ok c') : BiasOk C c' := by
  unfold Add at hr
  split at hr
  · cases hG : lru.Remove c.lru key with
    | panic => simp [hG] at hr
    | timeout => simp [hG] at hr
    | ok g =>
      cases hA : lfu.Add fuel c.lfu key v with
      | panic => simp [hG, hA] at hr
      | timeout => simp [hG, hA] at hr
      | ok f =>
        simp only [hG, hA, Outcome.ok.injEq] at hr
        subst hr
        exact ⟨h.maxByte, h.lower, h.upper⟩
  · split at hr
    · cases hA : lfu.Add fuel c.lfu key v with
      | panic => simp [hA] at hr
      | timeout => simp [hA] at hr
      | ok f =>
        simp only [hA, Outcome.ok.injEq] at hr
        subst hr
        exact ⟨h.maxByte, h.lower, h.upper⟩
    · split at hr
      · exact addGhostLru_bias h hr
      · split at hr
        · exact addGhostLfu_bias h hr
        · exact addFresh_bias h hr

theorem Get_bias {fuel : Nat} {C : Int} {c c' : Cache V} {key : String} {r : Option V}
    (h : BiasOk C c) (hr : Get fuel c key = .ok (r, c')) : BiasOk C c' := by
  unfold Get at hr
  cases hG : lru.Get c.lru key with
  | panic => simp [hG] at hr
  | timeout => simp [hG] at hr
  | ok p =>
    obtain ⟨ov, l1⟩ := p
    rw [hG] at hr
    cases ov with
    | some v =>
      simp only at hr
      cases hR : lru.Remove l1 key with
      | panic => simp [hR] at hr
      | timeout => simp [hR] at hr
      | ok l2 =>
        cases hA : lfu.Add fuel c.lfu key v with
        | panic => simp [hR, hA] at hr
        | timeout => simp [hR, hA] at hr
        | ok f =>
          simp only [hR, hA, Outcome.ok.injEq, Prod.mk.injEq] at hr
          obtain ⟨_, hc⟩ := hr
          subst hc
          exact ⟨h.maxByte, h.lower, h.upper⟩
    | none =>
      simp only at hr
      cases hF : lfu.Get c.lfu key with
      | panic => simp [hF] at hr
      | timeout => simp [hF] at hr
      | ok q =>
        obtain ⟨r', f⟩ := q
        simp only [hF, Outcome.ok.injEq, Prod.mk.injEq] at hr
        obtain ⟨_, hc⟩ := hr
        subst hc
        exact ⟨h.maxByte, h.lower, h.upper⟩

theorem step_bias {fuel : Nat} {C : Int} {c c' : Cache V} {op : Op V} (h : BiasOk C c)
    (hs : step fuel c op = .ok c') : BiasOk C c' := by
  cases op with
  | add k v => exact Add_bias h hs
  | get k =>
    simp only [step] at hs
    cases hG : Get fuel c k with
    | panic => simp [hG] at hs
    | timeout => simp [hG] at hs
    | ok p =>
      obtain ⟨r, c₁⟩ := p
      rw [hG] at hs
      cases hs
      exact Get_bias h hG

/-- C19. ARC bias range: for every ARC cache created by `New(C)` with `C >= 0` and every
finite sequence of completed Add/Get calls, the state after the calls has
`0 <= part <= maxByte`, with `maxByte` still equal to `C`. -/
theorem arc_bias_range (C : Int) (cb : Bool) (hC : 0 ≤ C) (c : Cache V)
    (hr : Reachable C cb c) : 0 ≤ c.part ∧ c.part ≤ c.maxByte ∧ c.maxByte = C := by
  have h : BiasOk C c := by
    induction hr with
    | init => exact BiasOk_New C cb hC
    | step fuel op c c' _ hs ih => exact step_bias ih hs
  exact ⟨h.lower, h.upper, h.maxByte⟩

theorem arc_bias_range_witness :
    (0 : Int) ≤ 10 ∧ demoBias.part = 5 ∧
      (0 ≤ demoBias.part ∧ demoBias.part ≤ demoBias.maxByte ∧ demoBias.maxByte = 10) :=
  ⟨by decide, rfl,
    arc_bias_range 10 false (by decide) demoBias
      (reachable_of_run_arc 10 false 2
        [.add "a" "1234", .add "b" "1234", .add "cc" "x", .add "a" "1234"]
        (New 10 false) demoBias Reachable.init (by decide))⟩

end arc

/-! ## LRU: updating a present key -/

namespace lru

variable {V : Type} [Lengthable V]

/-- C17 (counterexample). On the LRU cache of capacity 12 holding `k1`, `k2`, `k3` (4 bytes
each), `Add("k3","w3")` with an entry of cost 4 <= 12 evicts `k1`: the capacity loop runs,
with the full cost of the entry, before the key is looked up.  The key set shrinks and
`CurrByte` drops from 12 to 8 although both values have length 2. -/
theorem lru_update_evicts_counterexample :
    run 1 (New 12 true) [.add "k1" "v1", .add "k2" "v2", .add "k3" "v3"] = .ok demo3 ∧
      Contains demo3 "k3" = true ∧ kvCost "k3" "w3" ≤ demo3.MaxByte ∧
      demo3.CurrByte = 12 ∧
      (Add 2 demo3 "k3" "w3").result.map (fun c => (keys c, c.CurrByte, c.evicted)) =
        some (["k3", "k2"], 8, [("k1", "v1")]) := by
  decide

/-- C17 (amended). LRU update in place: for every LRU state reached by completed calls that
contains key `k`, and every new value `v'` for which the capacity loop does not run
(`MaxByte = 0` or `CurrByte + len(k) + v'.Len() <= MaxByte`), `Add(k, v')` completes and
evicts nothing: `k` holds `v'` at the front, every other entry keeps its value and relative
order, and `CurrByte` changes by `v'.Len()` minus the old value's `Len()`. -/
theorem lru_update_in_place (C : Int) (cb : Bool) (c : Cache V) (hr : Reachable C cb c)
    (k : String) (v' : V) (hk : Contains c k = true)
    (hfit : c.MaxByte = 0 ∨ c.CurrByte + kvCost k v' ≤ c.MaxByte)
    (fuel : Nat) (hfuel : 0 < fuel) :
    ∃ c' old E₁ E₂, Add fuel c k v' = .ok c' ∧
      entries c = E₁ ++ { key := k, value := old } :: E₂ ∧
      entries c' = { key := k, value := v' } :: (E₁ ++ E₂) ∧
      c'.CurrByte = c.CurrByte + ((Lengthable.Len v' : Int) - (Lengthable.Len old : Int)) ∧
      c'.evicted = c.evicted := by
  have hwf := hr.wf.1
  obtain ⟨e, he⟩ := (Contains_iff c k).mp hk
  obtain ⟨old, hold, hkey, hA⟩ := addEntry_some hwf v' he
  have hmem : e ∈ c.doublyLinkedList := ((hwf.index k e).mp he).1
  obtain ⟨E₁, E₂, h1, h2⟩ := entries_updated hwf v' hmem hold
  obtain ⟨n, rfl⟩ : ∃ n, fuel = n + 1 := ⟨fuel - 1, by omega⟩
  have hloop : evictLoop (n + 1) c (kvCost k v') = .ok c := by
    have hno : ¬ (c.MaxByte ≠ 0 ∧ c.CurrByte + kvCost k v' > c.MaxByte) := by
      rintro ⟨h0, hgt⟩
      rcases hfit with h | h
      · exact h0 h
      · omega
    simp only [evictLoop]
    exact if_neg hno
  refine ⟨updated c e old v', old.value, E₁, E₂, ?_, ?_, ?_, rfl, rfl⟩
  · simp only [Add, hloop]
    exact hA
  · rw [h1, ← hkey]
  · rw [h2, ← hkey]

theorem lru_update_in_place_witness :
    Contains demo2 "k1" = true ∧
      ∃ c' old E₁ E₂, Add 1 demo2 "k1" "w1" = .ok c' ∧
        entries demo2 = E₁ ++ { key := "k1", value := old } :: E₂ ∧
        entries c' = { key := "k1", value := "w1" } :: (E₁ ++ E₂) ∧
        c'.CurrByte = demo2.CurrByte +
          ((Lengthable.Len "w1" : Int) - (Lengthable.Len old : Int)) ∧
        c'.evicted = demo2.evicted :=
  ⟨by decide,
    lru_update_in_place 12 true demo2
      (reachable_of_run 12 true 1 [.add "k1" "v1", .add "k2" "v2"]
        (New 12 true) demo2 Reachable.init (by decide))
      "k1" "w1" (by decide) (by decide) 1 (by decide)⟩

end lru

/-! ## LFU: the minimum frequency -/

namespace lfu

variable {V : Type} [Lengthable V]

/-- C18 (the code at the failing input). On an unbounded LFU cache, `Add(k1,v1)`,
`Add(k2,v2)`, `Get(k1)` complete and leave `minFreq = 2` while `k2` is live with frequency 1
in the non-empty bucket 1: `updateFreq` advances `minFreq` whenever the old frequency equals
it.  The next `Evict` then panics.  And `Add(k1,v1)`, `Evict` leave an empty cache with
`minFreq = 1`: `Evict` never resets it. -/
theorem lfu_minFreq_overshoots :
    run 2 (New 0 false) [.add "k1" "v1", .add "k2" "v2", .get "k1"] = .ok demoSkew ∧
      demoSkew.minFreq = 2 ∧
      (nodeOf demoSkew "k2").map Node.freq = some 1 ∧
      (nodeOf demoSkew "k1").map Node.freq = some 2 ∧
      mapGet demoSkew.freqMap 1 = some [1] ∧
      Evict demoSkew = .panic ∧
      (run 2 (New 0 false) [.add "k1" "v1", .evict]).result.map
        (fun c => (Len c, c.minFreq)) = some (0, 1) := by
  decide

/-- After a completed `Add(k, v)` the node of `k` holds `v`. -/
theorem Add_value_lfu {fuel : Nat} {c c' : Cache V} {k : String} {v : V} (hwf : WF c)
    (h : Add fuel c k v = .ok c') : ∃ n, nodeOf c' k = some n ∧ n.key = k ∧ n.value = v := by
  unfold Add at h
  cases hl : evictLoop fuel c (kvCost k v) with
  | panic => simp [hl] at h
  | timeout => simp [hl] at h
  | ok c₁ =>
    rw [hl] at h
    simp only at h
    obtain ⟨hwf₁, _, _, _, _⟩ := evictLoop_ok_lfu hwf hl
    cases hg : mapGet c₁.kvMap k with
    | none =>
      rw [addEntry_none_lfu v hg] at h
      cases h
      refine ⟨{ key := k, value := v, freq := 1 }, ?_, rfl, rfl⟩
      have h1 : mapGet (inserted c₁ k v).kvMap k = some c₁.heap.length := by
        show mapGet (mapSet c₁.kvMap k _) k = _
        rw [mapGet_mapSet]
        simp
      have h2 : (inserted c₁ k v).heap[c₁.heap.length]? =
          some (.node { key := k, value := v, freq := 1 }) := by
        show (c₁.heap ++ [_])[c₁.heap.length]? = _
        simp
      simp only [nodeOf, h1, nodeAt, h2]
    | some e =>
      obtain ⟨n, l, hn, hnk, hl', hA, hwf'⟩ := addEntry_some_lfu hwf₁ v hg
      rw [hA] at h
      cases h
      have helt : e < c₁.heap.length := (List.getElem?_eq_some.mp hn).1
      refine ⟨{ n with value := v, freq := n.freq + 1 }, ?_, hnk, rfl⟩
      have h1 : mapGet (bumped (revalued c₁ e n v) e { n with value := v } l).kvMap k =
          some e := hg
      have h2 : (bumped (revalued c₁ e n v) e { n with value := v } l).heap[e]? =
          some (.node { n with value := v, freq := n.freq + 1 }) := by
        show (((c₁.heap.set e _).set e _) ++ [_])[e]? = _
        rw [List.getElem?_append_left (by simp [helt]), List.getElem?_set]
        simp [helt]
      simp only [nodeOf, h1, nodeAt, h2]

end lfu

/-! ## ARC: what the ghost lists hold -/

namespace arc

variable {V : Type} [Lengthable V]

/-- C20 (counterexample). On the ARC cache of capacity 10 holding `a` and `b` in the live
LRU list, `replace` moves `a` to the ghost of the LRU list together with its value `1234`:
the ghost list returns the value on lookup and counts 5 bytes for the entry, not the
1 byte of the key. -/
theorem arc_ghost_holds_value_counterexample :
    run 1 (New 10 false) [.add "a" "1234", .add "b" "1234"] = .ok demoPair ∧
      replace 1 demoPair "cc" = .ok demoMoved ∧
      (lru.Get demoMoved.ghostLru "a").result.map Prod.fst = some (some "1234") ∧
      demoMoved.ghostLru.CurrByte = 5 ∧ keyLen "a" = 1 := by
  decide

/-- C20 (amended). Whenever `replace` completes on a state reached by completed Add/Get
calls, it has moved the evicted entry into the ghost list together with its value: either
the back entry `(k, v)` of the live LRU list is now the front entry of `ghostLru`, or the
evicted entry `(k, v)` of the live LFU list is now held by `ghostLfu` with value `v`; and
the byte cost of each ghost list is the sum of `len(k) + v.Len()` over its entries. -/
theorem arc_ghost_keeps_value (C : Int) (cb : Bool) (c : Cache V) (hr : Reachable C cb c)
    (fuel : Nat) (key : String) (c' : Cache V) (h : replace fuel c key = .ok c') :
    ((∃ k v l, lru.Evict c.lru = .ok ((k, some v), l) ∧ c'.lru = l ∧
        (lru.entries c'.ghostLru).head? = some { key := k, value := v }) ∨
      (∃ k v f, lfu.Evict c.lfu = .ok ((k, some v), f) ∧ c'.lfu = f ∧
        ∃ n, lfu.nodeOf c'.ghostLfu k = some n ∧ n.key = k ∧ n.value = v)) ∧
      c'.ghostLru.CurrByte = lru.totalCost (lru.entries c'.ghostLru) ∧
      c'.ghostLfu.CurrByte = lfu.totalCost (lfu.liveNodes c'.ghostLfu) := by
  have hinv := hr.arc_inv
  have hinv' := (replace_ok hinv h).1
  refine ⟨?_, hinv'.wfGhostLru.cost, hinv'.wfGhostLfu.cost⟩
  unfold replace at h
  split at h
  · left
    cases hE : lru.Evict c.lru with
    | panic => simp [hE] at h
    | timeout => simp [hE] at h
    | ok p =>
      obtain ⟨⟨k, ov⟩, l⟩ := p
      cases ov with
      | none => simp [hE] at h
      | some v =>
        cases hA : lru.Add fuel c.ghostLru k v with
        | panic => simp [hE, hA] at h
        | timeout => simp [hE, hA] at h
        | ok g =>
          simp only [hE, hA, Outcome.ok.injEq] at h
          subst h
          refine ⟨k, v, l, rfl, rfl, ?_⟩
          show (lru.entries g).head? = _
          obtain ⟨j, c₁, hT, _, _, hcase⟩ := lru.Add_ok hinv.wfGhostLru hA
          rcases hcase with ⟨_, rfl⟩ | ⟨e, old, hg, hold, hk, rfl⟩
          · rw [lru.entries_inserted hT.wf]
            rfl
          · have he : e ∈ c₁.doublyLinkedList := ((hT.wf.index k e).mp hg).1
            obtain ⟨E₁, E₂, _, h2⟩ := lru.entries_updated hT.wf v he hold
            rw [h2, ← hk]
            rfl
  · right
    cases hE : lfu.Evict c.lfu with
    | panic => simp [hE] at h
    | timeout => simp [hE] at h
    | ok p =>
      obtain ⟨⟨k, ov⟩, f⟩ := p
      cases ov with
      | none => simp [hE] at h
      | some v =>
        cases hA : lfu.Add fuel c.ghostLfu k v with
        | panic => simp [hE, hA] at h
        | timeout => simp [hE, hA] at h
        | ok g =>
          simp only [hE, hA, Outcome.ok.injEq] at h
          subst h
          exact ⟨k, v, f, rfl, rfl, lfu.Add_value_lfu hinv.wfGhostLfu hA⟩

theorem arc_ghost_keeps_value_witness :
    replace 1 demoPair "cc" = .ok demoMoved ∧
      (((∃ k v l, lru.Evict demoPair.lru = .ok ((k, some v), l) ∧ demoMoved.lru = l ∧
          (lru.entries demoMoved.ghostLru).head? = some { key := k, value := v }) ∨
        (∃ k v f, lfu.Evict demoPair.lfu = .ok ((k, some v), f) ∧ demoMoved.lfu = f ∧
          ∃ n, lfu.nodeOf demoMoved.ghostLfu k = some n ∧ n.key = k ∧ n.value = v)) ∧
        demoMoved.ghostLru.CurrByte = lru.totalCost (lru.entries demoMoved.ghostLru) ∧
        demoMoved.ghostLfu.CurrByte = lfu.totalCost (lfu.liveNodes demoMoved.ghostLfu)) :=
  ⟨by decide,
    arc_ghost_keeps_value 10 false demoPair
      (reachable_of_run_arc 10 false 1 [.add "a" "1234", .add "b" "1234"]
        (New 10 false) demoPair Reachable.init (by decide))
      1 "cc" demoMoved (by decide)⟩

end arc

/-! ## Group: lookups through the cache and the origin -/

namespace simplegroupcache

theorem CacheStrategy.Get_miss_engine {e : CacheStrategy} {key : String} (fuel : Nat)
    (h : e.Contains key = false) : e.Get fuel key = .ok (none, e) := by
  cases e with
  | lru c =>
    have h1 : mapGet c.hashmap key = none := (lru.Contains_eq_false_iff c key).mp h
    simp [CacheStrategy.Get, lru.Get_miss h1]
  | lfu c =>
    have h1 : mapGet c.kvMap key = none := (lfu.Contains_eq_false_iff_lfu c key).mp h
    simp [CacheStrategy.Get, lfu.Get_miss_lfu h1]
  | arc c =>
    simp only [CacheStrategy.Contains, Bool.or_eq_false_iff] at h
    have h1 : mapGet c.lru.hashmap key = none := (lru.Contains_eq_false_iff c.lru key).mp h.1
    have h2 : mapGet c.lfu.kvMap key = none := (lfu.Contains_eq_false_iff_lfu c.lfu key).mp h.2
    simp [CacheStrategy.Get, arc.Get, lru.Get_miss h1, lfu.Get_miss_lfu h2]

theorem mutexCache.get_miss_cache {c : mutexCache} {key : String} (fuel : Nat)
    (h : c.Contains key = false) : c.get fuel key = .ok (({ b := [] }, false), c) := by
  obtain ⟨cache, capacity⟩ := c
  cases cache with
  | none => rfl
  | some e =>
    have h1 : e.Contains key = false := h
    simp [mutexCache.get, CacheStrategy.Get_miss_engine fuel h1]

theorem Group.landed_free (g : Group) (key : String) :
    mapGet (g.landed key).flight.records key = none := by
  show mapGet (mapDelete _ key) key = none
  rw [mapGet_mapDelete]
  simp

/-- A `Get` of a key the cache does not hold, with no picker and an origin that fails. -/
theorem Group.Get_origin_error (fuel : Nat) (g : Group) (key : String) (bytes : Bytes)
    (e : String) (log : List Event) (hkey : key ≠ "") (hsrv : g.server = none)
    (hmiss : g.cache.Contains key = false) (horigin : g.retriever key = (bytes, some e))
    (hfree : mapGet g.flight.records key = none) :
    Group.Get fuel g key log =
      .ok (({ b := [] }, some e), g.landed key, log ++ [.retrieve key]) := by
  obtain ⟨name, cache, retriever, server, flight⟩ := g
  simp only at hsrv hmiss horigin hfree
  subst hsrv
  simp [Group.Get, hkey, mutexCache.get_miss_cache fuel hmiss, Group.load, singlefilght.Fly,
    hfree, Group.loader, Group.getLocally, horigin, Group.landed]

/-- C14. Origin errors propagate and cache nothing: for a group with no peer picker and a
non-empty key that the cache does not hold (and that no flight is under way for), if the
origin returns the error `e` then `Get` returns the empty `ByteView` together with `e`
after one call of the origin, the cache is unchanged, and a following `Get` of the key
calls the origin again, with the same result. -/
theorem group_origin_error_propagates (fuel : Nat) (g : Group) (key : String) (bytes : Bytes)
    (e : String) (log : List Event) (hkey : key ≠ "") (hsrv : g.server = none)
    (hmiss : g.cache.Contains key = false) (horigin : g.retriever key = (bytes, some e))
    (hfree : mapGet g.flight.records key = none) :
    ∃ g' g'', Group.Get fuel g key log =
        .ok (({ b := [] }, some e), g', log ++ [.retrieve key]) ∧
      g'.cache = g.cache ∧
      Group.Get fuel g' key (log ++ [.retrieve key]) =
        .ok (({ b := [] }, some e), g'', log ++ [.retrieve key] ++ [.retrieve key]) ∧
      g''.cache = g.cache :=
  ⟨g.landed key, (g.landed key).landed key,
    Group.Get_origin_error fuel g key bytes e log hkey hsrv hmiss horigin hfree, rfl,
    Group.Get_origin_error fuel (g.landed key) key bytes e _ hkey hsrv hmiss horigin
      (Group.landed_free g key), rfl⟩

theorem group_origin_error_propagates_witness :
    ∃ g' g'', Group.Get 1 (scores 2048 "lru") "unknown" [] =
        .ok (({ b := [] }, some "unknown not exist"), g', [] ++ [.retrieve "unknown"]) ∧
      g'.cache = (scores 2048 "lru").cache ∧
      Group.Get 1 g' "unknown" ([] ++ [.retrieve "unknown"]) =
        .ok (({ b := [] }, some "unknown not exist"), g'',
          [] ++ [.retrieve "unknown"] ++ [.retrieve "unknown"]) ∧
      g''.cache = (scores 2048 "lru").cache :=
  group_origin_error_propagates 1 (scores 2048 "lru") "unknown" [] "unknown not exist" []
    (by decide) rfl (by decide) (by decide) (by decide)

/-- C13 (the code at the failing input). On the group `NewGroup("scores", 7, "lfu", db)`
with no picker, `Get("Tom")` twice returns `630` with one call of the origin.  The next
call, the first `Get("Sam")`, whose entry of cost 6 fits the capacity 7, panics: the origin
is called, `cache.add` runs the capacity loop of `lfu.Add`, and `lfu.Evict` finds a wrapper
element at the back of the bucket of `minFreq`.  With the engine `arc` and capacity 0 the
first `Get("Tom")` panics.  No amount of fuel makes the three calls return.  With the
engine `lru` the scenario of `TestGet` runs through with one call of the origin per key. -/
theorem group_get_panics_after_hit :
    scoresDb "Sam" = ([53, 54, 55], none) ∧
      kvCost "Sam" ({ b := [53, 54, 55] } : ByteView) ≤ 7 ∧
      observed (Group.getAll 2 (scores 7 "lfu") ["Tom", "Tom"] []) =
        .ok ([({ b := [54, 51, 48] }, none), ({ b := [54, 51, 48] }, none)],
          [.retrieve "Tom"]) ∧
      observed (Group.getAll 2 (scores 7 "lfu") ["Tom", "Tom", "Sam"] []) = .panic ∧
      observed (Group.getAll 2 (scores 0 "arc") ["Tom"] []) = .panic ∧
      (∀ fuel, (observed (Group.getAll fuel (scores 7 "lfu") ["Tom", "Tom", "Sam"] [])).result =
        none) ∧
      observed (Group.getAll 2 (scores 2048 "lru")
          ["Tom", "Tom", "Jack", "Jack", "Sam", "Sam"] []) =
        .ok ([({ b := [54, 51, 48] }, none), ({ b := [54, 51, 48] }, none),
            ({ b := [53, 56, 57] }, none), ({ b := [53, 56, 57] }, none),
            ({ b := [53, 54, 55] }, none), ({ b := [53, 54, 55] }, none)],
          [.retrieve "Tom", .retrieve "Jack", .retrieve "Sam"]) := by
  refine ⟨by decide, by decide, by decide, by decide, by decide, ?_, by decide⟩
  intro fuel
  cases fuel with
  | zero => decide
  | succ n =>
    have e1 : ("Tom" = "") = False := by decide
    have e2 : ("Sam" = "") = False := by decide
    have e3 : ("Sam" = "Tom") = False := by decide
    have e4 : ("Sam" = "Jack") = False := by decide
    have e5 : ("lfu" = "lru") = False := by decide
    have k1 : keyLen "Tom" = 3 := by decide
    have k2 : keyLen "Sam" = 3 := by decide
    have h : observed (Group.getAll (n + 1) (scores 7 "lfu") ["Tom", "Tom", "Sam"] []) =
        .panic := by
      simp [observed, Group.getAll, Group.Get, scores, newCache, mutexCache.get,
        mutexCache.add, CacheStrategy.Get, CacheStrategy.Add, lfu.Get, lfu.Add, lfu.evictLoop,
        lfu.Evict, lfu.addEntry, lfu.updateFreq, lfu.bucketRemove, lfu.New, Group.load,
        singlefilght.Fly, singlefilght.Flight.records, Group.loader, Group.getLocally,
        scoresDb, cloneBytes, mapGet, mapSet, mapDelete, kvCost, k1, k2, Lengthable.Len,
        ByteView.Len, listBack, listRemove, e1, e2, e3, e4, e5, lfu.attached]
    rw [h]
    rfl

/-- C15 (counterexample). `NewGroup("scores", 10, "lru", db)` registers the group with
handle 0; `NewGroup("scores", 20, "lfu", db)` then registers the group with handle 1 under
the same name, and `GetGroup("scores")` returns handle 1, the group of capacity 20. -/
theorem group_registration_counterexample :
    (NewGroup Registry.init "scores" 10 "lru" (some scoresDb)).result.bind
        (fun p1 => (NewGroup p1.2 "scores" 20 "lfu" (some scoresDb)).result.map
          (fun p2 => (p1.1, GetGroup p1.2 "scores", p2.1, GetGroup p2.2 "scores",
            ((GetGroup p2.2 "scores").bind (fun h => p2.2.heap[h]?)).map
              (fun g => g.cache.capacity)))) =
      some (0, some 0, 1, some 1, some 20) := by
  decide

/-- C15 (amended). Group registration overwrites: a `NewGroup` call with a non-nil origin
always registers its new group, also under a name already taken.  After two calls with the
same name, `GetGroup(name)` returns the group built by the second call, which is not the
group registered first, and every other name is registered as before. -/
theorem group_registration_overwrites (r : Registry) (name : String) (m1 m2 : Int)
    (s1 s2 : String) (ret1 ret2 : Retriever) :
    ∃ h1 r1 h2 r2, NewGroup r name m1 s1 (some ret1) = .ok (h1, r1) ∧
      NewGroup r1 name m2 s2 (some ret2) = .ok (h2, r2) ∧
      GetGroup r1 name = some h1 ∧ GetGroup r2 name = some h2 ∧ h2 ≠ h1 ∧
      (r2.heap[h2]?).map (fun g => (g.name, g.cache)) = some (name, newCache m2 s2) ∧
      (r2.heap[h1]?).map (fun g => (g.name, g.cache)) = some (name, newCache m1 s1) ∧
      ∀ n, GetGroup r2 n = if n = name then some h2 else GetGroup r n := by
  refine ⟨r.heap.length, _, _, _, rfl, rfl, ?_, ?_, ?_, ?_, ?_, ?_⟩
  · simp [GetGroup, mapGet_mapSet]
  · simp [GetGroup, mapGet_mapSet]
  · simp
  · rw [List.getElem?_append_right (le_refl _)]
    simp
  · rw [List.getElem?_append_left (by simp), List.getElem?_append_right (le_refl _)]
    simp
  · intro n
    simp only [GetGroup, mapGet_mapSet]
    split <;> rfl

end simplegroupcache

/-! ## Further facts: what holds around the failing inputs -/

namespace lru

variable {V : Type} [Lengthable V]

/-- After a completed `Add(k, v)` on a well-formed cache, `Get(k)` returns `v`. -/
theorem Add_then_Get {fuel : Nat} {c c' : Cache V} {k : String} {v : V} (hwf : WF c)
    (hA : Add fuel c k v = .ok c') : ∃ c'', Get c' k = .ok (some v, c'') := by
  obtain ⟨hwf', _, _, _⟩ := Add_WF hwf hA
  obtain ⟨j, c₁, hT, hstop, _, hcase⟩ := Add_ok hwf hA
  have hkey : ∃ e, mapGet c'.hashmap k = some e ∧
      c'.heap[e]? = some { key := k, value := v } := by
    rcases hcase with ⟨_, rfl⟩ | ⟨e, old, hg, hold, hk, rfl⟩
    · refine ⟨c₁.heap.length, ?_, ?_⟩
      · show mapGet (mapSet c₁.hashmap k c₁.heap.length) k = _
        rw [mapGet_mapSet]
        simp
      · show (c₁.heap ++ [_])[c₁.heap.length]? = _
        rw [List.getElem?_concat_length]
    · refine ⟨e, hg, ?_⟩
      have hlt : e < c₁.heap.length := hT.wf.bound e ((hT.wf.index k e).mp hg).1
      show (c₁.heap.set e { old with value := v })[e]? = _
      rw [List.getElem?_set]
      simp [hlt, ← hk]
  obtain ⟨e, hg, hv⟩ := hkey
  obtain ⟨n, hn, _, hG⟩ := Get_hit hwf' hg
  rw [hv] at hn
  cases hn
  exact ⟨_, hG⟩

end lru

namespace arc

variable {V : Type} [Lengthable V]

/-- A `Get` of a key in neither live list returns not-found and leaves the state as it is. -/
theorem Get_miss_arc (fuel : Nat) (c : Cache V) (key : String)
    (h1 : lru.Contains c.lru key = false) (h2 : lfu.Contains c.lfu key = false) :
    Get fuel c key = .ok (none, c) := by
  have g1 : mapGet c.lru.hashmap key = none := (lru.Contains_eq_false_iff c.lru key).mp h1
  have g2 : mapGet c.lfu.kvMap key = none := (lfu.Contains_eq_false_iff_lfu c.lfu key).mp h2
  simp [Get, lru.Get_miss g1, lfu.Get_miss_lfu g2]

end arc

namespace simplegroupcache

/-- On a group with the engine `lru` and no picker, for a non-empty key the cache does not
hold and an origin that returns `bytes` for an entry that fits, the first `Get` returns
`bytes` after one call of the origin, and the `Get` that follows returns `bytes` without a
call of the origin. -/
theorem Group.Get_twice_lru (fuel : Nat) (g : Group) (c : lru.Cache ByteView) (key : String)
    (bytes : Bytes) (log : List Event) (hc : g.cache.cache = some (.lru c)) (hwf : lru.WF c)
    (hkey : key ≠ "") (hsrv : g.server = none) (hmiss : lru.Contains c key = false)
    (horigin : g.retriever key = (bytes, none))
    (hfit : c.MaxByte = 0 ∨ kvCost key ({ b := bytes } : ByteView) ≤ c.MaxByte)
    (hfree : mapGet g.flight.records key = none) (hfuel : c.doublyLinkedList.length < fuel) :
    ∃ g' g'', Group.Get fuel g key log =
        .ok (({ b := bytes }, none), g', log ++ [.retrieve key]) ∧
      Group.Get fuel g' key (log ++ [.retrieve key]) =
        .ok (({ b := bytes }, none), g'', log ++ [.retrieve key]) := by
  obtain ⟨c', hA⟩ := lru.Add_total hwf hfit fuel hfuel
  obtain ⟨c'', hG⟩ := lru.Add_then_Get hwf hA
  obtain ⟨name, ⟨cache, capacity⟩, retriever, server, flight⟩ := g
  simp only at hc hsrv horigin hfree
  subst hc hsrv
  have hm : mutexCache.Contains { cache := some (.lru c), capacity := capacity } key = false :=
    hmiss
  refine ⟨
    { name := name, cache := { cache := some (.lru c'), capacity := capacity },
      retriever := retriever, server := none,
      flight := { flight := some (mapDelete
        (mapSet flight.records key { done := false, val := none, err := none }) key) } },
    { name := name, cache := { cache := some (.lru c''), capacity := capacity },
      retriever := retriever, server := none,
      flight := { flight := some (mapDelete
        (mapSet flight.records key { done := false, val := none, err := none }) key) } },
    ?_, ?_⟩
  · simp only [Group.Get, if_neg hkey, mutexCache.get_miss_cache fuel hm, Group.load,
      singlefilght.Fly, hfree, Group.loader, Group.getLocally, horigin, mutexCache.add,
      CacheStrategy.Add, cloneBytes, hA]
  · simp only [Group.Get, if_neg hkey, mutexCache.get, CacheStrategy.Get, hG]

/-- A completed `Get` on a group with no picker and no flight under way leaves the group
without picker and without flight, with its name and origin. -/
theorem Group.Get_idle {fuel : Nat} {g g' : Group} {key : String} {log log' : List Event}
    {r : ByteView × GoError} (hfree : g.flight.records = []) (hsrv : g.server = none)
    (h : Group.Get fuel g key log = .ok (r, g', log')) :
    g'.flight.records = [] ∧ g'.server = none ∧ g'.retriever = g.retriever ∧
      g'.name = g.name := by
  obtain ⟨name, cache, retriever, server, flight⟩ := g
  simp only at hfree hsrv
  subst hsrv
  unfold Group.Get at h
  split at h
  · cases h
    exact ⟨hfree, rfl, rfl, rfl⟩
  · cases hg : cache.get fuel key with
    | panic => simp [hg] at h
    | timeout => simp [hg] at h
    | ok p =>
      obtain ⟨⟨v, hit⟩, c'⟩ := p
      cases hit with
      | true =>
        simp only [hg, Outcome.ok.injEq, Prod.mk.injEq] at h
        obtain ⟨_, hg', _⟩ := h
        subst hg'
        exact ⟨hfree, rfl, rfl, rfl⟩
      | false =>
        simp only [hg] at h
        cases hr : retriever key with
        | mk bytes err =>
          cases err with
          | some e =>
            simp only [Group.load, singlefilght.Fly, hfree, mapGet, Group.loader,
              Group.getLocally, hr, Outcome.ok.injEq, Prod.mk.injEq] at h
            obtain ⟨_, hg', _⟩ := h
            subst hg'
            exact ⟨by simp [singlefilght.Flight.records, mapSet, mapDelete], rfl, rfl, rfl⟩
          | none =>
            cases ha : c'.add fuel key { b := cloneBytes bytes } with
            | panic =>
              simp [Group.load, singlefilght.Fly, hfree, mapGet, Group.loader,
                Group.getLocally, hr, ha] at h
            | timeout =>
              simp [Group.load, singlefilght.Fly, hfree, mapGet, Group.loader,
                Group.getLocally, hr, ha] at h
            | ok c'' =>
              simp only [Group.load, singlefilght.Fly, hfree, mapGet, Group.loader,
                Group.getLocally, hr, ha, Outcome.ok.injEq, Prod.mk.injEq] at h
              obtain ⟨_, hg', _⟩ := h
              subst hg'
              exact ⟨by simp [singlefilght.Flight.records, mapSet, mapDelete], rfl, rfl, rfl⟩

/-- Every group reached by completed `Get` calls from a group that `NewGroup` built has no
picker and no flight under way. -/
theorem Group.Reachable.idle {g₀ g : Group} (h₀ : g₀.flight.records = [])
    (hs₀ : g₀.server = none) (h : Group.Reachable g₀ g) :
    g.flight.records = [] ∧ g.server = none ∧ g.retriever = g₀.retriever ∧
      g.name = g₀.name := by
  induction h with
  | init => exact ⟨h₀, hs₀, rfl, rfl⟩
  | step fuel key log log' r g g' _ hG ih =>
    obtain ⟨h1, h2, h3, h4⟩ := Group.Get_idle ih.1 ih.2.1 hG
    exact ⟨h1, h2, h3.trans ih.2.2.1, h4.trans ih.2.2.2⟩

end simplegroupcache

/-! ## ARC: the bias update on a hit in the ghost of the LRU list -/

namespace arc

variable {V : Type} [Lengthable V]

/-- What a completed `Add` of a key found in `ghostLru` (and in neither live list) does to
`part`: it adds the step `delta` of the code and clamps at `maxByte`. -/
theorem Add_ghostLru_part {fuel : Nat} {c c' : Cache V} {key : String} {v : V}
    (h1 : lru.Contains c.lru key = false) (h2 : lfu.Contains c.lfu key = false)
    (h3 : lru.Contains c.ghostLru key = true) (h : Add fuel c key v = .ok c') :
    c'.part = min c.maxByte (c.part + codeDelta c key v) ∧ c'.maxByte = c.maxByte := by
  unfold Add at h
  rw [if_neg (by simp [h1]), if_neg (by simp [h2]), if_pos h3] at h
  unfold addGhostLru at h
  simp only at h
  have hd : ∀ delta, (if c.ghostLru.CurrByte < c.ghostLfu.CurrByte
      then scaled (lfu.Len c.ghostLfu) (lru.Len c.ghostLru) (kvCost key v)
      else Outcome.ok (kvCost key v)) = .ok delta → delta = codeDelta c key v := by
    intro delta hdel
    unfold codeDelta
    split at hdel
    · unfold scaled at hdel
      split at hdel
      · cases hdel
      · cases hdel
        rw [if_pos (by assumption)]
    · cases hdel
      rw [if_neg (by assumption)]
  cases hdel : (if c.ghostLru.CurrByte < c.ghostLfu.CurrByte
      then scaled (lfu.Len c.ghostLfu) (lru.Len c.ghostLru) (kvCost key v)
      else Outcome.ok (kvCost key v)) with
  | panic => simp [hdel] at h
  | timeout => simp [hdel] at h
  | ok delta =>
    have hcd := hd delta hdel
    rw [hdel] at h
    simp only at h
    cases hR : replaceIfFull fuel
        { c with part := if c.part + delta < c.maxByte then c.part + delta else c.maxByte }
        key with
    | panic => simp [hR] at h
    | timeout => simp [hR] at h
    | ok c2 =>
      obtain ⟨hp, hm⟩ := replaceIfFull_bias hR
      simp only at hp hm
      rw [hR] at h
      simp only at h
      cases hG : lru.Remove c2.ghostLru key with
      | panic => simp [hG] at h
      | timeout => simp [hG] at h
      | ok g =>
        cases hA : lfu.Add fuel c2.lfu key v with
        | panic => simp [hG, hA] at h
        | timeout => simp [hG, hA] at h
        | ok f =>
          simp only [hG, hA, Outcome.ok.injEq] at h
          subst h
          refine ⟨?_, hm⟩
          show c2.part = _
          rw [hp, ← hcd]
          split
          · rw [min_eq_right (by omega)]
          · rw [min_eq_left (by omega)]

/-- C21 (the code at the failing input). On the ARC cache of capacity 12, after
`Add(a,1)`, `Add(b,1)`, `Add(c,1)`, `Add(f,12345)`, `Add(g,1)`, `Add(h,1)`, `Add(i,1)`,
`Get(f)`, `Add(a,12345)` the key `b` is in B1 and in neither T1 nor T2, B1 holds 2 entries
(4 bytes), B2 holds 1 entry (6 bytes) and `part` is 6.  `Add(b,1)`, an entry of 2 bytes,
completes and leaves `part` at 6: the code takes the scaled branch because B1 has fewer
bytes than B2, and the quotient of the entry counts, 1 / 2, is 0.  The formula of the
specification gives `min(12, 6 + 2) = 8`. -/
theorem arc_bias_stalls_on_ghost_hit :
    run 2 (New 12 false)
        [.add "a" "1", .add "b" "1", .add "c" "1", .add "f" "12345", .add "g" "1",
          .add "h" "1", .add "i" "1", .get "f", .add "a" "12345"] = .ok demoStall ∧
      lru.Contains demoStall.ghostLru "b" = true ∧
      lru.Contains demoStall.lru "b" = false ∧ lfu.Contains demoStall.lfu "b" = false ∧
      lru.Len demoStall.ghostLru = 2 ∧ lfu.Len demoStall.ghostLfu = 1 ∧
      demoStall.ghostLru.CurrByte = 4 ∧ demoStall.ghostLfu.CurrByte = 6 ∧
      demoStall.part = 6 ∧ demoStall.maxByte = 12 ∧ kvCost "b" "1" = 2 ∧
      codeDelta demoStall "b" "1" = 0 ∧
      (Add 2 demoStall "b" "1").result.map (fun c => c.part) = some 6 ∧
      specBias 12 6 2 2 1 = 8 := by
  decide

end arc

/-! ## Single flight, one caller at a time -/

namespace singlefilght

variable {α σ : Type}

/-- C23. Single-flight, sequential case: when the flight map holds no record for `key`,
`Fly(key, fn)` runs `fn` once (the state after the call is the state after one run of
`fn`), returns the pair `fn` returned, and leaves the map with its records as before, none
of them for `key`; the next `Fly(key, fn')` then runs `fn'` and returns its pair. -/
theorem fly_sequential (f : Flight α) (key : String)
    (fn fn' : σ → Outcome ((Option α × GoError) × σ)) (s s' s'' : σ)
    (r r' : Option α × GoError) (hfree : mapGet f.records key = none)
    (hfn : fn s = .ok (r, s')) (hfn' : fn' s' = .ok (r', s'')) :
    Fly f key fn s = .ok (r, { flight := some f.records }, s') ∧
      mapGet ({ flight := some f.records } : Flight α).records key = none ∧
      (∀ k, mapGet ({ flight := some f.records } : Flight α).records k = mapGet f.records k) ∧
      Fly { flight := some f.records } key fn' s' =
        .ok (r', { flight := some f.records }, s'') := by
  have hdel : mapDelete (mapSet f.records key
      ({ done := false, val := none, err := none } : packet α)) key = f.records := by
    rw [mapDelete_mapSet, mapDelete_of_none hfree]
  obtain ⟨val, err⟩ := r
  obtain ⟨val', err'⟩ := r'
  refine ⟨?_, hfree, fun _ => rfl, ?_⟩
  · simp only [Fly, hfree, hfn, hdel]
  · have hfree' : mapGet ({ flight := some f.records } : Flight α).records key = none := hfree
    have hrec : ({ flight := some f.records } : Flight α).records = f.records := rfl
    simp only [Fly, hfree', hfn', hrec, hfree, hdel]

theorem fly_sequential_witness :
    Fly demoFlight "Tom" (counted (some "630", none)) 0 =
        .ok ((some "630", none), { flight := some demoFlight.records }, 1) ∧
      mapGet ({ flight := some demoFlight.records } : Flight String).records "Tom" = none ∧
      (∀ k, mapGet ({ flight := some demoFlight.records } : Flight String).records k =
        mapGet demoFlight.records k) ∧
      Fly { flight := some demoFlight.records } "Tom" (counted (none, some "db down")) 1 =
        .ok ((none, some "db down"), { flight := some demoFlight.records }, 2) :=
  fly_sequential demoFlight "Tom" (counted (some "630", none))
    (counted (none, some "db down")) 0 1 2 (some "630", none) (none, some "db down")
    (by decide) rfl rfl

end singlefilght

/-! ## Group: loading through a peer -/

namespace simplegroupcache

/-- With a picker that names a peer whose fetch succeeds, a `Get` of a key the cache does
not hold returns the peer's bytes; the origin is not called and the cache is unchanged. -/
theorem Group.Get_peer_fetched (fuel : Nat) (g : Group) (key : String) (picker : Picker)
    (fetcher : Fetcher) (b : Bytes) (log : List Event) (hkey : key ≠ "")
    (hsrv : g.server = some picker) (hpick : picker key = some fetcher)
    (hfetch : fetcher g.name key = (b, none)) (hmiss : g.cache.Contains key = false)
    (hfree : mapGet g.flight.records key = none) :
    Group.Get fuel g key log =
      .ok (({ b := b }, none), g.landed key, log ++ [.fetch g.name key]) := by
  obtain ⟨name, cache, retriever, server, flight⟩ := g
  simp only at hsrv hmiss hfetch hfree
  subst hsrv
  simp [Group.Get, hkey, mutexCache.get_miss_cache fuel hmiss, Group.load, singlefilght.Fly,
    hfree, Group.loader, hpick, hfetch, Group.landed, cloneBytes]

/-- With a picker that names a peer whose fetch fails, and an origin that fails, `Get`
returns the error of the origin. -/
theorem Group.Get_peer_failed_origin_error (fuel : Nat) (g : Group) (key : String)
    (picker : Picker) (fetcher : Fetcher) (b0 b : Bytes) (e0 e : String) (log : List Event)
    (hkey : key ≠ "") (hsrv : g.server = some picker) (hpick : picker key = some fetcher)
    (hfetch : fetcher g.name key = (b0, some e0)) (horigin : g.retriever key = (b, some e))
    (hmiss : g.cache.Contains key = false) (hfree : mapGet g.flight.records key = none) :
    Group.Get fuel g key log =
      .ok (({ b := [] }, some e), g.landed key,
        log ++ [.fetch g.name key] ++ [.retrieve key]) := by
  obtain ⟨name, cache, retriever, server, flight⟩ := g
  simp only at hsrv hmiss hfetch hfree horigin
  subst hsrv
  simp [Group.Get, hkey, mutexCache.get_miss_cache fuel hmiss, Group.load, singlefilght.Fly,
    hfree, Group.loader, hpick, hfetch, Group.getLocally, horigin, Group.landed]

/-- With a picker that names a peer whose fetch fails, and an origin that returns `b`:
if `cache.add` completes, `Get` returns `b` and the group holds the cache `add` left. -/
theorem Group.Get_peer_failed_origin_ok (fuel : Nat) (g : Group) (key : String)
    (picker : Picker) (fetcher : Fetcher) (b0 b : Bytes) (e0 : String) (log : List Event)
    (c' : mutexCache) (hkey : key ≠ "") (hsrv : g.server = some picker)
    (hpick : picker key = some fetcher) (hfetch : fetcher g.name key = (b0, some e0))
    (horigin : g.retriever key = (b, none)) (hmiss : g.cache.Contains key = false)
    (hfree : mapGet g.flight.records key = none)
    (hadd : g.cache.add fuel key { b := b } = .ok c') :
    Group.Get fuel g key log =
      .ok (({ b := b }, none), { g.landed key with cache := c' },
        log ++ [.fetch g.name key] ++ [.retrieve key]) := by
  obtain ⟨name, cache, retriever, server, flight⟩ := g
  simp only at hsrv hmiss hfetch hfree horigin hadd
  subst hsrv
  simp [Group.Get, hkey, mutexCache.get_miss_cache fuel hmiss, Group.load, singlefilght.Fly,
    hfree, Group.loader, hpick, hfetch, Group.getLocally, horigin, Group.landed, cloneBytes,
    hadd]

/-- The same on a group with the engine `lru`, a well-formed cache and an entry that fits:
`cache.add` completes, `Get` returns `b`, and the cache then holds the key. -/
theorem Group.Get_peer_failed_lru (fuel : Nat) (g : Group) (c : lru.Cache ByteView)
    (key : String) (picker : Picker) (fetcher : Fetcher) (b0 b : Bytes) (e0 : String)
    (log : List Event) (hc : g.cache.cache = some (.lru c)) (hwf : lru.WF c)
    (hkey : key ≠ "") (hsrv : g.server = some picker) (hpick : picker key = some fetcher)
    (hfetch : fetcher g.name key = (b0, some e0)) (horigin : g.retriever key = (b, none))
    (hmiss : lru.Contains c key = false)
    (hfit : c.MaxByte = 0 ∨ kvCost key ({ b := b } : ByteView) ≤ c.MaxByte)
    (hfree : mapGet g.flight.records key = none) (hfuel : c.doublyLinkedList.length < fuel) :
    ∃ c', lru.Add fuel c key { b := b } = .ok c' ∧ lru.Contains c' key = true ∧
      Group.Get fuel g key log =
        .ok (({ b := b }, none),
          { g.landed key with cache := { g.cache with cache := some (.lru c') } },
          log ++ [.fetch g.name key] ++ [.retrieve key]) := by
  obtain ⟨c', hA⟩ := lru.Add_total hwf hfit fuel hfuel
  refine ⟨c', hA, (lru.Add_keys hwf hA).2.1, ?_⟩
  have hm : g.cache.Contains key = false := by
    unfold mutexCache.Contains
    rw [hc]
    exact hmiss
  have hadd : g.cache.add fuel key { b := b } =
      .ok { g.cache with cache := some (.lru c') } := by
    unfold mutexCache.add
    rw [hc]
    simp only [CacheStrategy.Add, hA]
  exact Group.Get_peer_failed_origin_ok fuel g key picker fetcher b0 b e0 log _ hkey hsrv
    hpick hfetch horigin hm hfree hadd

/-- C22 (the code at the failing input). On the group `NewGroup("scores", 7, "lfu", db)`
with a picker registered whose peer fails every fetch, `Get("Tom")` twice returns the
origin's `630`.  The next call, `Get("Sam")`, for which the fetch fails and the origin
returns `567`, panics, whatever the fuel: the insertion into the local cache runs
`lfu.Add`, whose capacity loop calls `lfu.Evict` on a bucket that ends in a wrapper
element.  With the engine `arc` and capacity 0 the first `Get("Tom")` panics.  With the
engine `lru` and capacity 4 the first `Get("Tom")` never returns: the entry of 6 bytes
keeps `lru.Add` in its capacity loop.  With the engine `lru` and room for the entries the
calls behave as claimed: a failed fetch falls back to the origin and the
value is cached (the second `Get` calls neither peer nor origin), an origin error is
returned, and a successful fetch returns the peer's bytes and caches nothing. -/
theorem group_peer_fallback_panics :
    scoresDb "Sam" = ([53, 54, 55], none) ∧
      ((scores 7 "lfu").RegisterSvr peerDown).result.map (fun g => g.cache) =
        some (scoresVia 7 "lfu" peerDown).cache ∧
      observed (Group.getAll 2 (scoresVia 7 "lfu" peerDown) ["Tom", "Tom"] []) =
        .ok ([({ b := [54, 51, 48] }, none), ({ b := [54, 51, 48] }, none)],
          [.fetch "scores" "Tom", .retrieve "Tom"]) ∧
      observed (Group.getAll 2 (scoresVia 7 "lfu" peerDown) ["Tom", "Tom", "Sam"] []) =
        .panic ∧
      (∀ fuel,
        (observed (Group.getAll fuel (scoresVia 7 "lfu" peerDown)
          ["Tom", "Tom", "Sam"] [])).result = none) ∧
      observed (Group.getAll 2 (scoresVia 0 "arc" peerDown) ["Tom"] []) = .panic ∧
      (∀ fuel,
        observed (Group.getAll fuel (scoresVia 4 "lru" peerDown) ["Tom"] []) = .timeout) ∧
      observed (Group.getAll 2 (scoresVia 2048 "lru" peerDown) ["Tom", "Tom", "unknown"] []) =
        .ok ([({ b := [54, 51, 48] }, none), ({ b := [54, 51, 48] }, none),
            ({ b := [] }, some "unknown not exist")],
          [.fetch "scores" "Tom", .retrieve "Tom", .fetch "scores" "unknown",
            .retrieve "unknown"]) ∧
      observed (Group.getAll 2 (scoresVia 2048 "lru" peerUp) ["Tom", "Tom"] []) =
        .ok ([({ b := [57, 57] }, none), ({ b := [57, 57] }, none)],
          [.fetch "scores" "Tom", .fetch "scores" "Tom"]) := by
  refine ⟨by decide, by decide, by decide, by decide, ?_, by decide, ?_, by decide,
    by decide⟩
  rotate_left
  · intro fuel
    have hA : lru.Add fuel (lru.New 4 false) "Tom" ({ b := [54, 51, 48] } : ByteView) =
        .timeout := by
      unfold lru.Add
      rw [lru.evictLoop_diverges (lru.WF_New 4 false) (by decide) (by decide) fuel]
    have e1 : ("Tom" = "") = False := by decide
    simp [observed, Group.getAll, Group.Get, scoresVia, peerDown, newCache, mutexCache.get,
      mutexCache.add, CacheStrategy.Get, CacheStrategy.Add, lru.Get, lru.New, Group.load,
      singlefilght.Fly, singlefilght.Flight.records, Group.loader, Group.getLocally,
      scoresDb, cloneBytes, mapGet, e1]
    simp [lru.New] at hA
    simp [hA]
  intro fuel
  cases fuel with
  | zero => decide
  | succ n =>
    have e1 : ("Tom" = "") = False := by decide
    have e2 : ("Sam" = "") = False := by decide
    have e3 : ("Sam" = "Tom") = False := by decide
    have e4 : ("Sam" = "Jack") = False := by decide
    have e5 : ("lfu" = "lru") = False := by decide
    have k1 : keyLen "Tom" = 3 := by decide
    have k2 : keyLen "Sam" = 3 := by decide
    have h : observed (Group.getAll (n + 1) (scoresVia 7 "lfu" peerDown)
        ["Tom", "Tom", "Sam"] []) = .panic := by
      simp [observed, Group.getAll, Group.Get, scoresVia, peerDown, newCache, mutexCache.get,
        mutexCache.add, CacheStrategy.Get, CacheStrategy.Add, lfu.Get, lfu.Add, lfu.evictLoop,
        lfu.Evict, lfu.addEntry, lfu.updateFreq, lfu.bucketRemove, lfu.New, Group.load,
        singlefilght.Fly, singlefilght.Flight.records, Group.loader, Group.getLocally,
        scoresDb, cloneBytes, mapGet, mapSet, mapDelete, kvCost, k1, k2, Lengthable.Len,
        ByteView.Len, listBack, listRemove, e1, e2, e3, e4, e5, lfu.attached]
    rw [h]
    rfl

end simplegroupcache
